import Mathlib

/-!
Shallow embedding of the xci run-execution core (graph resolver, act engine
adapter event emission, run-record event persister, run store path handling,
and the incremental step-status parser), with theorems checking the natural
language specification against it.

Sources embedded:
  * src/core/plan.ts            (expandJobIdsWithNeeds, sortJobsByNeeds)
  * src/engines/act/act-adapter.ts (ActAdapter.run event emission skeleton)
  * src/store/run-store.ts      (RunStore, getJobLogFileName, createRunEventPersister)
  * src/utils/path-safety.ts    (ensureWithinBase, sanitizePathSegment)
  * src/tui/run-view/parser.ts  (parseStepData, mergeStepStatuses; revision with
                                 matrix cursor support)
-/

namespace XCI

/-! ## JavaScript collection primitives

`AList` models a JS `Map` with string keys (iteration in insertion order,
re-`set` of an existing key keeps its position) and also a plain JS object
used as a string-keyed record.  `setAdd` models insertion into a JS `Set`
(kept as an insertion-ordered list without duplicates). -/

abbrev AList (α : Type) := List (String × α)

def alGet {α : Type} (m : AList α) (k : String) : Option α :=
  match m with
  | [] => none
  | p :: rest => if p.1 = k then some p.2 else alGet rest k

def alSet {α : Type} (m : AList α) (k : String) (v : α) : AList α :=
  match m with
  | [] => [(k, v)]
  | p :: rest => if p.1 = k then (k, v) :: rest else p :: alSet rest k v

def alKeys {α : Type} (m : AList α) : List String := m.map Prod.fst

def setAdd (s : List String) (x : String) : List String :=
  if x ∈ s then s else s ++ [x]

/-! ## Job / workflow model (src/core/types.ts, the fields the resolver uses) -/

structure JobDef where
  id : String
  needs : List String
  deriving Repr, DecidableEq

structure Workflow where
  jobs : List JobDef
  deriving Repr, DecidableEq

/-- `new Map(workflow.jobs.map((job) => [job.id, job]))` followed by `.get`:
for duplicate ids the later entry wins, hence the reverse lookup. -/
def jobMapGet (wf : Workflow) (jobId : String) : Option JobDef :=
  wf.jobs.reverse.find? (fun j => j.id = jobId)

/-- The needs list of the job an id resolves to (empty when the id is absent). -/
def needsOf (wf : Workflow) (jobId : String) : List String :=
  ((jobMapGet wf jobId).map JobDef.needs).getD []

/-! ## expandJobIdsWithNeeds (src/core/plan.ts lines 33-51)

The TypeScript `visit` marks a job as expanded only *after* recursing into
its `needs`, so the recursion depth is unbounded on cyclic graphs; `fuel`
bounds the recursion depth and `none` means the original recursion does not
terminate at that depth. -/

def visitNeeds (wf : Workflow) : Nat → List String → String → Option (List String)
  | 0, _, _ => none
  | fuel + 1, expanded, jobId =>
    if jobId ∈ expanded then some expanded
    else
      match jobMapGet wf jobId with
      | none => some expanded
      | some job =>
        match job.needs.foldlM (fun e n => visitNeeds wf fuel e n) expanded with
        | none => none
        | some exp2 => some (exp2 ++ [jobId])

/-- `needs.forEach(visit)` / `selected.forEach(visit)`: visit a list of ids
left to right, threading the expanded set, at a given recursion depth. -/
def visitSeq (wf : Workflow) (fuel : Nat) (expanded : List String)
    (ids : List String) : Option (List String) :=
  ids.foldlM (fun e n => visitNeeds wf fuel e n) expanded

def expandJobIdsWithNeeds (wf : Workflow) (selected : List String) (fuel : Nat) :
    Option (List String) :=
  visitSeq wf fuel [] selected

/-! ## sortJobsByNeeds (src/core/plan.ts lines 53-102)

Degrees are `Int` because `(inDegree.get(next) ?? 0) - 1` can go negative in
JavaScript.  The while loop is embedded as a well-founded recursion; the
auxiliary also returns the final degree map so invariants can be stated. -/

/-- The two initialisation passes: `inDegree.set(jobId, 0)` / `edges.set(jobId, new Set())`. -/
def initMaps (jobIds : List String) : AList Int × AList (List String) :=
  jobIds.foldl (fun st j => (alSet st.1 j 0, alSet st.2 j [])) ([], [])

/-- Processing one `jobId` of the second pass: for each `need` with an
in-degree entry, bump `inDegree[jobId]` and add `jobId` to `edges[need]`. -/
def addEdgesForJob (wf : Workflow) (st : AList Int × AList (List String))
    (jobId : String) : AList Int × AList (List String) :=
  match jobMapGet wf jobId with
  | none => st
  | some job =>
    job.needs.foldl
      (fun st need =>
        if (alGet st.1 need).isSome then
          (alSet st.1 jobId ((alGet st.1 jobId).getD 0 + 1),
           match alGet st.2 need with
           | some s => alSet st.2 need (setAdd s jobId)
           | none => st.2)
        else st)
      st

/-- The inner `for (const next of edges.get(jobId) ?? [])` body over a
neighbour list: decrement, store, enqueue on exact zero. -/
def relax (inDeg : AList Int) (queue : List String) :
    List String → AList Int × List String
  | [] => (inDeg, queue)
  | n :: ns =>
    let d := (alGet inDeg n).getD 0 - 1
    relax (alSet inDeg n d) (if d = 0 then queue ++ [n] else queue) ns

def posCount (m : AList Int) : Nat := (m.filter (fun p => 0 < p.2)).length

theorem posCount_nil : posCount [] = 0 := rfl

theorem posCount_cons (p : String × Int) (rest : AList Int) :
    posCount (p :: rest) = (if 0 < p.2 then 1 else 0) + posCount rest := by
  simp only [posCount, List.filter_cons]
  by_cases hp : (0 : Int) < p.2
  · simp [hp]; omega
  · simp [hp]

theorem posCount_alSet_none {m : AList Int} {k : String} {v : Int}
    (h : alGet m k = none) :
    posCount (alSet m k v) = posCount m + (if 0 < v then 1 else 0) := by
  induction m with
  | nil => simp [alSet, posCount_cons, posCount_nil]
  | cons p rest ih =>
    simp only [alGet] at h
    by_cases hk : p.1 = k
    · simp [hk] at h
    · rw [if_neg hk] at h
      simp only [alSet, if_neg hk, posCount_cons, ih h]
      omega

theorem posCount_alSet_some {m : AList Int} {k : String} {v d0 : Int}
    (h : alGet m k = some d0) :
    posCount (alSet m k v) + (if 0 < d0 then 1 else 0)
      = posCount m + (if 0 < v then 1 else 0) := by
  induction m with
  | nil => simp [alGet] at h
  | cons p rest ih =>
    simp only [alGet] at h
    by_cases hk : p.1 = k
    · rw [if_pos hk] at h
      injection h with h
      subst h
      simp only [alSet, if_pos hk, posCount_cons]
      omega
    · rw [if_neg hk] at h
      have := ih h
      simp only [alSet, if_neg hk, posCount_cons]
      omega

theorem relax_measure (ns : List String) (inDeg : AList Int) (queue : List String) :
    ((relax inDeg queue ns).2).length + 2 * posCount (relax inDeg queue ns).1
      ≤ queue.length + 2 * posCount inDeg := by
  induction ns generalizing inDeg queue with
  | nil => simp [relax]
  | cons n ns ih =>
    simp only [relax]
    cases h : alGet inDeg n with
    | none =>
      have hpc := posCount_alSet_none (m := inDeg) (k := n) (v := (0 : Int) - 1) h
      rw [if_neg (show ¬ ((0 : Int) < 0 - 1) by omega)] at hpc
      simp only [h, Option.getD_none]
      rw [if_neg (show ¬ ((0 : Int) - 1 = 0) by omega)]
      have := ih (alSet inDeg n ((0 : Int) - 1)) queue
      omega
    | some d0 =>
      have hpc := posCount_alSet_some (m := inDeg) (k := n) (v := d0 - 1) h
      simp only [h, Option.getD_some]
      by_cases hz : d0 - 1 = 0
      · rw [if_pos hz]
        rw [if_pos (show (0 : Int) < d0 by omega),
            if_neg (show ¬ ((0 : Int) < d0 - 1) by omega)] at hpc
        have := ih (alSet inDeg n (d0 - 1)) (queue ++ [n])
        simp only [List.length_append, List.length_singleton] at this
        omega
      · rw [if_neg hz]
        have := ih (alSet inDeg n (d0 - 1)) queue
        by_cases hp : (0 : Int) < d0
        · rw [if_pos hp, if_pos (show (0 : Int) < d0 - 1 by omega)] at hpc
          omega
        · rw [if_neg hp, if_neg (show ¬ ((0 : Int) < d0 - 1) by omega)] at hpc
          omega

/-- The `while (queue.length > 0)` loop.  Returns the `ordered` list together
with the final degree map.  `const jobId = queue.shift(); if (!jobId) continue;`
is a JavaScript falsy test: inside the loop `shift()` always yields an element,
so the guard fires exactly for the empty-string id, which is dequeued but
neither pushed to `ordered` nor relaxed.  One unit of fuel is spent per
iteration; the quantity `queue.length + 2 * posCount inDeg` strictly decreases
each iteration (theorem `relax_measure`), so the fuel passed by
`sortJobsByNeeds` always drains the queue and the fuel-exhausted branch is
unreachable. -/
def kahnLoopAux (edges : AList (List String)) :
    Nat → AList Int → List String → List String → List String × AList Int
  | _, inDeg, [], ordered => (ordered, inDeg)
  | 0, inDeg, queue, ordered => (ordered ++ queue, inDeg)
  | fuel + 1, inDeg, j :: rest, ordered =>
    if j = "" then kahnLoopAux edges fuel inDeg rest ordered
    else
      let pr := relax inDeg rest ((alGet edges j).getD [])
      kahnLoopAux edges fuel pr.1 pr.2 (ordered ++ [j])

def sortJobsByNeeds (wf : Workflow) (jobIds : List String) : List String :=
  let st0 := initMaps jobIds
  let st := jobIds.foldl (addEdgesForJob wf) st0
  let queue := (st.1.filter (fun p => p.2 = 0)).map Prod.fst
  let ordered := (kahnLoopAux st.2 (queue.length + 2 * posCount st.1 + 1) st.1 queue []).1
  ordered ++ jobIds.filter (fun j => ¬ ordered.contains j)

/-! ## Run statuses, engine events and the run-record persister
(src/core/engine.ts, src/store/run-store.ts)

Timestamps, matrix parameters, workflow id and directory paths are opaque
payload copied through by the persister; they influence no status and are
omitted from the event model. -/

inductive RunStatus where
  | pending | running | success | failed | canceled
  deriving Repr, DecidableEq

inductive Event where
  | runStarted (runId : String) (jobIds : List String)
  | jobStarted (runId : String) (jobId : String)
  | jobFinished (runId : String) (jobId : String) (status : RunStatus) (exitCode : Int)
  | jobsCanceled (runId : String) (jobIds : List String)
  | runFinished (runId : String) (status : RunStatus)
  deriving Repr, DecidableEq

structure JobRun where
  jobId : String
  status : RunStatus
  exitCode : Option Int
  deriving Repr, DecidableEq

structure RunRecord where
  id : String
  status : RunStatus
  jobs : List JobRun
  deriving Repr, DecidableEq

/-- `run.jobs.find((item) => item.jobId === jobId)` followed by a mutation of
the found entry: transform the first matching entry, leave the rest alone. -/
def updateFirstJob (jobs : List JobRun) (jobId : String) (f : JobRun → JobRun) :
    List JobRun :=
  match jobs with
  | [] => []
  | jr :: rest =>
    if jr.jobId = jobId then f jr :: rest else jr :: updateFirstJob rest jobId f

/-- One event application of `createRunEventPersister` (run-store.ts).  The
state is the persisted record (`none` before `run-started`); every branch
that returns a changed record corresponds to a `runStore.writeRun(run)`. -/
def applyEvent (state : Option RunRecord) (e : Event) : Option RunRecord :=
  match e with
  | .runStarted runId jobIds =>
    some { id := runId, status := .running,
           jobs := jobIds.map (fun j => { jobId := j, status := .pending, exitCode := none }) }
  | .jobStarted runId jobId =>
    match state with
    | none => none
    | some run =>
      if run.id = runId then
        let jobs' := updateFirstJob run.jobs jobId (fun jr => { jr with status := .running })
        some { run with jobs := jobs' }
      else some run
  | .jobFinished runId jobId status exitCode =>
    match state with
    | none => none
    | some run =>
      if run.id = runId then
        let jobs' := updateFirstJob run.jobs jobId
          (fun jr => { jr with status := status, exitCode := some exitCode })
        some { run with jobs := jobs' }
      else some run
  | .jobsCanceled runId jobIds =>
    match state with
    | none => none
    | some run =>
      if run.id = runId then
        let jobs' := jobIds.foldl
          (fun jobs jobId =>
            updateFirstJob jobs jobId
              (fun jr => if jr.status = .pending then { jr with status := .canceled } else jr))
          run.jobs
        some { run with jobs := jobs' }
      else some run
  | .runFinished runId status =>
    match state with
    | none => none
    | some run =>
      if run.id = runId then some { run with status := status } else some run

def persistAll (events : List Event) : Option RunRecord :=
  events.foldl applyEvent none

/-- Status of a job id in the persisted record, via `run.jobs.find`. -/
def jobStatusIn (state : Option RunRecord) (jobId : String) : Option RunStatus :=
  match state with
  | none => none
  | some run => (run.jobs.find? (fun jr => jr.jobId = jobId)).map JobRun.status

def isTerminal (s : RunStatus) : Bool :=
  s = .success ∨ s = .failed ∨ s = .canceled

/-- Status of the first entry of a job list matching a job id
(`run.jobs.find(...)`, projected to the status). -/
def findStatus (jobs : List JobRun) (jid : String) : Option RunStatus :=
  (jobs.find? (fun jr => jr.jobId = jid)).map JobRun.status

/-- `pending → running → terminal`: position of a status on the forward path. -/
def statusRank (s : RunStatus) : Nat :=
  match s with
  | .pending => 0
  | .running => 1
  | _ => 2

def anyRunning (r : RunRecord) : Bool := r.jobs.any (fun jr => jr.status = .running)

def anyFailed (r : RunRecord) : Bool := r.jobs.any (fun jr => jr.status = .failed)

def anyCanceled (r : RunRecord) : Bool := r.jobs.any (fun jr => jr.status = .canceled)

/-- The aggregate the §3 invariant prescribes for a record that is no longer
running: failed if any job failed, else canceled if any canceled, else success. -/
def cascade (r : RunRecord) : RunStatus :=
  if anyFailed r then .failed else if anyCanceled r then .canceled else .success

/-! ## ActAdapter.run (src/engines/act/act-adapter.ts lines 53-141)

The adapter is deterministic given the plan's job ids and, per loop index,
whether the cancellation token was observed signaled before the job
(`ab i`, `context.signal?.aborted`) and the exit code `runAct` resolved with
(`ex i`).  `logPath j` models
`context.jobLogPathFor?.(jobId) ?? path.join(context.logsDir, getJobLogFileName(jobId))`. -/

def statusOfExit (e : Int) : RunStatus :=
  if e = 130 then .canceled else if e = 0 then .success else .failed

/-- `markRemainingCanceled`: one `jobs-canceled` event when any job remains. -/
def cancelEvents (rid : String) (jobIds : List String) : List Event :=
  if jobIds.isEmpty then [] else [.jobsCanceled rid jobIds]

structure LoopOut where
  events : List Event
  exitCode : Int
  lastLogs : String
  hasFailure : Bool
  hasCanceled : Bool
  deriving Repr, DecidableEq

/-- The `for (const [index, job] of plan.jobs.entries())` loop. -/
def engineLoop (rid : String) (logPath : String → String) (ab : Nat → Bool)
    (ex : Nat → Int) :
    Nat → Int → String → Bool → Bool → List String → LoopOut
  | _, exitCode, lastLogs, hf, hc, [] =>
    { events := [], exitCode := exitCode, lastLogs := lastLogs,
      hasFailure := hf, hasCanceled := hc }
  | i, _, lastLogs, hf, hc, j :: rest =>
    if ab i then
      { events := cancelEvents rid (j :: rest), exitCode := 130, lastLogs := lastLogs,
        hasFailure := hf, hasCanceled := true }
    else
      let e := ex i
      let st := statusOfExit e
      let evts := [Event.jobStarted rid j, Event.jobFinished rid j st e]
      if e = 0 then
        let r := engineLoop rid logPath ab ex (i + 1) e (logPath j) hf hc rest
        { r with events := evts ++ r.events }
      else
        { events := evts ++ cancelEvents rid rest, exitCode := e, lastLogs := logPath j,
          hasFailure := hf || decide (e ≠ 130), hasCanceled := hc || decide (e = 130) }

structure EngineResult where
  exitCode : Int
  logsPath : String
  events : List Event
  deriving Repr, DecidableEq

/-- The aggregate run status `ActAdapter.run` reports in `run-finished`. -/
def aggStatus (r : LoopOut) : RunStatus :=
  if r.hasFailure then .failed else if r.hasCanceled then .canceled else .success

def engineRun (rid : String) (logPath : String → String) (ab : Nat → Bool)
    (ex : Nat → Int) (jobs : List String) : EngineResult :=
  if jobs.isEmpty then { exitCode := 1, logsPath := "", events := [] }
  else
    let r := engineLoop rid logPath ab ex 0 0 "" false false jobs
    { exitCode := r.exitCode, logsPath := r.lastLogs,
      events := Event.runStarted rid jobs :: r.events
        ++ [Event.runFinished rid (aggStatus r)] }

/-! ## Path handling (src/utils/path-safety.ts, RunStore in src/store/run-store.ts)

POSIX path model: an absolute path is its list of segments after
normalisation.  `path.resolve` yields an absolute, normalised path (`..`
above the root is discarded); `path.join` concatenates then normalises, and
`mkdirSync`/`writeFileSync` act on the normalised result.  The store's base
directory is given as an already-resolved absolute path (as `path.resolve(baseDir)`
produces). -/

/-- `s.split(sep)` on character lists (keeps empty pieces, like JS/Node). -/
def splitOnChar (sep : Char) : List Char → List (List Char)
  | [] => [[]]
  | c :: rest =>
    let r := splitOnChar sep rest
    if c = sep then [] :: r else (c :: r.headD []) :: r.tail

/-- Split a path string into raw segments; `true` when absolute. -/
def parsePath (s : String) : Bool × List String :=
  (match s.data with
   | '/' :: _ => true
   | _ => false,
   ((splitOnChar '/' s.data).filter (fun seg => seg ≠ [])).map (fun l => String.mk l))

/-- Normalise segments of an absolute path: drop `.`, let `..` pop (or vanish
at the root). -/
def normAbs (segs : List String) : List String :=
  segs.foldl
    (fun acc seg =>
      if seg = "." then acc
      else if seg = ".." then acc.dropLast
      else acc ++ [seg])
    []

/-- `path.resolve(base, child)` with `base` an absolute normalised path. -/
def resolveFrom (base : List String) (child : String) : List String :=
  let p := parsePath child
  if p.1 then normAbs p.2 else normAbs (base ++ p.2)

def commonLen : List String → List String → Nat
  | a :: as, b :: bs => if a = b then commonLen as bs + 1 else 0
  | _, _ => 0

/-- `path.relative(base, target)` for absolute normalised inputs. -/
def relSegs (base target : List String) : List String :=
  let c := commonLen base target
  List.replicate (base.length - c) ".." ++ target.drop c

/-- `rel.startsWith("..")` on the joined string: the first segment starts
with `..` (and a relative result of two absolute paths is never absolute). -/
def relEscapes (rel : List String) : Bool :=
  match rel with
  | [] => false
  | s :: _ =>
    match s.data with
    | '.' :: '.' :: _ => true
    | _ => false

/-- `ensureWithinBase(baseDir, childPath, label)`: `none` models the thrown
`Invalid <label>: path escapes base directory`. -/
def ensureWithinBase (base : List String) (childPath : String) : Option (List String) :=
  let resolved := resolveFrom base childPath
  if relEscapes (relSegs base resolved) then none else some resolved

/-- `RunStore.createRunDir`. -/
def createRunDir (base : List String) (runId : String) : Option (List String) :=
  ensureWithinBase base runId

/-- `RunStore.createLogsDir`. -/
def createLogsDir (base : List String) (runId : String) : Option (List String) :=
  (createRunDir base runId).map (fun runDir => runDir ++ ["logs"])

/-- `RunStore.createArtifactsDir`. -/
def createArtifactsDir (base : List String) (runId : String) : Option (List String) :=
  (createRunDir base runId).map (fun runDir => runDir ++ ["artifacts"])

def isJsAsciiWordChar (c : Char) : Bool :=
  (c ≥ 'a' ∧ c ≤ 'z') ∨ (c ≥ 'A' ∧ c ≤ 'Z') ∨ (c ≥ '0' ∧ c ≤ '9') ∨
    c = '.' ∨ c = '_' ∨ c = '-'

def isJsSpace (c : Char) : Bool :=
  c = ' ' ∨ c = '\t' ∨ c = '\n' ∨ c = '\r' ∨ c = '\x0b' ∨ c = '\x0c'

def trimChars (cs : List Char) : List Char :=
  ((cs.dropWhile isJsSpace).reverse.dropWhile isJsSpace).reverse

/-- Collapse every maximal run of matched characters into one `'-'` (models
`value.replace(/[\\/]+/g, "-")` style replacements); `inRun` tracks whether
the previous character belonged to the current run. -/
def collapseRunsAux (bad : Char → Bool) : Bool → List Char → List Char
  | _, [] => []
  | inRun, c :: rest =>
    if bad c then
      if inRun then collapseRunsAux bad true rest
      else '-' :: collapseRunsAux bad true rest
    else c :: collapseRunsAux bad false rest

def collapseRuns (bad : Char → Bool) (cs : List Char) : List Char :=
  collapseRunsAux bad false cs

def dropDashesEnds (cs : List Char) : List Char :=
  ((cs.dropWhile (fun c => c = '-')).reverse.dropWhile (fun c => c = '-')).reverse

/-- `sanitizePathSegment(value, fallback)` (path-safety.ts). -/
def sanitizePathSegment (value : String) (fallback : String) : String :=
  let s1 := trimChars value.data
  let s2 := collapseRuns (fun c => c = '\\' ∨ c = '/') s1
  let s3 := collapseRuns (fun c => ¬ isJsAsciiWordChar c) s2
  let s4 := (dropDashesEnds s3).take 64
  if s4.length > 0 then String.mk s4 else fallback

/-- `getJobLogFileName(jobId)`; the 8-hex-digit sha1 prefix is an opaque
function of the job id, supplied as a parameter. -/
def getJobLogFileName (hash : String → String) (jobId : String) : String :=
  let normalized := sanitizePathSegment (String.mk (jobId.data.map Char.toLower)) "job"
  let base := if normalized.length > 0 then normalized else "job"
  base ++ "-" ++ hash jobId ++ ".log"

/-- `RunStore.createLogFile`. -/
def createLogFile (hash : String → String) (base : List String) (runId jobId : String) :
    Option (List String) :=
  (createLogsDir base runId).bind
    (fun logsDir => ensureWithinBase logsDir (getJobLogFileName hash jobId))

/-- `RunStore.writeRun`: `path.join(this.baseDir, run.id)` with no
`ensureWithinBase`; the path of the written `run.json`. -/
def writeRunRecordPath (base : List String) (runId : String) : List String :=
  normAbs (base ++ (parsePath runId).2) ++ ["run.json"]

/-! ## Incremental status parser (src/tui/run-view/parser.ts, revision with
matrix cursor support) -/

structure Step where
  id : String
  name : String
  deriving Repr, DecidableEq

def MAX_LOG_LINES : Nat := 80

/-- `input.replace(/\u001b\[[0-9;]*m/g, "")`: consume `ESC [ [0-9;]* m`,
otherwise keep the character. -/
def ansiTail (cs : List Char) : Option (List Char) :=
  match cs with
  | [] => none
  | c :: rest =>
    if c = '[' then
      match rest.dropWhile (fun ch => ch.isDigit ∨ ch = ';') with
      | [] => none
      | d :: r => if d = 'm' then some r else none
    else none

/-- A matched escape sequence consumes at least two characters, so fuel equal
to the character count is always enough and the fuel-exhausted branch is
unreachable from `stripAnsi`. -/
def stripAnsiAux : Nat → List Char → List Char
  | _, [] => []
  | 0, cs => cs
  | fuel + 1, c :: rest =>
    if c = '\x1b' then
      match ansiTail rest with
      | some r => stripAnsiAux fuel r
      | none => c :: stripAnsiAux fuel rest
    else c :: stripAnsiAux fuel rest

def stripAnsi (s : String) : String := String.mk (stripAnsiAux s.data.length s.data)

/-- `raw.split(/\r?\n/)`: split on `\n`, dropping one `\r` immediately
before each `\n`. -/
def splitLinesCRLF (raw : String) : List String :=
  let ps := splitOnChar '\n' raw.data
  (ps.dropLast.map
      (fun l => String.mk (if l.getLast? = some '\r' then l.dropLast else l)))
    ++ (ps.drop (ps.length - 1)).map (fun l => String.mk l)

/-- The trailing `\s+(.+)$` of the marker regexes: maximal whitespace, then a
non-empty capture; when only whitespace remains, the capture backtracks to
the last whitespace character (needs at least two). -/
def capTail (cs : List Char) : Option String :=
  let w := cs.takeWhile isJsSpace
  let r := cs.dropWhile isJsSpace
  if w.isEmpty then none
  else if ¬ r.isEmpty then some (String.mk r)
  else
    match w.getLast? with
    | some ch => if 2 ≤ w.length then some (String.mk [ch]) else none
    | none => none

/-- Match `\s+lit` for each literal in turn, then `\s+(.+)$`. -/
def matchAfterMarker : List String → List Char → Option String
  | [], cs => capTail cs
  | lit :: lits, cs =>
    let w := cs.takeWhile isJsSpace
    let r := cs.dropWhile isJsSpace
    if w.isEmpty then none
    else if lit.data.isPrefixOf r then matchAfterMarker lits (r.drop lit.data.length)
    else none

/-- `line.match(/marker\s+lit1(\s+lit2)*\s+(.+)$/)`: try every occurrence of
the marker character left to right, returning the first full match's capture. -/
def findMarkerMatch (marker : Char) (lits : List String) : List Char → Option String
  | [] => none
  | c :: rest =>
    if c = marker then
      match matchAfterMarker lits rest with
      | some cap => some cap
      | none => findMarkerMatch marker lits rest
    else findMarkerMatch marker lits rest

def matchStarRun (line : String) : Option String :=
  findMarkerMatch '⭐' ["Run"] line.data

def matchSuccess (line : String) : Option String :=
  findMarkerMatch '✅' ["Success", "-"] line.data

def matchFailure (line : String) : Option String :=
  findMarkerMatch '❌' ["Failure", "-"] line.data

/-- `name.replace(/\s*\[[^\]]+]\s*$/g, "")`: remove one trailing bracketed
qualifier (with the whitespace run before it) when the string ends with
`[...]` whose body is non-empty and `]`-free, up to trailing whitespace. -/
def stripTrailingBracketed (cs : List Char) : List Char :=
  let rs := cs.reverse
  match rs.dropWhile isJsSpace with
  | ']' :: u =>
    let v := u.takeWhile (fun c => c ≠ ']')
    let w := v.reverse
    match w.takeWhile (fun c => c ≠ '[') , w.dropWhile (fun c => c ≠ '[') with
    | x, '[' :: inner =>
      if inner.isEmpty then cs
      else (u.drop v.length).reverse ++ (x.reverse.dropWhile isJsSpace).reverse
    | _, _ => cs
  | _ => cs

/-- `name.replace(/^(main|post)\s+/i, "")`. -/
def stripMainPost (cs : List Char) : List Char :=
  let lower4 := (cs.take 4).map Char.toLower
  if lower4 = "main".data ∨ lower4 = "post".data then
    let rest := cs.drop 4
    if (rest.takeWhile isJsSpace).isEmpty then cs else rest.dropWhile isJsSpace
  else cs

/-- `normalizeStepName` (parser.ts); `toLowerCase` modelled for ASCII. -/
def normalizeStepName (name : String) : String :=
  String.mk (((trimChars (stripMainPost (stripTrailingBracketed name.data)))).map Char.toLower)

/-- `steps.forEach((step, index) => ...)` building name → indices (in
declaration order). -/
def buildNameToIndices (steps : List Step) : AList (List Nat) :=
  steps.enum.foldl
    (fun m p =>
      let key := normalizeStepName p.2.name
      alSet m key ((alGet m key).getD [] ++ [p.1]))
    []

structure ScanState where
  statusMap : AList RunStatus
  outputMap : AList (List String)
  nameToCursor : AList Nat
  lastIndexForName : AList Nat
  lastRunningIndex : Option Nat
  failedIndex : Option Nat
  currentIndex : Option Nat
  deriving Repr, DecidableEq

def initScanState : ScanState :=
  { statusMap := [], outputMap := [], nameToCursor := [], lastIndexForName := [],
    lastRunningIndex := none, failedIndex := none, currentIndex := none }

/-- `resolveIndex(key, nameToIndices, nameToCursor, lastIndexForName)`:
returns the resolved index together with the updated cursor and
last-resolved maps. -/
def resolveIndex (key : String) (nameToIndices : AList (List Nat))
    (nameToCursor lastIndexForName : AList Nat) :
    Option Nat × AList Nat × AList Nat :=
  match alGet nameToIndices key with
  | none => (none, nameToCursor, lastIndexForName)
  | some indices =>
    if indices.isEmpty then (none, nameToCursor, lastIndexForName)
    else
      let cursor := (alGet nameToCursor key).getD 0
      match indices.get? cursor with
      | none => (alGet lastIndexForName key, nameToCursor, lastIndexForName)
      | some index =>
        (some index, alSet nameToCursor key (cursor + 1),
         alSet lastIndexForName key index)

/-- Append an output line, capped at the last `MAX_LOG_LINES` entries
(`slice(-MAX_LOG_LINES)`). -/
def pushOutput (outputs : List String) (line : String) : List String :=
  let next := outputs ++ [line]
  if next.length > MAX_LOG_LINES then next.drop (next.length - MAX_LOG_LINES) else next

/-- One iteration of the `for (const line of lines)` scan loop. -/
def scanLine (steps : List Step) (nameToIndices : AList (List Nat))
    (st : ScanState) (line : String) : ScanState :=
  match matchStarRun line with
  | some cap =>
    let key := normalizeStepName cap
    let r := resolveIndex key nameToIndices st.nameToCursor st.lastIndexForName
    match r.1 with
    | none =>
      { st with nameToCursor := r.2.1, lastIndexForName := r.2.2, currentIndex := none }
    | some index =>
      match steps.get? index with
      | none =>
        { st with nameToCursor := r.2.1, lastIndexForName := r.2.2, currentIndex := none }
      | some step =>
        { st with
          statusMap := alSet st.statusMap step.id .running,
          lastRunningIndex := some index,
          nameToCursor := r.2.1,
          lastIndexForName := alSet r.2.2 key index,
          currentIndex := some index,
          outputMap :=
            if (alGet st.outputMap step.id).isSome then st.outputMap
            else alSet st.outputMap step.id [] }
  | none =>
  match matchSuccess line with
  | some cap =>
    let key := normalizeStepName cap
    let r :=
      match alGet st.lastIndexForName key with
      | some i => (some i, st.nameToCursor, st.lastIndexForName)
      | none => resolveIndex key nameToIndices st.nameToCursor st.lastIndexForName
    match r.1 with
    | none => { st with nameToCursor := r.2.1, lastIndexForName := r.2.2 }
    | some index =>
      match steps.get? index with
      | none => { st with nameToCursor := r.2.1, lastIndexForName := r.2.2 }
      | some step =>
        { st with
          statusMap := alSet st.statusMap step.id .success,
          nameToCursor := r.2.1,
          lastIndexForName := r.2.2,
          lastRunningIndex :=
            if st.lastRunningIndex = some index then none else st.lastRunningIndex,
          currentIndex :=
            if st.currentIndex = some index then none else st.currentIndex }
  | none =>
  match matchFailure line with
  | some cap =>
    let key := normalizeStepName cap
    let r :=
      match alGet st.lastIndexForName key with
      | some i => (some i, st.nameToCursor, st.lastIndexForName)
      | none => resolveIndex key nameToIndices st.nameToCursor st.lastIndexForName
    match r.1 with
    | none => { st with nameToCursor := r.2.1, lastIndexForName := r.2.2 }
    | some index =>
      match steps.get? index with
      | none => { st with nameToCursor := r.2.1, lastIndexForName := r.2.2 }
      | some step =>
        { st with
          statusMap := alSet st.statusMap step.id .failed,
          failedIndex := some index,
          nameToCursor := r.2.1,
          lastIndexForName := alSet r.2.2 key index,
          lastRunningIndex :=
            if st.lastRunningIndex = some index then none else st.lastRunningIndex,
          currentIndex :=
            if st.currentIndex = some index then none else st.currentIndex }
  | none =>
    match st.currentIndex with
    | none => st
    | some index =>
      if (trimChars line.data).length > 0 then
        match steps.get? index with
        | none => st
        | some step =>
          let outputs := pushOutput ((alGet st.outputMap step.id).getD []) line
          { st with outputMap := alSet st.outputMap step.id outputs }
      else st

/-- The whole line scan of `parseStepData` (before the job-status post-pass). -/
def scanJob (steps : List Step) (raw : String) : ScanState :=
  let nameToIndices := buildNameToIndices steps
  let lines := (splitLinesCRLF raw).map stripAnsi
  lines.foldl (scanLine steps nameToIndices) initScanState

/-- Default every step whose id has no status yet to `f index`
(the `steps.forEach` post-pass loops). -/
def fillUnset (statusMap : AList RunStatus) (steps : List Step)
    (f : Nat → RunStatus) : AList RunStatus :=
  steps.enum.foldl
    (fun m p => if (alGet m p.2.id).isSome then m else alSet m p.2.id (f p.1))
    statusMap

structure StepParseResult where
  statuses : AList RunStatus
  outputs : AList (List String)
  deriving Repr, DecidableEq

/-- The job-status-driven post-pass of `parseStepData`. -/
def reconcile (steps : List Step) (jobStatus : RunStatus) (s : ScanState) :
    StepParseResult :=
  if jobStatus = .success then
    { statuses := fillUnset s.statusMap steps (fun _ => .success), outputs := s.outputMap }
  else if jobStatus = .failed then
    let retro :=
      match s.failedIndex, s.lastRunningIndex with
      | none, some i =>
        match steps.get? i with
        | some step => (alSet s.statusMap step.id .failed, some i)
        | none => (s.statusMap, some i)
      | fi, _ => (s.statusMap, fi)
    match retro.2 with
    | some failureIndex =>
      { statuses :=
          fillUnset retro.1 steps
            (fun index => if index ≤ failureIndex then .success else .canceled),
        outputs := s.outputMap }
    | none =>
      { statuses := fillUnset retro.1 steps (fun _ => .canceled), outputs := s.outputMap }
  else if jobStatus = .canceled then
    { statuses := fillUnset s.statusMap steps (fun _ => .canceled), outputs := s.outputMap }
  else
    { statuses := s.statusMap, outputs := s.outputMap }

/-- `parseStepData(steps, raw, jobStatus)`. -/
def parseStepData (steps : List Step) (raw : String) (jobStatus : RunStatus) :
    StepParseResult :=
  if steps.isEmpty then { statuses := [], outputs := [] }
  else reconcile steps jobStatus (scanJob steps raw)

def isFinalStatus (status : RunStatus) : Bool :=
  status = .success ∨ status = .failed ∨ status = .canceled

/-- The body of the `for (const [stepId, status] of Object.entries(next))`
loop in `mergeStepStatuses`. -/
def mergeStep (merged : AList RunStatus) (p : String × RunStatus) : AList RunStatus :=
  match alGet merged p.1 with
  | none => alSet merged p.1 p.2
  | some current =>
    if isFinalStatus current then
      if isFinalStatus p.2 ∧ p.2 ≠ current then alSet merged p.1 p.2 else merged
    else alSet merged p.1 p.2

/-- `mergeStepStatuses(previous, next)` (parser.ts). -/
def mergeStepStatuses (previous next : AList RunStatus) : AList RunStatus :=
  next.foldl mergeStep previous

/-- The value `mergeStepStatuses` keeps for a key present in `next`, as a
function of the accumulated value. -/
def mergeVal (current : Option RunStatus) (v : RunStatus) : RunStatus :=
  match current with
  | none => v
  | some c => if isFinalStatus c then (if isFinalStatus v ∧ v ≠ c then v else c) else v

/-! ## Derived notions used by the theorems -/

def applyAll (s : Option RunRecord) (events : List Event) : Option RunRecord :=
  events.foldl applyEvent s

/-- One event keeps every job status moving forward: an entry never
disappears, its rank never decreases, and a terminal status never changes. -/
def stepFwd (s : Option RunRecord) (e : Event) : Prop :=
  ∀ jid st, jobStatusIn s jid = some st →
    ∃ st', jobStatusIn (applyEvent s e) jid = some st' ∧
      statusRank st ≤ statusRank st' ∧ (isTerminal st = true → st' = st)

/-- The record-level part of the §3 invariant that actually holds: a running
job forces `running`, and a non-running record matches the failed/canceled/
success cascade. -/
def recordOk (s : Option RunRecord) : Prop :=
  ∀ r, s = some r →
    (anyRunning r = true → r.status = .running) ∧
    (r.status ≠ .running → r.status = cascade r)

/-- Every step along an event list is forward-moving and lands in a state
satisfying `recordOk`. -/
def chainOk : Option RunRecord → List Event → Prop
  | _, [] => True
  | s, e :: rest => stepFwd s e ∧ recordOk (applyEvent s e) ∧ chainOk (applyEvent s e) rest

/-- Loop induction invariant for `ActAdapter.run`: the record holds the
already-executed jobs (all successful) followed by the remaining jobs as
pending entries, with distinct job ids throughout. -/
def recInv (rid : String) (done : List JobRun) (remaining : List String)
    (r : RunRecord) : Prop :=
  r.id = rid ∧ r.status = .running ∧
  r.jobs = done ++ remaining.map (fun j => { jobId := j, status := .pending, exitCode := none }) ∧
  (∀ jr ∈ done, jr.status = .success) ∧
  ((done.map JobRun.jobId) ++ remaining).Nodup

/-- Acyclicity of a workflow's `needs` graph, witnessed by a rank function. -/
def RankedWf (wf : Workflow) (rank : String → Nat) : Prop :=
  ∀ job ∈ wf.jobs, ∀ b ∈ job.needs, rank b < rank job.id

instance (wf : Workflow) (rank : String → Nat) : Decidable (RankedWf wf rank) := by
  unfold RankedWf
  infer_instance

/-- `y` is reachable from `x` by following `needs` edges through resolvable
jobs (the relation the depth-first expansion walks). -/
inductive NeedsReach (wf : Workflow) : String → String → Prop where
  | refl (x : String) : NeedsReach wf x x
  | step {x y b : String} {job : JobDef} (hj : jobMapGet wf x = some job)
      (hb : b ∈ job.needs) (hr : NeedsReach wf b y) : NeedsReach wf x y

/-- Invariant of the expansion list: no duplicates, every member resolves,
and every member's resolvable needs appear earlier in the list. -/
def GoodExp (wf : Workflow) (exp : List String) : Prop :=
  exp.Nodup ∧ (∀ x ∈ exp, (jobMapGet wf x).isSome) ∧
  (∀ x ∈ exp, ∀ job, jobMapGet wf x = some job → ∀ b ∈ job.needs,
    (jobMapGet wf b).isSome → b ∈ exp ∧ exp.indexOf b < exp.indexOf x)

/-! ## General association-list lemmas -/

theorem alGet_alSet_self {α : Type} (m : AList α) (k : String) (v : α) :
    alGet (alSet m k v) k = some v := by
  induction m with
  | nil => simp [alSet, alGet]
  | cons p rest ih =>
    by_cases hk : p.1 = k
    · simp [alSet, hk, alGet]
    · simp [alSet, hk, alGet, ih]

theorem alGet_alSet_ne {α : Type} (m : AList α) {k k' : String} (v : α)
    (h : k' ≠ k) : alGet (alSet m k v) k' = alGet m k' := by
  induction m with
  | nil =>
    simp only [alSet, alGet]
    rw [if_neg (fun hh : k = k' => h hh.symm)]
  | cons p rest ih =>
    by_cases hk : p.1 = k
    · simp only [alSet, if_pos hk, alGet]
      rw [if_neg (fun hh : k = k' => h hh.symm),
          if_neg (fun hh : p.1 = k' => h (hk.symm.trans hh).symm)]
    · simp only [alSet, if_neg hk, alGet, ih]

theorem alSet_self {α : Type} {m : AList α} {k : String} {v : α}
    (h : alGet m k = some v) : alSet m k v = m := by
  induction m with
  | nil => simp [alGet] at h
  | cons p rest ih =>
    simp only [alGet] at h
    by_cases hk : p.1 = k
    · rw [if_pos hk] at h
      injection h with h
      simp only [alSet, if_pos hk]
      rw [← hk, ← h]
    · rw [if_neg hk] at h
      simp [alSet, hk, ih h]

theorem alGet_some_mem {α : Type} {m : AList α} {k : String} {v : α}
    (h : alGet m k = some v) : (k, v) ∈ m := by
  induction m with
  | nil => simp [alGet] at h
  | cons p rest ih =>
    simp only [alGet] at h
    by_cases hk : p.1 = k
    · rw [if_pos hk] at h
      injection h with h
      have : (k, v) = p := by
        cases p
        simp only [Prod.mk.injEq]
        exact ⟨hk.symm, h.symm⟩
      rw [this]
      exact List.mem_cons_self _ _
    · rw [if_neg hk] at h
      exact List.mem_cons_of_mem _ (ih h)

theorem alGet_eq_none {α : Type} {m : AList α} {k : String} :
    alGet m k = none ↔ k ∉ alKeys m := by
  induction m with
  | nil => simp [alGet, alKeys]
  | cons p rest ih =>
    simp only [alGet, alKeys, List.map_cons, List.mem_cons]
    by_cases hk : p.1 = k
    · simp [hk]
    · rw [if_neg hk]
      simp only [ih, alKeys]
      constructor
      · intro h hmem
        rcases hmem with hmem | hmem
        · exact hk hmem.symm
        · exact h hmem
      · intro h
        exact fun hmem => h (Or.inr hmem)

theorem alKeys_alSet {α : Type} (m : AList α) (k : String) (v : α) :
    alKeys (alSet m k v) = if k ∈ alKeys m then alKeys m else alKeys m ++ [k] := by
  simp only [alKeys]
  induction m with
  | nil => simp [alSet]
  | cons p rest ih =>
    by_cases hk : p.1 = k
    · subst hk
      simp [alSet]
    · simp only [alSet, if_neg hk, List.map_cons, List.mem_cons]
      by_cases hm : k ∈ List.map Prod.fst rest
      · rw [if_pos (Or.inr hm), ih, if_pos hm]
      · rw [if_neg ?hne, ih, if_neg hm]
        · simp
        case hne =>
          intro hor
          rcases hor with hor | hor
          · exact hk hor.symm
          · exact hm hor

/-! ## C10 / C7: engine adapter behaviour at the loop boundary -/

/-- C10: with an empty planned job list `ActAdapter.run` returns exit code 1
with an empty `logsPath` and emits no events at all. -/
theorem engineRun_empty_plan (rid : String) (logPath : String → String)
    (ab : Nat → Bool) (ex : Nat → Int) :
    engineRun rid logPath ab ex [] =
      { exitCode := 1, logsPath := "", events := [] } := rfl

/-- C7: when the cancellation token is already signaled before the first job
of a non-empty plan, the run returns exit code 130 and emits exactly
`run-started`, one `jobs-canceled` listing every planned job, and
`run-finished` with status `canceled` — no `job-started`/`job-finished`. -/
theorem engineRun_aborted_before_first (rid : String) (logPath : String → String)
    (ab : Nat → Bool) (ex : Nat → Int) (j : String) (rest : List String)
    (h : ab 0 = true) :
    engineRun rid logPath ab ex (j :: rest) =
      { exitCode := 130, logsPath := "",
        events := [Event.runStarted rid (j :: rest),
                   Event.jobsCanceled rid (j :: rest),
                   Event.runFinished rid .canceled] } := by
  simp [engineRun, engineLoop, h, cancelEvents, aggStatus]

/-- Witness for C7 at a concrete two-job plan with a pre-signaled token. -/
theorem engineRun_aborted_before_first_witness :
    (fun _ : Nat => true) 0 = true ∧
    engineRun "r1" (fun _ => "") (fun _ => true) (fun _ => 0) ["a", "b"] =
      { exitCode := 130, logsPath := "",
        events := [Event.runStarted "r1" ["a", "b"],
                   Event.jobsCanceled "r1" ["a", "b"],
                   Event.runFinished "r1" .canceled] } :=
  ⟨rfl, engineRun_aborted_before_first "r1" (fun _ => "") (fun _ => true)
    (fun _ => 0) "a" ["b"] rfl⟩

/-! ## Counterexamples for the corrected claims -/

/-- Acyclic workflow with a duplicated `needs` entry (`a needs [b, b]`):
`a`'s in-degree is counted per occurrence but decremented once, so `a` and
its dependant `c` are never dequeued. -/
def cexSortWf : Workflow := ⟨[⟨"a", ["b", "b"]⟩, ⟨"b", []⟩, ⟨"c", ["a"]⟩]⟩

/-- C1 counterexample: an acyclic dependency graph and a duplicate-free input
list for which the output violates the claimed edge order — `c needs a` with
both in the set, yet `a` appears after `c` in the output `[b, c, a]`. -/
theorem sortJobs_order_cex :
    RankedWf cexSortWf (fun s => if s = "c" then 2 else if s = "a" then 1 else 0) ∧
    (["c", "a", "b"] : List String).Nodup ∧
    sortJobsByNeeds cexSortWf ["c", "a", "b"] = ["b", "c", "a"] ∧
    "a" ∈ needsOf cexSortWf "c" ∧
    (sortJobsByNeeds cexSortWf ["c", "a", "b"]).indexOf "c"
      < (sortJobsByNeeds cexSortWf ["c", "a", "b"]).indexOf "a" := by
  refine ⟨?_, ?_, ?_, ?_, ?_⟩ <;> decide

/-- C2 counterexample: the duplicate-carrying input list `[a, a, b]` over the
acyclic graph `a needs b` yields `[b, a, a]`, so `a` is returned twice, not
exactly once. -/
theorem sortJobs_duplicate_ids_cex :
    sortJobsByNeeds ⟨[⟨"a", ["b"]⟩, ⟨"b", []⟩]⟩ ["a", "a", "b"] = ["b", "a", "a"] ∧
    (sortJobsByNeeds ⟨[⟨"a", ["b"]⟩, ⟨"b", []⟩]⟩ ["a", "a", "b"]).count "a" = 2 := by
  exact ⟨by decide, by decide⟩

/-- Two-job cycle used by the C3 counterexample. -/
def cexCycWf : Workflow := ⟨[⟨"a", ["b"]⟩, ⟨"b", ["a"]⟩]⟩

theorem cexCyc_visit_none :
    ∀ fuel (exp : List String), "a" ∉ exp → "b" ∉ exp →
      visitNeeds cexCycWf fuel exp "a" = none ∧ visitNeeds cexCycWf fuel exp "b" = none := by
  intro fuel
  induction fuel with
  | zero => intro exp _ _; exact ⟨rfl, rfl⟩
  | succ fuel ih =>
    intro exp ha hb
    constructor
    · show visitNeeds cexCycWf (fuel + 1) exp "a" = none
      simp only [visitNeeds]
      rw [if_neg ha]
      have hj : jobMapGet cexCycWf "a" = some ⟨"a", ["b"]⟩ := by decide
      rw [hj]
      dsimp only
      have hf : List.foldlM (fun e n => visitNeeds cexCycWf fuel e n) exp ["b"] = none := by
        simp only [List.foldlM]
        rw [(ih exp ha hb).2]
        rfl
      rw [hf]
    · show visitNeeds cexCycWf (fuel + 1) exp "b" = none
      simp only [visitNeeds]
      rw [if_neg hb]
      have hj : jobMapGet cexCycWf "b" = some ⟨"b", ["a"]⟩ := by decide
      rw [hj]
      dsimp only
      have hf : List.foldlM (fun e n => visitNeeds cexCycWf fuel e n) exp ["a"] = none := by
        simp only [List.foldlM]
        rw [(ih exp ha hb).1]
        rfl
      rw [hf]

/-- On the cyclic workflow `a needs b, b needs a` the depth-first `visit`
recursion never terminates: no recursion depth suffices, because a job is
marked expanded only after its needs finish. -/
theorem expand_cycle_diverges_all :
    ∀ fuel, expandJobIdsWithNeeds cexCycWf ["a"] fuel = none := by
  intro fuel
  show visitSeq cexCycWf fuel [] ["a"] = none
  simp only [visitSeq, List.foldlM]
  rw [(cexCyc_visit_none fuel [] (by simp) (by simp)).1]
  rfl

/-- C3 counterexample: expanding `[a]` in the cyclic workflow `a needs b,
b needs a` fails to terminate — even a recursion depth of one million does
not complete (`expand_cycle_diverges_all` proves this for every depth), so
the original claim's \"including cycles ... terminates\" is false. -/
theorem expand_cycle_diverges_cex :
    expandJobIdsWithNeeds cexCycWf ["a"] 1000000 = none :=
  expand_cycle_diverges_all 1000000

/-- C4 counterexample: immediately after a run with one planned job starts —
a state the engine-produced event stream reaches and the persister writes to
disk — the record's status is `running` while no `JobRun` is `running`
(the job is still `pending`), so the claimed "iff" fails. -/
theorem runRecord_running_iff_cex :
    (engineRun "r4" (fun _ => "") (fun _ => false) (fun _ => 0) ["a"]).events.take 1
      = [Event.runStarted "r4" ["a"]] ∧
    persistAll [Event.runStarted "r4" ["a"]]
      = some { id := "r4", status := .running,
               jobs := [{ jobId := "a", status := .pending, exitCode := none }] } ∧
    anyRunning { id := "r4", status := .running,
                 jobs := [{ jobId := "a", status := .pending, exitCode := none }] } = false := by
  refine ⟨?_, ?_, ?_⟩ <;> decide

/-- The event stream the adapter emits for a plan listing the same job id
twice, both runs succeeding. -/
def cexDupEvents : List Event :=
  (engineRun "r5" (fun _ => "") (fun _ => false) (fun _ => 0) ["a", "a"]).events

/-- C5 counterexample: with the same job id planned twice, after the first
`job-finished` the persisted status of `a` is terminal (`success`), yet the
next engine event (`job-started` for the second occurrence) moves it back to
`running`. -/
theorem jobRun_terminal_revisited_cex :
    cexDupEvents.take 4 ++ cexDupEvents.drop 4 = cexDupEvents ∧
    jobStatusIn (persistAll (cexDupEvents.take 3)) "a" = some .success ∧
    isTerminal .success = true ∧
    jobStatusIn (persistAll (cexDupEvents.take 4)) "a" = some .running := by
  refine ⟨?_, ?_, ?_, ?_⟩ <;> decide

/-- C6 counterexample: `RunStore.writeRun` joins the record's run id onto the
base directory without `ensureWithinBase`, so the run id `../evil` makes it
write `run.json` outside the base directory. -/
theorem writeRun_escape_cex :
    writeRunRecordPath ["home", "store"] "../evil" = ["home", "evil", "run.json"] ∧
    ¬ (["home", "store"] <+: ["home", "evil", "run.json"]) := by
  exact ⟨by decide, by decide⟩

/-- Steps and output used by the C8 counterexample. -/
def cexParserSteps : List Step := [⟨"s1", "A"⟩, ⟨"s2", "B"⟩]

def cexParserRaw : String := "⭐ Run A\n⭐ Run B\n✅ Success - B"

/-- C8 counterexample: step `A` is left `running` by the scan and no failure
marker was seen, yet with job status `failed` the parser does not mark it
`failed` — the retroactive marking only follows the internal last-running
tracker, which was cleared when `B` succeeded. -/
theorem parser_left_running_cex :
    alGet (scanJob cexParserSteps cexParserRaw).statusMap "s1" = some .running ∧
    (scanJob cexParserSteps cexParserRaw).failedIndex = none ∧
    (scanJob cexParserSteps cexParserRaw).lastRunningIndex = none ∧
    alGet (parseStepData cexParserSteps cexParserRaw .failed).statuses "s1"
      = some .running := by
  refine ⟨?_, ?_, ?_, ?_⟩ <;> decide


/-! ## C9: mergeStepStatuses is idempotent and monotone -/

theorem mergeStep_get_self (m : AList RunStatus) (k : String) (v : RunStatus) :
    alGet (mergeStep m (k, v)) k = some (mergeVal (alGet m k) v) := by
  unfold mergeStep mergeVal
  cases h : alGet m k with
  | none => simp [alGet_alSet_self]
  | some c =>
    by_cases hc : isFinalStatus c
    · simp only [hc, if_true]
      by_cases hv : isFinalStatus v = true ∧ v ≠ c
      · simp only [if_pos hv, alGet_alSet_self]
      · simp only [if_neg hv, h]
    · simp only [Bool.not_eq_true] at hc
      simp [hc, alGet_alSet_self]

theorem mergeStep_get_ne (m : AList RunStatus) (k k' : String) (v : RunStatus)
    (h : k' ≠ k) : alGet (mergeStep m (k, v)) k' = alGet m k' := by
  unfold mergeStep
  cases alGet m k with
  | none => simp [alGet_alSet_ne _ _ h]
  | some c =>
    by_cases hc : isFinalStatus c
    · by_cases hv : isFinalStatus v = true ∧ v ≠ c <;>
        simp [hc, hv, alGet_alSet_ne _ _ h]
    · simp only [Bool.not_eq_true] at hc
      simp [hc, alGet_alSet_ne _ _ h]

theorem mergeFold_get_not_mem (next : AList RunStatus) (m : AList RunStatus)
    (k : String) (h : k ∉ next.map Prod.fst) :
    alGet (next.foldl mergeStep m) k = alGet m k := by
  induction next generalizing m with
  | nil => rfl
  | cons p rest ih =>
    simp only [List.map_cons, List.mem_cons] at h
    push_neg at h
    simp only [List.foldl_cons]
    rw [ih _ h.2]
    cases p
    exact mergeStep_get_ne _ _ _ _ h.1

theorem merge_get_of_mem {next : AList RunStatus} (hn : (next.map Prod.fst).Nodup)
    {k : String} {v : RunStatus} (hm : (k, v) ∈ next) (previous : AList RunStatus) :
    alGet (mergeStepStatuses previous next) k = some (mergeVal (alGet previous k) v) := by
  induction next generalizing previous with
  | nil => simp at hm
  | cons p rest ih =>
    simp only [List.map_cons, List.nodup_cons] at hn
    rcases List.mem_cons.mp hm with heq | hrest
    · subst heq
      show alGet (rest.foldl mergeStep (mergeStep previous (k, v))) k = _
      rw [mergeFold_get_not_mem rest _ k hn.1]
      exact mergeStep_get_self previous k v
    · have hk : k ≠ p.1 := by
        intro hkeq
        exact hn.1 (hkeq ▸ (List.mem_map.mpr ⟨(k, v), hrest, rfl⟩))
      show alGet (rest.foldl mergeStep (mergeStep previous p)) k = _
      have hg : alGet (mergeStep previous p) k = alGet previous k := by
        cases p
        exact mergeStep_get_ne _ _ _ _ hk
      have hih := ih hn.2 hrest (mergeStep previous p)
      rw [hg] at hih
      exact hih

theorem foldl_const_of_steps {α β : Type} {g : α → β → α} {m : α} {l : List β}
    (h : ∀ p ∈ l, g m p = m) : l.foldl g m = m := by
  induction l with
  | nil => rfl
  | cons p rest ih =>
    simp only [List.foldl_cons, h p (List.mem_cons_self p rest)]
    exact ih (fun q hq => h q (List.mem_cons_of_mem p hq))

theorem mergeStep_noop (M : AList RunStatus) (k : String) (v w : RunStatus)
    (hw : alGet M k = some w)
    (hcases : (isFinalStatus w = true ∧ ¬ (isFinalStatus v = true ∧ v ≠ w)) ∨ v = w) :
    mergeStep M (k, v) = M := by
  unfold mergeStep
  rw [hw]
  rcases hcases with ⟨hwf, hnv⟩ | hvw
  · simp [hwf, hnv]
  · subst hvw
    by_cases hwf : isFinalStatus v
    · simp [hwf]
    · simp only [Bool.not_eq_true] at hwf
      simp [hwf, alSet_self hw]

theorem mergeVal_fix (c : Option RunStatus) (v : RunStatus) :
    (isFinalStatus (mergeVal c v) = true ∧
      ¬ (isFinalStatus v = true ∧ v ≠ mergeVal c v)) ∨ v = mergeVal c v := by
  cases c with
  | none => right; rfl
  | some c0 => cases c0 <;> cases v <;> decide

/-- C9: `MergeStatuses` is idempotent and monotone: merging the same map
twice equals merging it once; a terminal status is never replaced by a
non-terminal one; two different terminal statuses resolve to the newer one;
a non-terminal status is always replaced by the next observation. -/
theorem mergeStepStatuses_idempotent_monotone (previous next : AList RunStatus)
    (_hp : (previous.map Prod.fst).Nodup) (hn : (next.map Prod.fst).Nodup) :
    mergeStepStatuses (mergeStepStatuses previous next) next
        = mergeStepStatuses previous next ∧
    (∀ k t, alGet previous k = some t → isFinalStatus t = true →
      ∃ t', alGet (mergeStepStatuses previous next) k = some t' ∧
        isFinalStatus t' = true) ∧
    (∀ k t t2, alGet previous k = some t → isFinalStatus t = true →
      alGet next k = some t2 → isFinalStatus t2 = true → t2 ≠ t →
      alGet (mergeStepStatuses previous next) k = some t2) ∧
    (∀ k t t2, alGet previous k = some t → isFinalStatus t = false →
      alGet next k = some t2 →
      alGet (mergeStepStatuses previous next) k = some t2) := by
  refine ⟨?_, ?_, ?_, ?_⟩
  · apply foldl_const_of_steps
    intro p hp2
    obtain ⟨k, v⟩ := p
    have hM := merge_get_of_mem hn hp2 previous
    exact mergeStep_noop _ k v _ hM (mergeVal_fix (alGet previous k) v)
  · intro k t hprev hfin
    by_cases hk : k ∈ next.map Prod.fst
    · obtain ⟨p, hmem, hfst⟩ := List.mem_map.mp hk
      have hkv : (k, p.2) ∈ next := by
        have hp2 : (k, p.2) = p := by rw [← hfst]
        rw [hp2]; exact hmem
      refine ⟨mergeVal (alGet previous k) p.2, merge_get_of_mem hn hkv previous, ?_⟩
      rw [hprev]
      unfold mergeVal
      simp only [hfin, if_true]
      by_cases hv : isFinalStatus p.2 = true ∧ p.2 ≠ t
      · simp only [if_pos hv]; exact hv.1
      · simp only [if_neg hv]; exact hfin
    · rw [show mergeStepStatuses previous next = next.foldl mergeStep previous from rfl,
        mergeFold_get_not_mem next previous k hk, hprev]
      exact ⟨t, rfl, hfin⟩
  · intro k t t2 hprev hfin hnext hfin2 hne
    have hmem := alGet_some_mem hnext
    rw [merge_get_of_mem hn hmem previous, hprev]
    unfold mergeVal
    simp only [hfin, if_true]
    rw [if_pos (show isFinalStatus t2 = true ∧ t2 ≠ t from ⟨hfin2, hne⟩)]
  · intro k t t2 hprev hfin hnext
    have hmem := alGet_some_mem hnext
    rw [merge_get_of_mem hn hmem previous, hprev]
    unfold mergeVal
    simp only [hfin, Bool.false_eq_true, if_false]

/-- Witness for C9 at concrete maps: `previous` holds a terminal `success`
and a non-terminal `running`, `next` reports `failed` for both. -/
theorem mergeStepStatuses_idempotent_monotone_witness :
    ((([("s1", RunStatus.success), ("s2", RunStatus.running)] : AList RunStatus).map
        Prod.fst).Nodup) ∧
    ((([("s1", RunStatus.failed), ("s2", RunStatus.failed)] : AList RunStatus).map
        Prod.fst).Nodup) ∧
    (mergeStepStatuses
        (mergeStepStatuses [("s1", .success), ("s2", .running)]
          [("s1", .failed), ("s2", .failed)])
        [("s1", .failed), ("s2", .failed)]
      = mergeStepStatuses [("s1", .success), ("s2", .running)]
          [("s1", .failed), ("s2", .failed)]) ∧
    (∀ k t t2, alGet [("s1", RunStatus.success), ("s2", RunStatus.running)] k = some t →
      isFinalStatus t = true →
      alGet [("s1", RunStatus.failed), ("s2", RunStatus.failed)] k = some t2 →
      isFinalStatus t2 = true → t2 ≠ t →
      alGet (mergeStepStatuses [("s1", .success), ("s2", .running)]
        [("s1", .failed), ("s2", .failed)]) k = some t2) := by
  have h := mergeStepStatuses_idempotent_monotone
    [("s1", .success), ("s2", .running)] [("s1", .failed), ("s2", .failed)]
    (by decide) (by decide)
  exact ⟨by decide, by decide, h.1, h.2.2.1⟩


/-! ## C6: RunStore path confinement -/

theorem commonLen_le_left (a b : List String) : commonLen a b ≤ a.length := by
  induction a generalizing b with
  | nil => cases b <;> simp [commonLen]
  | cons x xs ih =>
    cases b with
    | nil => simp [commonLen]
    | cons y ys =>
      simp only [commonLen]
      by_cases hxy : x = y
      · rw [if_pos hxy]
        simp only [List.length_cons]
        have := ih ys
        omega
      · rw [if_neg hxy]
        simp

theorem prefix_of_commonLen_eq {a b : List String} (h : commonLen a b = a.length) :
    a <+: b := by
  induction a generalizing b with
  | nil => exact List.nil_prefix
  | cons x xs ih =>
    cases b with
    | nil => simp [commonLen] at h
    | cons y ys =>
      simp only [commonLen] at h
      by_cases hxy : x = y
      · rw [if_pos hxy] at h
        simp only [List.length_cons] at h
        subst hxy
        exact (List.prefix_cons_inj x).mpr (ih (by omega))
      · rw [if_neg hxy] at h
        simp at h

theorem ensureWithinBase_confines {base : List String} {child : String}
    {p : List String} (h : ensureWithinBase base child = some p) : base <+: p := by
  unfold ensureWithinBase at h
  by_cases he : relEscapes (relSegs base (resolveFrom base child)) = true
  · rw [if_pos he] at h
    exact absurd h (by simp)
  · rw [if_neg he] at h
    injection h with h
    subst h
    set r := resolveFrom base child with hrdef
    by_cases hc : commonLen base r = base.length
    · exact prefix_of_commonLen_eq hc
    · exfalso
      apply he
      have hlt : commonLen base r < base.length :=
        lt_of_le_of_ne (commonLen_le_left base r) hc
      show relEscapes (List.replicate (base.length - commonLen base r) ".."
        ++ List.drop (commonLen base r) r) = true
      have hrep : base.length - commonLen base r
          = (base.length - commonLen base r - 1) + 1 := by
        omega
      rw [hrep, List.replicate_succ]
      rfl

/-- C6 (amended): every `RunStore` operation that passes the run id through
`ensureWithinBase` — `createRunDir`, `createLogsDir`, `createArtifactsDir`,
`createLogFile` — either throws or yields a path confined to the base
directory; `writeRun` is the exception (see `writeRun_escape_cex`). -/
theorem runStore_ops_confined (base : List String) (runId jobId : String)
    (hash : String → String) :
    (∀ p, createRunDir base runId = some p → base <+: p) ∧
    (∀ p, createLogsDir base runId = some p → base <+: p) ∧
    (∀ p, createArtifactsDir base runId = some p → base <+: p) ∧
    (∀ p, createLogFile hash base runId jobId = some p → base <+: p) := by
  have hrun : ∀ p, createRunDir base runId = some p → base <+: p := by
    intro p h
    exact ensureWithinBase_confines h
  refine ⟨hrun, ?_, ?_, ?_⟩
  · intro p h
    unfold createLogsDir at h
    cases hr : createRunDir base runId with
    | none => rw [hr] at h; simp at h
    | some rd =>
      rw [hr] at h
      injection h with h
      subst h
      exact (hrun rd hr).trans (List.prefix_append rd ["logs"])
  · intro p h
    unfold createArtifactsDir at h
    cases hr : createRunDir base runId with
    | none => rw [hr] at h; simp at h
    | some rd =>
      rw [hr] at h
      injection h with h
      subst h
      exact (hrun rd hr).trans (List.prefix_append rd ["artifacts"])
  · intro p h
    unfold createLogFile at h
    cases hl : createLogsDir base runId with
    | none => rw [hl] at h; simp at h
    | some ld =>
      rw [hl] at h
      rw [show (some ld).bind (fun logsDir =>
            ensureWithinBase logsDir (getJobLogFileName hash jobId))
          = ensureWithinBase ld (getJobLogFileName hash jobId) from rfl] at h
      have hld : base <+: ld := by
        unfold createLogsDir at hl
        cases hr : createRunDir base runId with
        | none => rw [hr] at hl; simp at hl
        | some rd =>
          rw [hr] at hl
          injection hl with hl
          subst hl
          exact (hrun rd hr).trans (List.prefix_append rd ["logs"])
      exact hld.trans (ensureWithinBase_confines h)

/-- Witness for C6's amended theorem at a concrete store layout. -/
theorem runStore_ops_confined_witness :
    createRunDir ["srv", "xci"] "run1" = some ["srv", "xci", "run1"] ∧
    (["srv", "xci"] : List String) <+: ["srv", "xci", "run1"] ∧
    createLogFile (fun _ => "abcd1234") ["srv", "xci"] "run1" "My Job/x"
      = some ["srv", "xci", "run1", "logs", "my-job-x-abcd1234.log"] ∧
    (["srv", "xci"] : List String)
      <+: ["srv", "xci", "run1", "logs", "my-job-x-abcd1234.log"] := by
  have h := runStore_ops_confined ["srv", "xci"] "run1" "My Job/x" (fun _ => "abcd1234")
  exact ⟨by decide, h.1 _ (by decide), by decide, h.2.2.2 _ (by decide)⟩


/-! ## C8: the job-failed post-pass of parseStepData -/

theorem steps_id_inj {steps : List Step} (hnd : (steps.map Step.id).Nodup)
    {i k : Nat} {a b : Step} (hi : steps.get? i = some a) (hk : steps.get? k = some b)
    (hid : a.id = b.id) : i = k := by
  have h1 : (steps.map Step.id).get? i = some a.id := by
    rw [List.get?_map, hi]; rfl
  have h2 : (steps.map Step.id).get? k = some b.id := by
    rw [List.get?_map, hk]; rfl
  have hlen : i < (steps.map Step.id).length := by
    by_contra hge
    rw [List.get?_eq_none.mpr (by omega)] at h1
    exact Option.noConfusion h1
  exact List.get?_inj hlen hnd (by rw [h1, h2, hid])

theorem fillFold_preserved (f : Nat → RunStatus) (l : List (Nat × Step))
    (m : AList RunStatus) (id : String) (st : RunStatus) (h : alGet m id = some st) :
    alGet (l.foldl
      (fun m p => if (alGet m p.2.id).isSome then m else alSet m p.2.id (f p.1)) m) id
      = some st := by
  induction l generalizing m with
  | nil => exact h
  | cons p rest ih =>
    simp only [List.foldl_cons]
    by_cases hset : (alGet m p.2.id).isSome
    · rw [if_pos hset]
      exact ih m h
    · rw [if_neg hset]
      apply ih
      have hne : id ≠ p.2.id := by
        intro heq
        rw [← heq, h] at hset
        exact hset rfl
      rw [alGet_alSet_ne _ _ hne]
      exact h

theorem fillFold_fills (f : Nat → RunStatus) (l : List (Nat × Step))
    (m : AList RunStatus) (hnd : (l.map (fun p => p.2.id)).Nodup)
    (i : Nat) (stp : Step) (hmem : (i, stp) ∈ l) (hnone : alGet m stp.id = none) :
    alGet (l.foldl
      (fun m p => if (alGet m p.2.id).isSome then m else alSet m p.2.id (f p.1)) m) stp.id
      = some (f i) := by
  induction l generalizing m with
  | nil => simp at hmem
  | cons p rest ih =>
    simp only [List.map_cons, List.nodup_cons] at hnd
    simp only [List.foldl_cons]
    rcases List.mem_cons.mp hmem with heq | hrest
    · subst heq
      simp only
      rw [if_neg (by rw [hnone]; simp)]
      exact fillFold_preserved f rest _ _ _ (alGet_alSet_self m stp.id (f i))
    · have hne : stp.id ≠ p.2.id := by
        intro heq
        exact hnd.1 (heq ▸ (List.mem_map.mpr ⟨(i, stp), hrest, rfl⟩))
      by_cases hset : (alGet m p.2.id).isSome
      · rw [if_pos hset]
        exact ih m hnd.2 hrest hnone
      · rw [if_neg hset]
        apply ih _ hnd.2 hrest
        rw [alGet_alSet_ne _ _ hne]
        exact hnone

theorem fillUnset_preserved (m : AList RunStatus) (steps : List Step)
    (f : Nat → RunStatus) (id : String) (st : RunStatus) (h : alGet m id = some st) :
    alGet (fillUnset m steps f) id = some st :=
  fillFold_preserved f steps.enum m id st h

theorem fillUnset_fills (m : AList RunStatus) (steps : List Step) (f : Nat → RunStatus)
    (hnd : (steps.map Step.id).Nodup) (i : Nat) (stp : Step)
    (hget : steps.get? i = some stp) (hnone : alGet m stp.id = none) :
    alGet (fillUnset m steps f) stp.id = some (f i) := by
  apply fillFold_fills f steps.enum m ?_ i stp
  · exact List.mem_enum_iff_get?.mpr hget
  · exact hnone
  · have : steps.enum.map (fun p => p.2.id) = steps.map Step.id := by
      rw [show (fun p : Nat × Step => p.2.id) = Step.id ∘ Prod.snd from rfl,
        ← List.map_map, List.enum_map_snd]
    rw [this]
    exact hnd


/-- The scan keeps its last-running tracker pointing at a step whose recorded
status is `running` (requires distinct step ids). -/
theorem scanLine_lri (steps : List Step) (hnd : (steps.map Step.id).Nodup)
    (nti : AList (List Nat)) (st : ScanState) (line : String)
    (hinv : ∀ k, st.lastRunningIndex = some k →
      ∃ stpk, steps.get? k = some stpk ∧ alGet st.statusMap stpk.id = some .running) :
    ∀ k, (scanLine steps nti st line).lastRunningIndex = some k →
      ∃ stpk, steps.get? k = some stpk ∧
        alGet (scanLine steps nti st line).statusMap stpk.id = some .running := by
  unfold scanLine
  split
  next cap =>
    dsimp only
    split
    next => exact hinv
    next index hidx =>
      split
      next => exact hinv
      next step hstp =>
        intro k hk
        simp only at hk
        injection hk with hk
        subst hk
        exact ⟨step, hstp, alGet_alSet_self _ _ _⟩
  next =>
    split
    next cap =>
      dsimp only
      split
      next => exact hinv
      next index hidx =>
        split
        next => exact hinv
        next step hstp =>
          intro k hk
          simp only at hk
          by_cases hcur : st.lastRunningIndex = some index
          · rw [if_pos hcur] at hk
            exact Option.noConfusion hk
          · rw [if_neg hcur] at hk
            obtain ⟨stpk, hgk, hsk⟩ := hinv k hk
            refine ⟨stpk, hgk, ?_⟩
            have hne : stpk.id ≠ step.id := fun hid =>
              hcur (hk.trans (congrArg some (steps_id_inj hnd hgk hstp hid)))
            simp only
            rw [alGet_alSet_ne _ _ hne]
            exact hsk
    next =>
      split
      next cap =>
        dsimp only
        split
        next => exact hinv
        next index hidx =>
          split
          next => exact hinv
          next step hstp =>
            intro k hk
            simp only at hk
            by_cases hcur : st.lastRunningIndex = some index
            · rw [if_pos hcur] at hk
              exact Option.noConfusion hk
            · rw [if_neg hcur] at hk
              obtain ⟨stpk, hgk, hsk⟩ := hinv k hk
              refine ⟨stpk, hgk, ?_⟩
              have hne : stpk.id ≠ step.id := fun hid =>
                hcur (hk.trans (congrArg some (steps_id_inj hnd hgk hstp hid)))
              simp only
              rw [alGet_alSet_ne _ _ hne]
              exact hsk
      next =>
        split
        next => exact hinv
        next index hcur =>
          split
          next =>
            split
            next => exact hinv
            next => exact hinv
          next => exact hinv

theorem scan_lri_running (steps : List Step) (hnd : (steps.map Step.id).Nodup)
    (raw : String) :
    ∀ k, (scanJob steps raw).lastRunningIndex = some k →
      ∃ stpk, steps.get? k = some stpk ∧
        alGet (scanJob steps raw).statusMap stpk.id = some .running := by
  unfold scanJob
  generalize (splitLinesCRLF raw).map stripAnsi = lines
  generalize buildNameToIndices steps = nti
  have hbase : ∀ k, initScanState.lastRunningIndex = some k →
      ∃ stpk, steps.get? k = some stpk ∧
        alGet initScanState.statusMap stpk.id = some .running := by
    intro k hk
    exact Option.noConfusion hk
  generalize initScanState = st0 at hbase ⊢
  induction lines generalizing st0 with
  | nil => exact hbase
  | cons line rest ih =>
    simp only [List.foldl_cons]
    exact ih _ (scanLine_lri steps hnd nti st0 line hbase)

/-- C8 (amended): with job status `failed` and distinct step ids, the
post-pass of `parseStepData` behaves as follows.  If no failure marker was
seen but the parser's last-running tracker points at step `i` (the most
recently started step not since resolved), that step is marked `failed`;
every step without a recorded scan status at or before the failure point
(the failure marker's index, or the retroactively failed index) defaults to
`success` and every one after it to `canceled`; with no failure point at
all, every step without a recorded status is marked `canceled`. -/
theorem parser_failed_reconcile (steps : List Step) (raw : String)
    (hnd : (steps.map Step.id).Nodup) :
    ((scanJob steps raw).failedIndex = none →
      ∀ i step, (scanJob steps raw).lastRunningIndex = some i →
        steps.get? i = some step →
        alGet (parseStepData steps raw .failed).statuses step.id = some .failed) ∧
    (∀ k, ((scanJob steps raw).failedIndex = some k ∨
        ((scanJob steps raw).failedIndex = none ∧
         (scanJob steps raw).lastRunningIndex = some k)) →
      ∀ i step, steps.get? i = some step →
        alGet (scanJob steps raw).statusMap step.id = none →
        alGet (parseStepData steps raw .failed).statuses step.id
          = some (if i ≤ k then .success else .canceled)) ∧
    ((scanJob steps raw).failedIndex = none →
      (scanJob steps raw).lastRunningIndex = none →
      ∀ i step, steps.get? i = some step →
        alGet (scanJob steps raw).statusMap step.id = none →
        alGet (parseStepData steps raw .failed).statuses step.id = some .canceled) := by
  have hne : steps.isEmpty = false ∨ steps = [] := by
    cases steps with
    | nil => right; rfl
    | cons a l => left; rfl
  rcases hne with hne | hne
  case inr =>
    subst hne
    refine ⟨?_, ?_, ?_⟩
    · intro _ i step _ hget
      simp at hget
    · intro k _ i step hget
      simp at hget
    · intro _ _ i step hget
      simp at hget
  case inl =>
  have hparse : parseStepData steps raw .failed
      = reconcile steps .failed (scanJob steps raw) := by
    unfold parseStepData
    rw [hne]
    rfl
  rw [hparse]
  set s := scanJob steps raw with hs
  unfold reconcile
  simp only [reduceCtorEq, if_false, if_true]
  refine ⟨?_, ?_, ?_⟩
  · intro hfi i step hlri hget
    rw [hfi, hlri]
    dsimp only
    rw [hget]
    dsimp only
    exact fillUnset_preserved _ _ _ _ _ (alGet_alSet_self s.statusMap step.id .failed)
  · intro k hk i step hget hnone
    rcases hk with hk | ⟨hfi, hlri⟩
    · rw [hk]
      cases hlri : s.lastRunningIndex with
      | none =>
        dsimp only
        exact fillUnset_fills _ _ _ hnd i step hget hnone
      | some k2 =>
        dsimp only
        exact fillUnset_fills _ _ _ hnd i step hget hnone
    · rw [hfi, hlri]
      dsimp only
      cases hgk : steps.get? k with
      | none =>
        dsimp only
        exact fillUnset_fills _ _ _ hnd i step hget hnone
      | some stepk =>
        dsimp only
        apply fillUnset_fills _ _ _ hnd i step hget
        obtain ⟨stpk, hgk2, hrun⟩ := scan_lri_running steps hnd raw k hlri
        rw [hgk] at hgk2
        injection hgk2 with hgk2
        subst hgk2
        have hid : step.id ≠ stepk.id := by
          intro hid
          rw [← hs] at hrun
          rw [hid, hrun] at hnone
          exact Option.noConfusion hnone
        rw [alGet_alSet_ne _ _ hid]
        exact hnone
  · intro hfi hlri i step hget hnone
    rw [hfi, hlri]
    dsimp only
    exact fillUnset_fills _ _ _ hnd i step hget hnone

/-- Witness for C8's amended theorem: one step starts and never resolves, the
job fails — the step is retroactively failed and the later step defaults to
`canceled`. -/
theorem parser_failed_reconcile_witness :
    (([⟨"s1", "A"⟩, ⟨"s2", "B"⟩] : List Step).map Step.id).Nodup ∧
    (scanJob [⟨"s1", "A"⟩, ⟨"s2", "B"⟩] "⭐ Run A\n").failedIndex = none ∧
    (scanJob [⟨"s1", "A"⟩, ⟨"s2", "B"⟩] "⭐ Run A\n").lastRunningIndex = some 0 ∧
    alGet (parseStepData [⟨"s1", "A"⟩, ⟨"s2", "B"⟩] "⭐ Run A\n" .failed).statuses "s1"
      = some .failed ∧
    alGet (parseStepData [⟨"s1", "A"⟩, ⟨"s2", "B"⟩] "⭐ Run A\n" .failed).statuses "s2"
      = some (if 1 ≤ 0 then RunStatus.success else RunStatus.canceled) := by
  have h := parser_failed_reconcile [⟨"s1", "A"⟩, ⟨"s2", "B"⟩] "⭐ Run A\n" (by decide)
  refine ⟨by decide, by decide, by decide, ?_, ?_⟩
  · exact h.1 (by decide) 0 ⟨"s1", "A"⟩ (by decide) (by decide)
  · exact h.2.1 0 (Or.inr ⟨by decide, by decide⟩) 1 ⟨"s2", "B"⟩ (by decide) (by decide)


/-! ## C3: expandJobIdsWithNeeds on acyclic reachable graphs -/

theorem jobMapGet_mem {wf : Workflow} {a : String} {job : JobDef}
    (h : jobMapGet wf a = some job) : job ∈ wf.jobs ∧ job.id = a := by
  unfold jobMapGet at h
  constructor
  · exact List.mem_reverse.mp (List.mem_of_find?_eq_some h)
  · have := List.find?_some h
    simpa using this

theorem needsReach_rank {wf : Workflow} {rank : String → Nat}
    (hr : RankedWf wf rank) {x y : String} (h : NeedsReach wf x y) :
    rank y ≤ rank x := by
  induction h with
  | refl => exact le_refl _
  | step hj hb _ ih =>
    obtain ⟨hmem, hid⟩ := jobMapGet_mem hj
    have := hr _ hmem _ hb
    rw [hid] at this
    omega

theorem indexOf_append_self {l : List String} {a : String} (h : a ∉ l) :
    (l ++ [a]).indexOf a = l.length := by
  induction l with
  | nil => simp
  | cons x xs ih =>
    simp only [List.mem_cons, not_or] at h
    simp only [List.cons_append, List.indexOf_cons, List.length_cons]
    have hxa : (x == a) = false := by
      simp only [beq_eq_false_iff_ne, ne_eq]
      exact fun hh => h.1 hh.symm
    rw [hxa]
    simp only [cond_false]
    rw [ih h.2]

theorem visitSeq_nil (wf : Workflow) (fuel : Nat) (exp : List String) :
    visitSeq wf fuel exp [] = some exp := rfl

theorem visitSeq_cons (wf : Workflow) (fuel : Nat) (exp : List String)
    (n : String) (ns : List String) :
    visitSeq wf fuel exp (n :: ns) =
      match visitNeeds wf fuel exp n with
      | none => none
      | some e => visitSeq wf fuel e ns := by
  unfold visitSeq
  rw [List.foldlM_cons]
  cases visitNeeds wf fuel exp n <;> rfl

theorem visitNeeds_succ (wf : Workflow) (fuel : Nat) (exp : List String)
    (jobId : String) :
    visitNeeds wf (fuel + 1) exp jobId =
      (if jobId ∈ exp then some exp
       else
        match jobMapGet wf jobId with
        | none => some exp
        | some job =>
          match visitSeq wf fuel exp job.needs with
          | none => none
          | some exp2 => some (exp2 ++ [jobId])) := rfl

theorem visitSeq_spec_of (wf : Workflow) (fuel : Nat)
    (hvn : ∀ exp j e', visitNeeds wf fuel exp j = some e' →
      (exp <+: e') ∧
      (∀ y ∈ e', y ∈ exp ∨ ((jobMapGet wf y).isSome ∧ NeedsReach wf j y)) ∧
      ((jobMapGet wf j).isSome → j ∈ e') ∧
      (GoodExp wf exp → GoodExp wf e')) :
    ∀ ns exp e', visitSeq wf fuel exp ns = some e' →
      (exp <+: e') ∧
      (∀ y ∈ e', y ∈ exp ∨
        ((jobMapGet wf y).isSome ∧ ∃ n ∈ ns, NeedsReach wf n y)) ∧
      (∀ n ∈ ns, (jobMapGet wf n).isSome → n ∈ e') ∧
      (GoodExp wf exp → GoodExp wf e') := by
  intro ns
  induction ns with
  | nil =>
    intro exp e' h
    rw [visitSeq_nil] at h
    injection h with h
    subst h
    exact ⟨List.prefix_refl _, fun y hy => Or.inl hy, fun n hn => absurd hn (by simp),
      fun hg => hg⟩
  | cons n ns ih =>
    intro exp e' h
    rw [visitSeq_cons] at h
    cases h1 : visitNeeds wf fuel exp n with
    | none => rw [h1] at h; exact absurd h (by simp)
    | some e1 =>
      rw [h1] at h
      dsimp only at h
      obtain ⟨hpre1, hmem1, hself1, hgood1⟩ := hvn exp n e1 h1
      obtain ⟨hpre2, hmem2, hall2, hgood2⟩ := ih e1 e' h
      refine ⟨hpre1.trans hpre2, ?_, ?_, fun hg => hgood2 (hgood1 hg)⟩
      · intro y hy
        rcases hmem2 y hy with hy1 | ⟨hsome, m, hm, hnr⟩
        · rcases hmem1 y hy1 with hy0 | ⟨hsome, hnr⟩
          · exact Or.inl hy0
          · exact Or.inr ⟨hsome, n, List.mem_cons_self n ns, hnr⟩
        · exact Or.inr ⟨hsome, m, List.mem_cons_of_mem n hm, hnr⟩
      · intro m hm hsome
        rcases List.mem_cons.mp hm with heq | hm2
        · subst heq
          exact hpre2.subset (hself1 hsome)
        · exact hall2 m hm2 hsome

theorem visitNeeds_spec (wf : Workflow) (rank : String → Nat)
    (hr : RankedWf wf rank) :
    ∀ fuel exp j e', visitNeeds wf fuel exp j = some e' →
      (exp <+: e') ∧
      (∀ y ∈ e', y ∈ exp ∨ ((jobMapGet wf y).isSome ∧ NeedsReach wf j y)) ∧
      ((jobMapGet wf j).isSome → j ∈ e') ∧
      (GoodExp wf exp → GoodExp wf e') := by
  intro fuel
  induction fuel with
  | zero =>
    intro exp j e' h
    exact absurd h (by simp [visitNeeds])
  | succ fuel ih =>
    intro exp j e' h
    rw [visitNeeds_succ] at h
    by_cases hmem : j ∈ exp
    · rw [if_pos hmem] at h
      injection h with h
      subst h
      exact ⟨List.prefix_refl _, fun y hy => Or.inl hy, fun _ => hmem, fun hg => hg⟩
    · rw [if_neg hmem] at h
      cases hjm : jobMapGet wf j with
      | none =>
        rw [hjm] at h
        injection h with h
        subst h
        refine ⟨List.prefix_refl _, fun y hy => Or.inl hy, fun hsome => ?_, fun hg => hg⟩
        simp at hsome
      | some job =>
        rw [hjm] at h
        dsimp only at h
        cases hsq : visitSeq wf fuel exp job.needs with
        | none => rw [hsq] at h; exact absurd h (by simp)
        | some e2 =>
          rw [hsq] at h
          dsimp only at h
          injection h with h
          subst h
          obtain ⟨hpre, hmem2, hneed, hgood⟩ := visitSeq_spec_of wf fuel ih job.needs exp e2 hsq
          have hjnot : j ∉ e2 := by
            intro hj
            rcases hmem2 j hj with hj2 | ⟨_, n, hn, hnr⟩
            · exact hmem hj2
            · have h1 : rank j ≤ rank n := needsReach_rank hr hnr
              obtain ⟨hjmem, hjid⟩ := jobMapGet_mem hjm
              have h2 : rank n < rank j := by
                have := hr job hjmem n hn
                rw [hjid] at this
                exact this
              omega
          refine ⟨hpre.trans (List.prefix_append e2 [j]), ?_, ?_, ?_⟩
          · intro y hy
            rcases List.mem_append.mp hy with hy | hy
            · rcases hmem2 y hy with h0 | ⟨hsome, n, hn, hnr⟩
              · exact Or.inl h0
              · exact Or.inr ⟨hsome, NeedsReach.step hjm hn hnr⟩
            · rw [List.mem_singleton] at hy
              subst hy
              exact Or.inr ⟨by rw [hjm]; rfl, NeedsReach.refl y⟩
          · intro _
            exact List.mem_append_right e2 (List.mem_singleton.mpr rfl)
          · intro hg
            obtain ⟨hnd2, hsome2, hord2⟩ := hgood hg
            refine ⟨?_, ?_, ?_⟩
            · rw [List.nodup_append]
              exact ⟨hnd2, List.nodup_singleton j,
                fun x hx hx2 => (List.mem_singleton.mp hx2 ▸ hjnot) hx⟩
            · intro x hx
              rcases List.mem_append.mp hx with hx | hx
              · exact hsome2 x hx
              · rw [List.mem_singleton] at hx
                subst hx
                rw [hjm]; rfl
            · intro x hx job2 hj2 b hb hbs
              rcases List.mem_append.mp hx with hx | hx
              · obtain ⟨hbmem, hlt⟩ := hord2 x hx job2 hj2 b hb hbs
                refine ⟨List.mem_append_left _ hbmem, ?_⟩
                rw [List.indexOf_append_of_mem hbmem, List.indexOf_append_of_mem hx]
                exact hlt
              · rw [List.mem_singleton] at hx
                subst hx
                rw [hjm] at hj2
                injection hj2 with hj2
                subst hj2
                have hbmem : b ∈ e2 := hneed b hb hbs
                refine ⟨List.mem_append_left _ hbmem, ?_⟩
                rw [List.indexOf_append_of_mem hbmem, indexOf_append_self hjnot]
                exact List.indexOf_lt_length.mpr hbmem

theorem visitSeq_isSome_of (wf : Workflow) (fuel : Nat) (ns : List String)
    (h : ∀ n ∈ ns, ∀ exp, (visitNeeds wf fuel exp n).isSome) :
    ∀ exp, (visitSeq wf fuel exp ns).isSome := by
  induction ns with
  | nil => intro exp; rw [visitSeq_nil]; rfl
  | cons n ns ih =>
    intro exp
    rw [visitSeq_cons]
    cases h1 : visitNeeds wf fuel exp n with
    | none =>
      have := h n (List.mem_cons_self n ns) exp
      rw [h1] at this
      exact absurd this (by simp)
    | some e1 =>
      exact ih (fun m hm e => h m (List.mem_cons_of_mem n hm) e) e1

theorem visitNeeds_isSome (wf : Workflow) (rank : String → Nat)
    (hr : RankedWf wf rank) :
    ∀ fuel j exp, rank j < fuel → (visitNeeds wf fuel exp j).isSome := by
  intro fuel
  induction fuel with
  | zero => intro j exp h; omega
  | succ fuel ih =>
    intro j exp hrank
    rw [visitNeeds_succ]
    by_cases hmem : j ∈ exp
    · rw [if_pos hmem]; rfl
    · rw [if_neg hmem]
      cases hjm : jobMapGet wf j with
      | none => rfl
      | some job =>
        dsimp only
        have hall : ∀ n ∈ job.needs, ∀ e, (visitNeeds wf fuel e n).isSome := by
          intro n hn e
          apply ih
          obtain ⟨hjmem, hjid⟩ := jobMapGet_mem hjm
          have := hr job hjmem n hn
          rw [hjid] at this
          omega
        have := visitSeq_isSome_of wf fuel job.needs hall exp
        cases hsq : visitSeq wf fuel exp job.needs with
        | none => rw [hsq] at this; exact absurd this (by simp)
        | some e2 => rfl

/-- C3 (amended): when the `needs` graph is acyclic (witnessed by a rank
function) and the recursion depth bound exceeds every selected id's rank,
`expandJobIdsWithNeeds` terminates and returns a duplicate-free list that
contains exactly a transitive `needs`-closure of the selection: ids not
found in the workflow are silently skipped, every returned id is reachable
from the selection, every resolvable selected id is returned, and every
resolvable dependency of a returned id appears before it. -/
theorem expand_closure_amended (wf : Workflow) (selected : List String)
    (rank : String → Nat) (hr : RankedWf wf rank) (fuel : Nat)
    (hfuel : ∀ j ∈ selected, rank j < fuel) :
    ∃ r, expandJobIdsWithNeeds wf selected fuel = some r ∧
      r.Nodup ∧
      (∀ x ∈ r, (jobMapGet wf x).isSome) ∧
      (∀ x ∈ r, ∃ j ∈ selected, NeedsReach wf j x) ∧
      (∀ j ∈ selected, (jobMapGet wf j).isSome → j ∈ r) ∧
      (∀ x ∈ r, ∀ job, jobMapGet wf x = some job → ∀ b ∈ job.needs,
        (jobMapGet wf b).isSome → b ∈ r ∧ r.indexOf b < r.indexOf x) := by
  have hsome : (visitSeq wf fuel [] selected).isSome := by
    apply visitSeq_isSome_of
    intro j hj exp
    exact visitNeeds_isSome wf rank hr fuel j exp (hfuel j hj)
  cases hres : visitSeq wf fuel [] selected with
  | none => rw [hres] at hsome; exact absurd hsome (by simp)
  | some r =>
    obtain ⟨_, hmemb, hall, hgood⟩ :=
      visitSeq_spec_of wf fuel (visitNeeds_spec wf rank hr fuel) selected [] r hres
    have hge : GoodExp wf r := hgood ⟨List.nodup_nil, by simp, by simp⟩
    refine ⟨r, hres, hge.1, hge.2.1, ?_, hall, hge.2.2⟩
    intro x hx
    rcases hmemb x hx with hx0 | ⟨_, j, hj, hnr⟩
    · exact absurd hx0 (by simp)
    · exact ⟨j, hj, hnr⟩

/-- Witness for C3's amended theorem: the spec's own example — expanding
`deploy` over `build ← test ← deploy` yields `[build, test, deploy]`. -/
theorem expand_closure_amended_witness :
    RankedWf ⟨[⟨"build", []⟩, ⟨"test", ["build"]⟩, ⟨"deploy", ["test"]⟩, ⟨"pr-only", []⟩]⟩
      (fun s => if s = "deploy" then 2 else if s = "test" then 1 else 0) ∧
    (∀ j ∈ (["deploy"] : List String),
      (fun s : String => if s = "deploy" then 2 else if s = "test" then 1 else 0) j < 3) ∧
    expandJobIdsWithNeeds
      ⟨[⟨"build", []⟩, ⟨"test", ["build"]⟩, ⟨"deploy", ["test"]⟩, ⟨"pr-only", []⟩]⟩
      ["deploy"] 3 = some ["build", "test", "deploy"] ∧
    (∃ r, expandJobIdsWithNeeds
        ⟨[⟨"build", []⟩, ⟨"test", ["build"]⟩, ⟨"deploy", ["test"]⟩, ⟨"pr-only", []⟩]⟩
        ["deploy"] 3 = some r ∧
      r.Nodup ∧
      (∀ x ∈ r, (jobMapGet ⟨[⟨"build", []⟩, ⟨"test", ["build"]⟩, ⟨"deploy", ["test"]⟩,
        ⟨"pr-only", []⟩]⟩ x).isSome) ∧
      (∀ x ∈ r, ∃ j ∈ (["deploy"] : List String), NeedsReach
        ⟨[⟨"build", []⟩, ⟨"test", ["build"]⟩, ⟨"deploy", ["test"]⟩, ⟨"pr-only", []⟩]⟩ j x) ∧
      (∀ j ∈ (["deploy"] : List String), (jobMapGet ⟨[⟨"build", []⟩, ⟨"test", ["build"]⟩,
        ⟨"deploy", ["test"]⟩, ⟨"pr-only", []⟩]⟩ j).isSome → j ∈ r) ∧
      (∀ x ∈ r, ∀ job, jobMapGet ⟨[⟨"build", []⟩, ⟨"test", ["build"]⟩, ⟨"deploy", ["test"]⟩,
          ⟨"pr-only", []⟩]⟩ x = some job → ∀ b ∈ job.needs,
        (jobMapGet ⟨[⟨"build", []⟩, ⟨"test", ["build"]⟩, ⟨"deploy", ["test"]⟩,
          ⟨"pr-only", []⟩]⟩ b).isSome → b ∈ r ∧ r.indexOf b < r.indexOf x)) :=
  ⟨by decide, by decide, by decide,
    expand_closure_amended _ ["deploy"]
      (fun s => if s = "deploy" then 2 else if s = "test" then 1 else 0)
      (by decide) 3 (by decide)⟩


/-! ## C4 / C5: structural lemmas about the persisted record -/

theorem jobStatusIn_some (r : RunRecord) (jid : String) :
    jobStatusIn (some r) jid = findStatus r.jobs jid := rfl

theorem findStatus_append (l1 l2 : List JobRun) (jid : String) :
    findStatus (l1 ++ l2) jid = (findStatus l1 jid).or (findStatus l2 jid) := by
  unfold findStatus
  rw [List.find?_append]
  cases l1.find? (fun jr => jr.jobId = jid) <;> rfl

theorem findStatus_map_const (l : List String) (σ : RunStatus) (ec : Option Int)
    (jid : String) :
    findStatus (l.map (fun j => { jobId := j, status := σ, exitCode := ec })) jid
      = if jid ∈ l then some σ else none := by
  induction l with
  | nil => rfl
  | cons x xs ih =>
    simp only [List.map_cons, findStatus, List.find?_cons]
    by_cases hx : x = jid
    · subst hx
      simp
    · rw [show decide (x = jid) = false by simpa using hx]
      dsimp only
      simp only [findStatus] at ih
      rw [ih]
      by_cases hmem : jid ∈ xs
      · rw [if_pos hmem, if_pos (List.mem_cons_of_mem x hmem)]
      · rw [if_neg hmem, if_neg ?_]
        simp only [List.mem_cons, not_or]
        exact ⟨fun h => hx h.symm, hmem⟩

theorem updateFirstJob_append_not_mem (l1 l2 : List JobRun) (jid : String)
    (f : JobRun → JobRun) (h : jid ∉ l1.map JobRun.jobId) :
    updateFirstJob (l1 ++ l2) jid f = l1 ++ updateFirstJob l2 jid f := by
  induction l1 with
  | nil => rfl
  | cons jr rest ih =>
    simp only [List.map_cons, List.mem_cons, not_or] at h
    simp only [List.cons_append, updateFirstJob]
    rw [if_neg (fun hh => h.1 hh.symm)]
    have := ih h.2
    simp only [List.append_eq] at this ⊢
    rw [this]

theorem updateFirstJob_cons_self (jr : JobRun) (l : List JobRun) (jid : String)
    (f : JobRun → JobRun) (h : jr.jobId = jid) :
    updateFirstJob (jr :: l) jid f = f jr :: l := by
  simp only [updateFirstJob, if_pos h]

theorem findStatus_update (l1 l2 : List JobRun) (jr jr' : JobRun)
    (hid : jr'.jobId = jr.jobId) (jid : String) :
    findStatus (l1 ++ jr :: l2) jid = findStatus (l1 ++ jr' :: l2) jid ∨
    (findStatus (l1 ++ jr :: l2) jid = some jr.status ∧
     findStatus (l1 ++ jr' :: l2) jid = some jr'.status) := by
  rw [findStatus_append, findStatus_append]
  cases hf : findStatus l1 jid with
  | some st => left; rfl
  | none =>
    simp only [Option.none_or]
    unfold findStatus
    simp only [List.find?_cons]
    by_cases hj : jr.jobId = jid
    · rw [show decide (jr.jobId = jid) = true by simpa using hj,
        show decide (jr'.jobId = jid) = true by simp [hid, hj]]
      right
      exact ⟨rfl, rfl⟩
    · rw [show decide (jr.jobId = jid) = false by simpa using hj,
        show decide (jr'.jobId = jid) = false by simp [hid, hj]]
      left
      rfl

theorem cancelFold (ids : List String) (done : List JobRun)
    (hdisj : ∀ x ∈ ids, x ∉ done.map JobRun.jobId) (hnd : ids.Nodup) :
    ids.foldl
      (fun jobs jobId => updateFirstJob jobs jobId
        (fun jr => if jr.status = .pending then { jr with status := .canceled } else jr))
      (done ++ ids.map (fun j => { jobId := j, status := .pending, exitCode := none }))
    = done ++ ids.map (fun j => { jobId := j, status := .canceled, exitCode := none }) := by
  induction ids generalizing done with
  | nil => simp
  | cons x xs ih =>
    simp only [List.map_cons, List.foldl_cons, List.nodup_cons] at *
    rw [updateFirstJob_append_not_mem _ _ _ _ (hdisj x (List.mem_cons_self x xs)),
      updateFirstJob_cons_self _ _ _ _ rfl]
    simp only [reduceIte]
    have heq : done ++ { jobId := x, status := RunStatus.canceled, exitCode := none }
        :: List.map (fun j => { jobId := j, status := RunStatus.pending, exitCode := none }) xs
        = (done ++ [{ jobId := x, status := RunStatus.canceled, exitCode := none }])
          ++ List.map (fun j => { jobId := j, status := RunStatus.pending, exitCode := none }) xs := by
      simp
    rw [heq, ih]
    · simp
    · intro y hy
      simp only [List.map_append, List.map_cons, List.map_nil, List.mem_append,
        List.mem_singleton, not_or]
      refine ⟨fun hc => (hdisj y (List.mem_cons_of_mem x hy)) hc,
        fun hc => hnd.1 (hc ▸ hy)⟩
    · exact hnd.2

theorem statusOfExit_terminal (e : Int) :
    isTerminal (statusOfExit e) = true ∧ statusRank (statusOfExit e) = 2 := by
  unfold statusOfExit
  by_cases h130 : e = 130
  · simp [h130, isTerminal, statusRank]
  · by_cases h0 : e = 0 <;> simp [h130, h0, isTerminal, statusRank]

theorem stepFwd_runFinished (s : Option RunRecord) (rid : String) (st : RunStatus) :
    stepFwd s (.runFinished rid st) := by
  intro jid st0 h
  cases s with
  | none => simp [jobStatusIn] at h
  | some r =>
    refine ⟨st0, ?_, le_refl _, fun _ => rfl⟩
    simp only [applyEvent]
    by_cases hid : r.id = rid
    · rw [if_pos hid]
      exact h
    · rw [if_neg hid]
      exact h

theorem recordOk_running (r : RunRecord) (h : r.status = .running) :
    recordOk (some r) := by
  intro r0 hr0
  injection hr0 with hr0
  subst hr0
  exact ⟨fun _ => h, fun hne => absurd h hne⟩

theorem anyStatus_false (jobs : List JobRun) (σ : RunStatus)
    (h : ∀ jr ∈ jobs, jr.status ≠ σ) :
    (jobs.any fun jr => jr.status = σ) = false := by
  rw [List.any_eq_false]
  intro jr hjr
  simp only [decide_eq_true_eq]
  exact h jr hjr

theorem anyStatus_true (jobs : List JobRun) (σ : RunStatus)
    (jr : JobRun) (hjr : jr ∈ jobs) (h : jr.status = σ) :
    (jobs.any fun jr => jr.status = σ) = true := by
  rw [List.any_eq_true]
  exact ⟨jr, hjr, by simp [h]⟩


theorem applyEvent_jobStarted (r : RunRecord) (rid j : String) (hid : r.id = rid) :
    applyEvent (some r) (.jobStarted rid j)
      = some { r with jobs :=
          updateFirstJob r.jobs j (fun jr => { jr with status := .running }) } := by
  simp [applyEvent, hid]

theorem applyEvent_jobFinished (r : RunRecord) (rid j : String) (st : RunStatus)
    (e : Int) (hid : r.id = rid) :
    applyEvent (some r) (.jobFinished rid j st e)
      = some { r with jobs := updateFirstJob r.jobs j (fun jr => { jr with status := st, exitCode := some e }) } := by
  simp [applyEvent, hid]

theorem applyEvent_runFinished (r : RunRecord) (rid : String) (st : RunStatus)
    (hid : r.id = rid) :
    applyEvent (some r) (.runFinished rid st) = some { r with status := st } := by
  simp [applyEvent, hid]

theorem applyEvent_jobsCanceled (r : RunRecord) (rid : String) (ids : List String)
    (done : List JobRun) (hid : r.id = rid)
    (hjobs : r.jobs = done ++ ids.map
      (fun jid => { jobId := jid, status := .pending, exitCode := none }))
    (hdisj : ∀ x ∈ ids, x ∉ done.map JobRun.jobId) (hnd : ids.Nodup) :
    applyEvent (some r) (.jobsCanceled rid ids)
      = some { r with jobs := done ++ ids.map (fun jid => { jobId := jid, status := .canceled, exitCode := none }) } := by
  simp only [applyEvent, hid, if_pos]
  rw [hjobs, cancelFold ids done hdisj hnd]

theorem stepFwd_update (r : RunRecord) (e : Event) (l1 l2 : List JobRun)
    (jr jr' : JobRun) (hjobs : r.jobs = l1 ++ jr :: l2)
    (happly : applyEvent (some r) e = some { r with jobs := l1 ++ jr' :: l2 })
    (hid : jr'.jobId = jr.jobId)
    (hrank : statusRank jr.status ≤ statusRank jr'.status)
    (hterm : isTerminal jr.status = false ∨ jr'.status = jr.status) :
    stepFwd (some r) e := by
  intro jid st h
  rw [happly]
  rw [jobStatusIn_some] at h ⊢
  simp only at h ⊢
  rw [hjobs] at h
  rcases findStatus_update l1 l2 jr jr' hid jid with heq | ⟨h1, h2⟩
  · exact ⟨st, by rw [← heq]; exact h, le_refl _, fun _ => rfl⟩
  · rw [h1] at h
    injection h with h
    refine ⟨jr'.status, h2, ?_, ?_⟩
    · rw [← h]; exact hrank
    · intro hterm2
      rcases hterm with hterm | hterm
      · rw [← h] at hterm2
        rw [hterm2] at hterm
        exact absurd hterm (by simp)
      · rw [hterm, h]

theorem stepFwd_jobsCanceled (r : RunRecord) (rid : String) (ids : List String)
    (done : List JobRun)
    (hjobs : r.jobs = done ++ ids.map
      (fun jid => { jobId := jid, status := .pending, exitCode := none }))
    (happly : applyEvent (some r) (.jobsCanceled rid ids)
      = some { r with jobs := done ++ ids.map (fun jid => { jobId := jid, status := .canceled, exitCode := none }) }) :
    stepFwd (some r) (.jobsCanceled rid ids) := by
  intro jid st h
  rw [happly]
  rw [jobStatusIn_some] at h ⊢
  simp only at h ⊢
  rw [hjobs] at h
  rw [findStatus_append] at h ⊢
  cases hf : findStatus done jid with
  | some st0 =>
    rw [hf] at h
    simp only [Option.or_some] at h ⊢
    exact ⟨st, h, le_refl _, fun _ => rfl⟩
  | none =>
    rw [hf] at h
    simp only [Option.none_or] at h ⊢
    rw [findStatus_map_const] at h
    by_cases hmem : jid ∈ ids
    · rw [if_pos hmem] at h
      injection h with h
      refine ⟨.canceled, ?_, ?_, ?_⟩
      · rw [findStatus_map_const, if_pos hmem]
      · rw [← h]; exact Nat.zero_le _
      · intro ht
        rw [← h] at ht
        exact absurd ht (by simp [isTerminal])
    · rw [if_neg hmem] at h
      exact absurd h (by simp)


theorem isTerminal_ne (σ : RunStatus) (h : isTerminal σ = true) :
    σ ≠ .running ∧ σ ≠ .pending := by
  cases σ <;> simp_all [isTerminal]

theorem mem_mixed (done : List JobRun) (l : List String) (σ : RunStatus)
    (ec : Option Int) (jr : JobRun)
    (hjr : jr ∈ done ++ l.map (fun j => { jobId := j, status := σ, exitCode := ec })) :
    jr ∈ done ∨ jr.status = σ := by
  rcases List.mem_append.mp hjr with h | h
  · exact Or.inl h
  · rcases List.mem_map.mp h with ⟨x, _, hx⟩
    exact Or.inr (by rw [← hx])

theorem cascade_failed (r : RunRecord) (jr : JobRun) (hjr : jr ∈ r.jobs)
    (hf : jr.status = .failed) : cascade r = .failed := by
  unfold cascade anyFailed
  rw [anyStatus_true r.jobs .failed jr hjr hf]
  rfl

theorem cascade_canceled (r : RunRecord) (jr : JobRun) (hjr : jr ∈ r.jobs)
    (hc : jr.status = .canceled) (hnf : ∀ x ∈ r.jobs, x.status ≠ .failed) :
    cascade r = .canceled := by
  unfold cascade anyFailed anyCanceled
  rw [anyStatus_false r.jobs .failed hnf, anyStatus_true r.jobs .canceled jr hjr hc]
  rfl

theorem cascade_success (r : RunRecord) (hnf : ∀ x ∈ r.jobs, x.status ≠ .failed)
    (hnc : ∀ x ∈ r.jobs, x.status ≠ .canceled) : cascade r = .success := by
  unfold cascade anyFailed anyCanceled
  rw [anyStatus_false r.jobs .failed hnf, anyStatus_false r.jobs .canceled hnc]
  rfl

theorem recordOk_final (r : RunRecord)
    (hnr : ∀ jr ∈ r.jobs, jr.status ≠ .running)
    (hcasc : r.status = cascade r) :
    recordOk (some r) := by
  intro r0 hr0
  injection hr0 with hr0
  subst hr0
  refine ⟨fun hrun => ?_, fun _ => hcasc⟩
  rw [anyRunning, anyStatus_false r.jobs .running hnr] at hrun
  exact absurd hrun (by simp)

theorem engineLoop_cons_abort (rid : String) (lp : String → String) (ab : Nat → Bool)
    (ex : Nat → Int) (i : Nat) (e0 : Int) (l0 : String) (hf hc : Bool)
    (j : String) (rest : List String) (hab : ab i = true) :
    engineLoop rid lp ab ex i e0 l0 hf hc (j :: rest)
      = { events := [.jobsCanceled rid (j :: rest)], exitCode := 130, lastLogs := l0, hasFailure := hf, hasCanceled := true } := by
  simp [engineLoop, hab, cancelEvents]

theorem engineLoop_cons_zero (rid : String) (lp : String → String) (ab : Nat → Bool)
    (ex : Nat → Int) (i : Nat) (e0 : Int) (l0 : String) (hf hc : Bool)
    (j : String) (rest : List String) (hab : ab i = false) (hz : ex i = 0) :
    engineLoop rid lp ab ex i e0 l0 hf hc (j :: rest)
      = { engineLoop rid lp ab ex (i + 1) 0 (lp j) hf hc rest with events := Event.jobStarted rid j :: Event.jobFinished rid j .success 0 :: (engineLoop rid lp ab ex (i + 1) 0 (lp j) hf hc rest).events } := by
  simp [engineLoop, hab, hz, statusOfExit]

theorem engineLoop_cons_stop (rid : String) (lp : String → String) (ab : Nat → Bool)
    (ex : Nat → Int) (i : Nat) (e0 : Int) (l0 : String) (hf hc : Bool)
    (j : String) (rest : List String) (hab : ab i = false) (hnz : ¬ ex i = 0) :
    engineLoop rid lp ab ex i e0 l0 hf hc (j :: rest)
      = { events := [Event.jobStarted rid j, Event.jobFinished rid j (statusOfExit (ex i)) (ex i)] ++ cancelEvents rid rest, exitCode := ex i, lastLogs := lp j, hasFailure := hf || decide (ex i ≠ 130), hasCanceled := hc || decide (ex i = 130) } := by
  simp [engineLoop, hab, hnz]

theorem aggStatus_events_update (t : LoopOut) (evs : List Event) :
    aggStatus { t with events := evs } = aggStatus t := rfl

theorem aggStatus_stop (evs : List Event) (e0 : Int) (l0 : String) (e : Int) :
    aggStatus { events := evs, exitCode := e0, lastLogs := l0, hasFailure := false || decide (e ≠ 130), hasCanceled := false || decide (e = 130) }
      = if e = 130 then .canceled else .failed := by
  by_cases h : e = 130 <;> simp [aggStatus, h]

theorem jobPair_step (r : RunRecord) (rid j : String) (st : RunStatus) (e : Int)
    (done : List JobRun) (rest : List String)
    (hid : r.id = rid)
    (hjobs : r.jobs = done ++ (j :: rest).map (fun x => { jobId := x, status := .pending, exitCode := none }))
    (hjd : j ∉ done.map JobRun.jobId)
    (hrank : 1 ≤ statusRank st) :
    stepFwd (some r) (.jobStarted rid j) ∧
    ∃ r1, applyEvent (some r) (.jobStarted rid j) = some r1 ∧
      r1.id = rid ∧ r1.status = r.status ∧
      r1.jobs = done ++ ({ jobId := j, status := .running, exitCode := none } : JobRun) :: rest.map (fun x => { jobId := x, status := .pending, exitCode := none }) ∧
      stepFwd (some r1) (.jobFinished rid j st e) ∧
      ∃ r2, applyEvent (some r1) (.jobFinished rid j st e) = some r2 ∧
        r2.id = rid ∧ r2.status = r.status ∧
        r2.jobs = done ++ ({ jobId := j, status := st, exitCode := some e } : JobRun) :: rest.map (fun x => { jobId := x, status := .pending, exitCode := none }) := by
  have hjobs1 : r.jobs = done ++ ({ jobId := j, status := .pending, exitCode := none } : JobRun) :: rest.map (fun x => { jobId := x, status := .pending, exitCode := none }) := by
    rw [hjobs, List.map_cons]
  have hupd1 : updateFirstJob r.jobs j (fun jr => { jr with status := .running }) = done ++ ({ jobId := j, status := .running, exitCode := none } : JobRun) :: rest.map (fun x => { jobId := x, status := .pending, exitCode := none }) := by
    rw [hjobs1, updateFirstJob_append_not_mem _ _ _ _ hjd, updateFirstJob_cons_self _ _ _ _ rfl]
  have happly1 : applyEvent (some r) (.jobStarted rid j) = some { r with jobs := done ++ ({ jobId := j, status := .running, exitCode := none } : JobRun) :: rest.map (fun x => { jobId := x, status := .pending, exitCode := none }) } := by
    rw [applyEvent_jobStarted r rid j hid, hupd1]
  refine ⟨stepFwd_update r _ done _ _ _ hjobs1 happly1 rfl (Nat.zero_le _) (Or.inl rfl), ?_⟩
  have hupd2 : updateFirstJob (done ++ ({ jobId := j, status := .running, exitCode := none } : JobRun) :: rest.map (fun x => { jobId := x, status := .pending, exitCode := none })) j (fun jr => { jr with status := st, exitCode := some e }) = done ++ ({ jobId := j, status := st, exitCode := some e } : JobRun) :: rest.map (fun x => { jobId := x, status := .pending, exitCode := none }) := by
    rw [updateFirstJob_append_not_mem _ _ _ _ hjd, updateFirstJob_cons_self _ _ _ _ rfl]
  have hid1 : ({ r with jobs := done ++ ({ jobId := j, status := .running, exitCode := none } : JobRun) :: rest.map (fun x => { jobId := x, status := .pending, exitCode := none }) } : RunRecord).id = rid := hid
  have happly2 : applyEvent (some ({ r with jobs := done ++ ({ jobId := j, status := .running, exitCode := none } : JobRun) :: rest.map (fun x => { jobId := x, status := .pending, exitCode := none }) } : RunRecord)) (.jobFinished rid j st e) = some { { r with jobs := done ++ ({ jobId := j, status := .running, exitCode := none } : JobRun) :: rest.map (fun x => { jobId := x, status := .pending, exitCode := none }) } with jobs := done ++ ({ jobId := j, status := st, exitCode := some e } : JobRun) :: rest.map (fun x => { jobId := x, status := .pending, exitCode := none }) } := by
    rw [applyEvent_jobFinished _ rid j st e hid1]
    dsimp only
    rw [hupd2]
  refine ⟨_, happly1, hid, rfl, rfl, ?_, ?_⟩
  · exact stepFwd_update _ _ done _ _ _ rfl happly2 rfl hrank (Or.inl rfl)
  · exact ⟨_, happly2, hid, rfl, rfl⟩


theorem loop_chainOk (rid : String) (lp : String → String) (ab : Nat → Bool)
    (ex : Nat → Int) :
    ∀ (remaining : List String) (i : Nat) (e0 : Int) (l0 : String)
      (done : List JobRun) (r : RunRecord),
      recInv rid done remaining r →
      chainOk (some r)
        ((engineLoop rid lp ab ex i e0 l0 false false remaining).events
          ++ [Event.runFinished rid (aggStatus (engineLoop rid lp ab ex i e0 l0 false false remaining))]) := by
  intro remaining
  induction remaining with
  | nil =>
    intro i e0 l0 done r hinv
    obtain ⟨hid, hstat, hjobs, hdone, hnd⟩ := hinv
    have hE : engineLoop rid lp ab ex i e0 l0 false false ([] : List String) = { events := [], exitCode := e0, lastLogs := l0, hasFailure := false, hasCanceled := false } := rfl
    rw [hE]
    have hA : aggStatus { events := ([] : List Event), exitCode := e0, lastLogs := l0, hasFailure := false, hasCanceled := false } = .success := rfl
    rw [hA]
    dsimp only
    simp only [List.nil_append, chainOk]
    refine ⟨stepFwd_runFinished _ rid .success, ?_, trivial⟩
    rw [applyEvent_runFinished r rid .success hid]
    have hmem : ∀ jr ∈ r.jobs, jr.status = .success := by
      intro jr hjr
      rw [hjobs] at hjr
      simp only [List.map_nil, List.append_nil] at hjr
      exact hdone jr hjr
    refine recordOk_final _ ?_ ?_
    · intro jr hjr
      rw [hmem jr hjr]
      simp
    · refine (cascade_success _ ?_ ?_).symm
      · intro x hx; rw [hmem x hx]; simp
      · intro x hx; rw [hmem x hx]; simp
  | cons j rest ih =>
    intro i e0 l0 done r hinv
    obtain ⟨hid, hstat, hjobs, hdone, hnd⟩ := hinv
    have hndpair := List.nodup_append.mp hnd
    have hdisj : ∀ x ∈ j :: rest, x ∉ done.map JobRun.jobId :=
      fun x hx hxd => hndpair.2.2 hxd hx
    have hjd : j ∉ done.map JobRun.jobId := hdisj j (List.mem_cons_self j rest)
    by_cases hab : ab i = true
    · rw [engineLoop_cons_abort rid lp ab ex i e0 l0 false false j rest hab]
      have hA : aggStatus { events := [Event.jobsCanceled rid (j :: rest)], exitCode := (130 : Int), lastLogs := l0, hasFailure := false, hasCanceled := true } = .canceled := rfl
      rw [hA]
      dsimp only
      simp only [List.cons_append, List.nil_append, chainOk]
      have happly := applyEvent_jobsCanceled r rid (j :: rest) done hid hjobs hdisj hndpair.2.1
      refine ⟨stepFwd_jobsCanceled r rid (j :: rest) done hjobs happly, ?_, ?_, ?_, trivial⟩
      · rw [happly]
        exact recordOk_running _ hstat
      · rw [happly]
        exact stepFwd_runFinished _ rid .canceled
      · have hidC : ({ r with jobs := done ++ (j :: rest).map (fun x => ({ jobId := x, status := RunStatus.canceled, exitCode := none } : JobRun)) } : RunRecord).id = rid := hid
        rw [happly, applyEvent_runFinished _ rid .canceled hidC]
        refine recordOk_final _ ?_ ?_
        · intro jr hjr
          rcases mem_mixed done (j :: rest) .canceled none jr hjr with h | h
          · rw [hdone jr h]; simp
          · rw [h]; simp
        · refine (cascade_canceled _ ({ jobId := j, status := .canceled, exitCode := none } : JobRun) ?_ rfl ?_).symm
          · exact List.mem_append_right _ (by rw [List.map_cons]; exact List.mem_cons_self _ _)
          · intro x hx
            rcases mem_mixed done (j :: rest) .canceled none x hx with h | h
            · rw [hdone x h]; simp
            · rw [h]; simp
    · have hab' : ab i = false := by simpa using hab
      by_cases hz : ex i = 0
      · rw [engineLoop_cons_zero rid lp ab ex i e0 l0 false false j rest hab' hz]
        rw [aggStatus_events_update]
        dsimp only
        simp only [List.cons_append, chainOk]
        obtain ⟨sf1, r1, ha1, hid1, hst1, hjobs1, sf2, r2, ha2, hid2, hst2, hjobs2⟩ :=
          jobPair_step r rid j .success 0 done rest hid hjobs hjd (by decide)
        rw [ha1, ha2]
        refine ⟨sf1, ?_, sf2, ?_, ?_⟩
        · exact recordOk_running r1 (hst1.trans hstat)
        · exact recordOk_running r2 (hst2.trans hstat)
        · refine ih (i + 1) 0 (lp j) (done ++ [({ jobId := j, status := .success, exitCode := some 0 } : JobRun)]) r2 ⟨hid2, hst2.trans hstat, ?_, ?_, ?_⟩
          · simp [hjobs2, List.append_assoc, List.singleton_append]
          · intro jr hjr
            rcases List.mem_append.mp hjr with h | h
            · exact hdone jr h
            · rw [List.mem_singleton.mp h]
          · rw [List.map_append, List.append_assoc]
            simpa using hnd
      · rw [engineLoop_cons_stop rid lp ab ex i e0 l0 false false j rest hab' hz]
        rw [aggStatus_stop]
        dsimp only
        obtain ⟨sf1, r1, ha1, hid1, hst1, hjobs1, sf2, r2, ha2, hid2, hst2, hjobs2⟩ :=
          jobPair_step r rid j (statusOfExit (ex i)) (ex i) done rest hid hjobs hjd
            (by rw [(statusOfExit_terminal (ex i)).2]; omega)
        cases rest with
        | nil =>
          have hC : cancelEvents rid ([] : List String) = [] := rfl
          rw [hC]
          simp only [List.append_nil, List.cons_append, List.nil_append, chainOk]
          rw [ha1, ha2]
          refine ⟨sf1, recordOk_running r1 (hst1.trans hstat), sf2, recordOk_running r2 (hst2.trans hstat), ?_, ?_, trivial⟩
          · exact stepFwd_runFinished _ rid _
          · rw [applyEvent_runFinished r2 rid _ hid2]
            have hfinmem : ({ jobId := j, status := statusOfExit (ex i), exitCode := some (ex i) } : JobRun) ∈ r2.jobs := by
              rw [hjobs2]
              exact List.mem_append_right _ (List.mem_cons_self _ _)
            refine recordOk_final _ ?_ ?_
            · intro jr hjr
              have hjr2 : jr ∈ r2.jobs := hjr
              rw [hjobs2] at hjr2
              rcases List.mem_append.mp hjr2 with h | h
              · rw [hdone jr h]; simp
              · simp only [List.map_nil] at h
                rw [List.mem_singleton.mp h]
                exact (isTerminal_ne _ (statusOfExit_terminal (ex i)).1).1
            · by_cases h130 : ex i = 130
              · have hstEq : statusOfExit (ex i) = .canceled := by simp [statusOfExit, h130]
                dsimp only
                rw [if_pos h130]
                refine (cascade_canceled _ ({ jobId := j, status := statusOfExit (ex i), exitCode := some (ex i) } : JobRun) hfinmem hstEq ?_).symm
                intro x hx
                have hx2 : x ∈ r2.jobs := hx
                rw [hjobs2] at hx2
                rcases List.mem_append.mp hx2 with h | h
                · rw [hdone x h]; simp
                · simp only [List.map_nil] at h
                  rw [List.mem_singleton.mp h]
                  simp [hstEq]
              · have hstEq : statusOfExit (ex i) = .failed := by simp [statusOfExit, h130, hz]
                dsimp only
                rw [if_neg h130]
                exact (cascade_failed _ ({ jobId := j, status := statusOfExit (ex i), exitCode := some (ex i) } : JobRun) hfinmem hstEq).symm
        | cons r0 rs =>
          have hC : cancelEvents rid (r0 :: rs) = [.jobsCanceled rid (r0 :: rs)] := rfl
          rw [hC]
          simp only [List.cons_append, List.nil_append, chainOk]
          rw [ha1, ha2]
          have hjobs2a : r2.jobs = (done ++ [({ jobId := j, status := statusOfExit (ex i), exitCode := some (ex i) } : JobRun)]) ++ (r0 :: rs).map (fun x => { jobId := x, status := .pending, exitCode := none }) := by
            rw [hjobs2, List.append_assoc]
            rfl
          have hjrest : j ∉ (r0 :: rs) := (List.nodup_cons.mp hndpair.2.1).1
          have hdisjR : ∀ x ∈ r0 :: rs, x ∉ ((done ++ [({ jobId := j, status := statusOfExit (ex i), exitCode := some (ex i) } : JobRun)]).map JobRun.jobId) := by
            intro x hx hmem
            rw [List.map_append] at hmem
            rcases List.mem_append.mp hmem with h | h
            · exact hdisj x (List.mem_cons_of_mem j hx) h
            · simp only [List.map_cons, List.map_nil, List.mem_singleton] at h
              exact hjrest (h ▸ hx)
          have hndrest : (r0 :: rs).Nodup := (List.nodup_cons.mp hndpair.2.1).2
          have ha3 := applyEvent_jobsCanceled r2 rid (r0 :: rs) (done ++ [({ jobId := j, status := statusOfExit (ex i), exitCode := some (ex i) } : JobRun)]) hid2 hjobs2a hdisjR hndrest
          refine ⟨sf1, recordOk_running r1 (hst1.trans hstat), sf2, recordOk_running r2 (hst2.trans hstat), ?_, ?_, ?_, ?_, trivial⟩
          · exact stepFwd_jobsCanceled r2 rid (r0 :: rs) _ hjobs2a ha3
          · rw [ha3]
            exact recordOk_running _ (hst2.trans hstat)
          · rw [ha3]
            exact stepFwd_runFinished _ rid _
          · have hidR3 : ({ r2 with jobs := (done ++ [({ jobId := j, status := statusOfExit (ex i), exitCode := some (ex i) } : JobRun)]) ++ (r0 :: rs).map (fun x => ({ jobId := x, status := RunStatus.canceled, exitCode := none } : JobRun)) } : RunRecord).id = rid := hid2
            rw [ha3, applyEvent_runFinished _ rid _ hidR3]
            have hfinmem3 : ({ jobId := j, status := statusOfExit (ex i), exitCode := some (ex i) } : JobRun) ∈ (done ++ [({ jobId := j, status := statusOfExit (ex i), exitCode := some (ex i) } : JobRun)]) ++ (r0 :: rs).map (fun x => ({ jobId := x, status := RunStatus.canceled, exitCode := none } : JobRun)) := List.mem_append_left _ (List.mem_append_right _ (List.mem_singleton.mpr rfl))
            refine recordOk_final _ ?_ ?_
            · intro jr hjr
              rcases mem_mixed _ (r0 :: rs) .canceled none jr hjr with h | h
              · rcases List.mem_append.mp h with h2 | h2
                · rw [hdone jr h2]; simp
                · rw [List.mem_singleton.mp h2]
                  exact (isTerminal_ne _ (statusOfExit_terminal (ex i)).1).1
              · rw [h]; simp
            · by_cases h130 : ex i = 130
              · have hstEq : statusOfExit (ex i) = .canceled := by simp [statusOfExit, h130]
                dsimp only
                rw [if_pos h130]
                refine (cascade_canceled _ ({ jobId := j, status := statusOfExit (ex i), exitCode := some (ex i) } : JobRun) hfinmem3 hstEq ?_).symm
                intro x hx
                rcases mem_mixed _ (r0 :: rs) .canceled none x hx with h | h
                · rcases List.mem_append.mp h with h2 | h2
                  · rw [hdone x h2]; simp
                  · rw [List.mem_singleton.mp h2]
                    simp [hstEq]
                · rw [h]; simp
              · have hstEq : statusOfExit (ex i) = .failed := by simp [statusOfExit, h130, hz]
                dsimp only
                rw [if_neg h130]
                exact (cascade_failed _ ({ jobId := j, status := statusOfExit (ex i), exitCode := some (ex i) } : JobRun) hfinmem3 hstEq).symm


theorem applyAll_append (s : Option RunRecord) (l1 l2 : List Event) :
    applyAll s (l1 ++ l2) = applyAll (applyAll s l1) l2 := by
  simp [applyAll, List.foldl_append]

theorem chainOk_split (evs : List Event) :
    ∀ (s : Option RunRecord), chainOk s evs →
      ∀ p e q, evs = p ++ e :: q →
        stepFwd (applyAll s p) e ∧ recordOk (applyEvent (applyAll s p) e) := by
  induction evs with
  | nil =>
    intro s _ p e q hpq
    exact absurd hpq (by simp)
  | cons x xs ih =>
    intro s h p e q hpq
    cases p with
    | nil =>
      simp only [List.nil_append] at hpq
      injection hpq with h1 h2
      subst h1
      exact ⟨h.1, h.2.1⟩
    | cons y ys =>
      simp only [List.cons_append] at hpq
      injection hpq with h1 h2
      subst h1
      exact ih (applyEvent s x) h.2.2 ys e q h2

theorem engine_chainOk (rid : String) (lp : String → String) (ab : Nat → Bool)
    (ex : Nat → Int) (jobs : List String) (hnd : jobs.Nodup) :
    chainOk none (engineRun rid lp ab ex jobs).events := by
  by_cases hemp : jobs.isEmpty = true
  · simp only [engineRun, if_pos hemp]
    exact trivial
  · simp only [engineRun, if_neg hemp]
    simp only [chainOk]
    refine ⟨?_, ?_, ?_⟩
    · intro jid st h
      simp [jobStatusIn] at h
    · exact recordOk_running _ rfl
    · exact loop_chainOk rid lp ab ex jobs 0 0 "" [] _
        ⟨rfl, rfl, rfl, fun jr h => absurd h (List.not_mem_nil jr), hnd⟩

/-- C4 (amended): for a plan with distinct job ids, in every state the run
event persister reaches while consuming a prefix of the engine's event
stream, a running job forces `RunRecord.status = running`, and whenever the
record's status is not `running` it equals the cascade: `failed` if any job
failed, else `canceled` if any job was canceled, else `success`.  (The
claimed converse of the first part — status `running` only if some job is
running — is refuted separately: between jobs every job can be `pending`
or terminal while the record still says `running`.) -/
theorem runRecord_status_amended (rid : String) (lp : String → String)
    (ab : Nat → Bool) (ex : Nat → Int) (jobs : List String) (hnd : jobs.Nodup)
    (p q : List Event) (hsplit : (engineRun rid lp ab ex jobs).events = p ++ q)
    (rec : RunRecord) (hrec : persistAll p = some rec) :
    (anyRunning rec = true → rec.status = .running) ∧
    (rec.status ≠ .running → rec.status = cascade rec) := by
  have hch := engine_chainOk rid lp ab ex jobs hnd
  rcases List.eq_nil_or_concat p with hp | ⟨p', e, hp⟩
  · subst hp
    exact absurd hrec (by simp [persistAll])
  · rw [List.concat_eq_append] at hp
    subst hp
    have hsplit' : (engineRun rid lp ab ex jobs).events = p' ++ e :: q := by
      rw [hsplit, List.append_assoc, List.singleton_append]
    have h := chainOk_split _ none hch p' e q hsplit'
    have hpa : persistAll (p' ++ [e]) = applyEvent (applyAll none p') e := by
      rw [show persistAll (p' ++ [e]) = applyAll none (p' ++ [e]) from rfl, applyAll_append]
      rfl
    rw [hpa] at hrec
    exact h.2 rec hrec

theorem runRecord_status_amended_witness :
    (["a"] : List String).Nodup ∧
    ((anyRunning { id := "r", status := .running, jobs := [{ jobId := "a", status := .running, exitCode := none }] } = true → ({ id := "r", status := .running, jobs := [{ jobId := "a", status := .running, exitCode := none }] } : RunRecord).status = .running) ∧
     (({ id := "r", status := .running, jobs := [{ jobId := "a", status := .running, exitCode := none }] } : RunRecord).status ≠ .running → ({ id := "r", status := .running, jobs := [{ jobId := "a", status := .running, exitCode := none }] } : RunRecord).status = cascade { id := "r", status := .running, jobs := [{ jobId := "a", status := .running, exitCode := none }] })) :=
  ⟨by decide,
   runRecord_status_amended "r" (fun _ => "") (fun _ => false) (fun _ => 0) ["a"]
     (by decide)
     [Event.runStarted "r" ["a"], Event.jobStarted "r" "a"]
     [Event.jobFinished "r" "a" .success 0, Event.runFinished "r" .success]
     (by decide)
     { id := "r", status := .running, jobs := [{ jobId := "a", status := .running, exitCode := none }] }
     (by decide)⟩

/-- C5 (amended): for a plan with distinct job ids, along the engine's event
stream each persisted job status only moves forward through
`pending → running → terminal`: consuming one more event keeps the entry
present, never decreases its rank, and never changes a terminal status.
(With a duplicate job id in the plan the property fails — refuted
separately.) -/
theorem jobRun_forward_amended (rid : String) (lp : String → String)
    (ab : Nat → Bool) (ex : Nat → Int) (jobs : List String) (hnd : jobs.Nodup)
    (p : List Event) (e : Event) (q : List Event)
    (hsplit : (engineRun rid lp ab ex jobs).events = p ++ e :: q)
    (jid : String) (st : RunStatus)
    (h : jobStatusIn (persistAll p) jid = some st) :
    ∃ st', jobStatusIn (persistAll (p ++ [e])) jid = some st' ∧
      statusRank st ≤ statusRank st' ∧ (isTerminal st = true → st' = st) := by
  have hch := engine_chainOk rid lp ab ex jobs hnd
  have hsf := (chainOk_split _ none hch p e q hsplit).1
  have hpa : persistAll (p ++ [e]) = applyEvent (applyAll none p) e := by
    rw [show persistAll (p ++ [e]) = applyAll none (p ++ [e]) from rfl, applyAll_append]
    rfl
  rw [hpa]
  exact hsf jid st h

theorem jobRun_forward_amended_witness :
    (["a"] : List String).Nodup ∧
    jobStatusIn (persistAll [Event.runStarted "r" ["a"]]) "a" = some .pending ∧
    (∃ st', jobStatusIn (persistAll ([Event.runStarted "r" ["a"]] ++ [Event.jobStarted "r" "a"])) "a" = some st' ∧ statusRank .pending ≤ statusRank st' ∧ (isTerminal .pending = true → st' = .pending)) :=
  ⟨by decide, by decide,
   jobRun_forward_amended "r" (fun _ => "") (fun _ => false) (fun _ => 0) ["a"]
     (by decide)
     [Event.runStarted "r" ["a"]]
     (Event.jobStarted "r" "a")
     [Event.jobFinished "r" "a" .success 0, Event.runFinished "r" .success]
     (by decide)
     "a" .pending (by decide)⟩


theorem alGet_of_mem_nodup {α : Type} {m : AList α} {k : String} {v : α}
    (hnd : (alKeys m).Nodup) (h : (k, v) ∈ m) : alGet m k = some v := by
  induction m with
  | nil => cases h
  | cons p rest ih =>
    simp only [alKeys, List.map_cons, List.nodup_cons] at hnd
    rcases List.mem_cons.mp h with h | h
    · rw [← h]
      simp [alGet]
    · have hk : ¬ p.1 = k := by
        intro he
        exact hnd.1 (he ▸ List.mem_map.mpr ⟨(k, v), h, rfl⟩)
      simp only [alGet, if_neg hk]
      exact ih hnd.2 h

theorem alSet_append_of_none {α : Type} {m : AList α} {k : String} (v : α)
    (h : alGet m k = none) : alSet m k v = m ++ [(k, v)] := by
  induction m with
  | nil => rfl
  | cons p rest ih =>
    simp only [alGet] at h
    by_cases hk : p.1 = k
    · rw [if_pos hk] at h
      exact absurd h (by simp)
    · rw [if_neg hk] at h
      simp only [alSet, if_neg hk, List.cons_append, ih h]

theorem initMaps_go (l : List String) :
    ∀ (m1 : AList Int) (m2 : AList (List String)),
      (∀ j ∈ l, alGet m1 j = none) → (∀ j ∈ l, alGet m2 j = none) → l.Nodup →
      l.foldl (fun st j => (alSet st.1 j 0, alSet st.2 j [])) (m1, m2)
        = (m1 ++ l.map (fun j => (j, (0 : Int))), m2 ++ l.map (fun j => (j, ([] : List String)))) := by
  induction l with
  | nil =>
    intro m1 m2 _ _ _
    simp
  | cons j l ih =>
    intro m1 m2 h1 h2 hnd
    simp only [List.foldl_cons, List.map_cons]
    rw [ih (alSet m1 j 0) (alSet m2 j []) ?_ ?_ (List.nodup_cons.mp hnd).2]
    · rw [alSet_append_of_none 0 (h1 j (List.mem_cons_self j l)),
          alSet_append_of_none [] (h2 j (List.mem_cons_self j l)),
          List.append_assoc, List.append_assoc]
      rfl
    · intro x hx
      have hxj : x ≠ j := fun he => (List.nodup_cons.mp hnd).1 (he ▸ hx)
      rw [alGet_alSet_ne _ _ hxj]
      exact h1 x (List.mem_cons_of_mem j hx)
    · intro x hx
      have hxj : x ≠ j := fun he => (List.nodup_cons.mp hnd).1 (he ▸ hx)
      rw [alGet_alSet_ne _ _ hxj]
      exact h2 x (List.mem_cons_of_mem j hx)

theorem initMaps_eq (jobIds : List String) (hnd : jobIds.Nodup) :
    initMaps jobIds
      = (jobIds.map (fun j => (j, (0 : Int))), jobIds.map (fun j => (j, ([] : List String)))) := by
  unfold initMaps
  rw [initMaps_go jobIds [] [] (fun _ _ => rfl) (fun _ _ => rfl) hnd]
  rfl

theorem alKeys_pairs {α : Type} (l : List String) (f : String → α) :
    alKeys (l.map (fun j => (j, f j))) = l := by
  induction l with
  | nil => rfl
  | cons j l ih =>
    simp only [List.map_cons, alKeys] at ih ⊢
    exact congrArg (List.cons j) ih

theorem mem_setAdd {s : List String} {x y : String} (h : x ∈ setAdd s y) :
    x ∈ s ∨ x = y := by
  unfold setAdd at h
  by_cases hy : y ∈ s
  · rw [if_pos hy] at h
    exact Or.inl h
  · rw [if_neg hy] at h
    rcases List.mem_append.mp h with h | h
    · exact Or.inl h
    · exact Or.inr (List.mem_singleton.mp h)

theorem queue_nodup {m : AList Int} (hnd : (alKeys m).Nodup) :
    ((m.filter (fun p => p.2 = 0)).map Prod.fst).Nodup :=
  hnd.sublist (List.Sublist.map Prod.fst (List.filter_sublist m))

theorem queue_sub {m : AList Int} {k : String}
    (h : k ∈ (m.filter (fun p => p.2 = 0)).map Prod.fst) : k ∈ alKeys m := by
  rcases List.mem_map.mp h with ⟨p, hp, hpk⟩
  exact List.mem_map.mpr ⟨p, List.mem_of_mem_filter hp, hpk⟩

theorem queue_mem_iff {m : AList Int} (hnd : (alKeys m).Nodup) (k : String) :
    k ∈ (m.filter (fun p => p.2 = 0)).map Prod.fst ↔ alGet m k = some 0 := by
  constructor
  · intro h
    rcases List.mem_map.mp h with ⟨p, hp, hpk⟩
    have hm := List.mem_of_mem_filter hp
    have hz := List.of_mem_filter hp
    simp only [decide_eq_true_eq] at hz
    have hkp : (k, p.2) ∈ m := by
      rw [← hpk]
      simpa using hm
    rw [alGet_of_mem_nodup hnd hkp, hz]
  · intro h
    have hm := alGet_some_mem h
    exact List.mem_map.mpr ⟨(k, 0), List.mem_filter.mpr ⟨hm, by simp⟩, rfl⟩


theorem relax_inv (S : List String) (ordered : List String) :
    ∀ (ns : List String) (inDeg : AList Int) (queue : List String),
      (ordered ++ queue).Nodup →
      (∀ k ∈ ordered ++ queue, k ∈ S) →
      (∀ k d, alGet inDeg k = some d → k ∈ ordered ++ queue → d ≤ 0) →
      (∀ k, k ∈ S → (alGet inDeg k).isSome = true) →
      (∀ n ∈ ns, n ∈ S) →
      (ordered ++ (relax inDeg queue ns).2).Nodup ∧
      (∀ k ∈ ordered ++ (relax inDeg queue ns).2, k ∈ S) ∧
      (∀ k d, alGet (relax inDeg queue ns).1 k = some d →
        k ∈ ordered ++ (relax inDeg queue ns).2 → d ≤ 0) ∧
      (∀ k, k ∈ S → (alGet (relax inDeg queue ns).1 k).isSome = true) := by
  intro ns
  induction ns with
  | nil =>
    intro inDeg queue h1 h2 h3 h4 _
    exact ⟨h1, h2, h3, h4⟩
  | cons n ns ih =>
    intro inDeg queue h1 h2 h3 h4 hns
    have hnS : n ∈ S := hns n (List.mem_cons_self n ns)
    obtain ⟨d0, hd0⟩ := Option.isSome_iff_exists.mp (h4 n hnS)
    rw [show relax inDeg queue (n :: ns) = relax (alSet inDeg n ((alGet inDeg n).getD 0 - 1)) (if (alGet inDeg n).getD 0 - 1 = 0 then queue ++ [n] else queue) ns from rfl]
    rw [hd0]
    simp only [Option.getD_some]
    by_cases hz : d0 - 1 = 0
    · rw [if_pos hz]
      have hnmem : n ∉ ordered ++ queue := by
        intro hmem
        have := h3 n d0 hd0 hmem
        omega
      refine ih (alSet inDeg n (d0 - 1)) (queue ++ [n]) ?_ ?_ ?_ ?_
        (fun m hm => hns m (List.mem_cons_of_mem n hm))
      · rw [← List.append_assoc]
        refine List.nodup_append.mpr ⟨h1, List.nodup_singleton n, ?_⟩
        intro a ha hb
        rw [List.mem_singleton] at hb
        subst hb
        exact hnmem ha
      · intro k hk
        rw [← List.append_assoc] at hk
        rcases List.mem_append.mp hk with h | h
        · exact h2 k h
        · rw [List.mem_singleton] at h
          subst h
          exact hnS
      · intro k d hkd hkm
        by_cases hkn : k = n
        · subst hkn
          rw [alGet_alSet_self] at hkd
          injection hkd with hkd
          omega
        · rw [alGet_alSet_ne _ _ hkn] at hkd
          apply h3 k d hkd
          rw [← List.append_assoc] at hkm
          rcases List.mem_append.mp hkm with h | h
          · exact h
          · rw [List.mem_singleton] at h
            exact absurd h hkn
      · intro k hkS
        by_cases hkn : k = n
        · subst hkn
          rw [alGet_alSet_self]
          rfl
        · rw [alGet_alSet_ne _ _ hkn]
          exact h4 k hkS
    · rw [if_neg hz]
      refine ih (alSet inDeg n (d0 - 1)) queue h1 h2 ?_ ?_
        (fun m hm => hns m (List.mem_cons_of_mem n hm))
      · intro k d hkd hkm
        by_cases hkn : k = n
        · subst hkn
          rw [alGet_alSet_self] at hkd
          injection hkd with hkd
          have := h3 k d0 hd0 hkm
          omega
        · rw [alGet_alSet_ne _ _ hkn] at hkd
          exact h3 k d hkd hkm
      · intro k hkS
        by_cases hkn : k = n
        · subst hkn
          rw [alGet_alSet_self]
          rfl
        · rw [alGet_alSet_ne _ _ hkn]
          exact h4 k hkS

theorem kahn_inv (edges : AList (List String)) (S : List String)
    (hedges : ∀ j n, n ∈ (alGet edges j).getD [] → n ∈ S) :
    ∀ (fuel : Nat) (inDeg : AList Int) (queue ordered : List String),
      (ordered ++ queue).Nodup →
      (∀ k ∈ ordered ++ queue, k ∈ S) →
      (∀ k d, alGet inDeg k = some d → k ∈ ordered ++ queue → d ≤ 0) →
      (∀ k, k ∈ S → (alGet inDeg k).isSome = true) →
      ((kahnLoopAux edges fuel inDeg queue ordered).1.Nodup ∧
       ∀ k ∈ (kahnLoopAux edges fuel inDeg queue ordered).1, k ∈ S) := by
  intro fuel
  induction fuel with
  | zero =>
    intro inDeg queue ordered h1 h2 h3 h4
    cases queue with
    | nil =>
      refine ⟨?_, ?_⟩
      · simpa using h1
      · intro k hk
        exact h2 k (List.mem_append_left _ hk)
    | cons j rest =>
      exact ⟨h1, h2⟩
  | succ fuel ih =>
    intro inDeg queue ordered h1 h2 h3 h4
    cases queue with
    | nil =>
      refine ⟨?_, ?_⟩
      · simpa using h1
      · intro k hk
        exact h2 k (List.mem_append_left _ hk)
    | cons j rest =>
      by_cases hj : j = ""
      · have hstep : kahnLoopAux edges (fuel + 1) inDeg (j :: rest) ordered = kahnLoopAux edges fuel inDeg rest ordered := by
          show (if j = "" then kahnLoopAux edges fuel inDeg rest ordered else kahnLoopAux edges fuel (relax inDeg rest ((alGet edges j).getD [])).1 (relax inDeg rest ((alGet edges j).getD [])).2 (ordered ++ [j])) = _
          rw [if_pos hj]
        rw [hstep]
        refine ih inDeg rest ordered ?_ ?_ ?_ h4
        · exact h1.sublist (List.Sublist.append_left (List.sublist_cons_self j rest) ordered)
        · intro k hk
          rcases List.mem_append.mp hk with h | h
          · exact h2 k (List.mem_append_left _ h)
          · exact h2 k (List.mem_append_right _ (List.mem_cons_of_mem j h))
        · intro k d hkd hkm
          apply h3 k d hkd
          rcases List.mem_append.mp hkm with h | h
          · exact List.mem_append_left _ h
          · exact List.mem_append_right _ (List.mem_cons_of_mem j h)
      · have hstep : kahnLoopAux edges (fuel + 1) inDeg (j :: rest) ordered = kahnLoopAux edges fuel (relax inDeg rest ((alGet edges j).getD [])).1 (relax inDeg rest ((alGet edges j).getD [])).2 (ordered ++ [j]) := by
          show (if j = "" then kahnLoopAux edges fuel inDeg rest ordered else kahnLoopAux edges fuel (relax inDeg rest ((alGet edges j).getD [])).1 (relax inDeg rest ((alGet edges j).getD [])).2 (ordered ++ [j])) = _
          rw [if_neg hj]
        rw [hstep]
        have hmv : ∀ k, k ∈ (ordered ++ [j]) ++ rest ↔ k ∈ ordered ++ j :: rest := by
          intro k
          rw [List.append_assoc, List.singleton_append]
        have s1 : ((ordered ++ [j]) ++ rest).Nodup := by
          rw [List.append_assoc, List.singleton_append]
          exact h1
        have s2 : ∀ k ∈ (ordered ++ [j]) ++ rest, k ∈ S := fun k hk => h2 k ((hmv k).mp hk)
        have s3 : ∀ k d, alGet inDeg k = some d → k ∈ (ordered ++ [j]) ++ rest → d ≤ 0 := by
          intro k d hkd hkm
          exact h3 k d hkd ((hmv k).mp hkm)
        obtain ⟨g1, g2, g3, g4⟩ := relax_inv S (ordered ++ [j]) ((alGet edges j).getD []) inDeg rest s1 s2 s3 h4 (hedges j)
        exact ih _ _ _ g1 g2 g3 g4


theorem needsFold_inv (KS : List String) (jobId : String) (hj : jobId ∈ KS) :
    ∀ (needs : List String) (st : AList Int × AList (List String)),
      alKeys st.1 = KS → alKeys st.2 = KS →
      (∀ k d, alGet st.1 k = some d → 0 ≤ d) →
      (∀ k s, alGet st.2 k = some s → ∀ n ∈ s, n ∈ KS) →
      alKeys (needs.foldl (fun (st : AList Int × AList (List String)) need => if (alGet st.1 need).isSome then (alSet st.1 jobId ((alGet st.1 jobId).getD 0 + 1), match alGet st.2 need with | some s => alSet st.2 need (setAdd s jobId) | none => st.2) else st) st).1 = KS ∧
      alKeys (needs.foldl (fun (st : AList Int × AList (List String)) need => if (alGet st.1 need).isSome then (alSet st.1 jobId ((alGet st.1 jobId).getD 0 + 1), match alGet st.2 need with | some s => alSet st.2 need (setAdd s jobId) | none => st.2) else st) st).2 = KS ∧
      (∀ k d, alGet (needs.foldl (fun (st : AList Int × AList (List String)) need => if (alGet st.1 need).isSome then (alSet st.1 jobId ((alGet st.1 jobId).getD 0 + 1), match alGet st.2 need with | some s => alSet st.2 need (setAdd s jobId) | none => st.2) else st) st).1 k = some d → 0 ≤ d) ∧
      (∀ k s, alGet (needs.foldl (fun (st : AList Int × AList (List String)) need => if (alGet st.1 need).isSome then (alSet st.1 jobId ((alGet st.1 jobId).getD 0 + 1), match alGet st.2 need with | some s => alSet st.2 need (setAdd s jobId) | none => st.2) else st) st).2 k = some s → ∀ n ∈ s, n ∈ KS) := by
  intro needs
  induction needs with
  | nil =>
    intro st h1 h2 h3 h4
    exact ⟨h1, h2, h3, h4⟩
  | cons need needs ih =>
    intro st h1 h2 h3 h4
    simp only [List.foldl_cons]
    by_cases hsome : (alGet st.1 need).isSome = true
    · rw [if_pos hsome]
      have hk1a : alKeys (alSet st.1 jobId ((alGet st.1 jobId).getD 0 + 1)) = KS := by
        have hjk : jobId ∈ alKeys st.1 := by
          rw [h1]
          exact hj
        rw [alKeys_alSet, if_pos hjk]
        exact h1
      have h3a : ∀ k d, alGet (alSet st.1 jobId ((alGet st.1 jobId).getD 0 + 1)) k = some d → 0 ≤ d := by
        intro k d hkd
        by_cases hkj : k = jobId
        · rw [hkj, alGet_alSet_self] at hkd
          injection hkd with hkd
          have hv : 0 ≤ (alGet st.1 jobId).getD 0 := by
            cases hgj : alGet st.1 jobId with
            | none => simp
            | some d0 => simpa using h3 jobId d0 hgj
          omega
        · rw [alGet_alSet_ne _ _ hkj] at hkd
          exact h3 k d hkd
      cases hg2 : alGet st.2 need with
      | some s2 =>
        refine ih _ hk1a ?_ h3a ?_
        · have hnk : need ∈ alKeys st.2 := by
            by_contra hc
            rw [alGet_eq_none.mpr hc] at hg2
            exact absurd hg2 (by simp)
          rw [alKeys_alSet, if_pos hnk]
          exact h2
        · intro k s hks
          by_cases hkn : k = need
          · rw [hkn, alGet_alSet_self] at hks
            injection hks with hks
            intro n hn
            rw [← hks] at hn
            rcases mem_setAdd hn with h | h
            · exact h4 need s2 hg2 n h
            · rw [h]
              exact hj
          · rw [alGet_alSet_ne _ _ hkn] at hks
            exact h4 k s hks
      | none =>
        exact ih _ hk1a h2 h3a h4
    · rw [if_neg hsome]
      exact ih st h1 h2 h3 h4

theorem addEdgesForJob_inv (wf : Workflow) (KS : List String) (j : String) (hjK : j ∈ KS)
    (st : AList Int × AList (List String))
    (h1 : alKeys st.1 = KS) (h2 : alKeys st.2 = KS)
    (h3 : ∀ k d, alGet st.1 k = some d → 0 ≤ d)
    (h4 : ∀ k s, alGet st.2 k = some s → ∀ n ∈ s, n ∈ KS) :
    alKeys (addEdgesForJob wf st j).1 = KS ∧
    alKeys (addEdgesForJob wf st j).2 = KS ∧
    (∀ k d, alGet (addEdgesForJob wf st j).1 k = some d → 0 ≤ d) ∧
    (∀ k s, alGet (addEdgesForJob wf st j).2 k = some s → ∀ n ∈ s, n ∈ KS) := by
  unfold addEdgesForJob
  cases hjm : jobMapGet wf j with
  | none => exact ⟨h1, h2, h3, h4⟩
  | some job => exact needsFold_inv KS j hjK job.needs st h1 h2 h3 h4

theorem addEdges_inv (wf : Workflow) (KS : List String) :
    ∀ (l : List String) (st : AList Int × AList (List String)),
      (∀ j ∈ l, j ∈ KS) →
      alKeys st.1 = KS → alKeys st.2 = KS →
      (∀ k d, alGet st.1 k = some d → 0 ≤ d) →
      (∀ k s, alGet st.2 k = some s → ∀ n ∈ s, n ∈ KS) →
      alKeys (l.foldl (addEdgesForJob wf) st).1 = KS ∧
      alKeys (l.foldl (addEdgesForJob wf) st).2 = KS ∧
      (∀ k d, alGet (l.foldl (addEdgesForJob wf) st).1 k = some d → 0 ≤ d) ∧
      (∀ k s, alGet (l.foldl (addEdgesForJob wf) st).2 k = some s → ∀ n ∈ s, n ∈ KS) := by
  intro l
  induction l with
  | nil =>
    intro st _ h1 h2 h3 h4
    exact ⟨h1, h2, h3, h4⟩
  | cons j l ih =>
    intro st hl h1 h2 h3 h4
    simp only [List.foldl_cons]
    obtain ⟨g1, g2, g3, g4⟩ :=
      addEdgesForJob_inv wf KS j (hl j (List.mem_cons_self j l)) st h1 h2 h3 h4
    exact ih (addEdgesForJob wf st j) (fun x hx => hl x (List.mem_cons_of_mem j hx)) g1 g2 g3 g4


theorem sortJobs_pass_inv (wf : Workflow) (jobIds : List String) (hnd : jobIds.Nodup) :
    alKeys (jobIds.foldl (addEdgesForJob wf) (initMaps jobIds)).1 = jobIds ∧
    alKeys (jobIds.foldl (addEdgesForJob wf) (initMaps jobIds)).2 = jobIds ∧
    (∀ k d, alGet (jobIds.foldl (addEdgesForJob wf) (initMaps jobIds)).1 k = some d → 0 ≤ d) ∧
    (∀ k s, alGet (jobIds.foldl (addEdgesForJob wf) (initMaps jobIds)).2 k = some s → ∀ n ∈ s, n ∈ jobIds) := by
  have h0 := initMaps_eq jobIds hnd
  refine addEdges_inv wf jobIds jobIds (initMaps jobIds) (fun _ h => h) ?_ ?_ ?_ ?_
  · rw [h0]
    exact alKeys_pairs jobIds (fun _ => (0 : Int))
  · rw [h0]
    exact alKeys_pairs jobIds (fun _ => ([] : List String))
  · intro k d hkd
    rw [h0] at hkd
    rcases List.mem_map.mp (alGet_some_mem hkd) with ⟨j, _, hpair⟩
    injection hpair with h1 h2
    omega
  · intro k s hks n hn
    rw [h0] at hks
    rcases List.mem_map.mp (alGet_some_mem hks) with ⟨j, _, hpair⟩
    injection hpair with h1 h2
    rw [← h2] at hn
    cases hn

theorem kahn_result_inv (wf : Workflow) (jobIds : List String) (hnd : jobIds.Nodup)
    (fuel : Nat) :
    (kahnLoopAux (jobIds.foldl (addEdgesForJob wf) (initMaps jobIds)).2 fuel (jobIds.foldl (addEdgesForJob wf) (initMaps jobIds)).1 (((jobIds.foldl (addEdgesForJob wf) (initMaps jobIds)).1.filter (fun p => p.2 = 0)).map Prod.fst) []).1.Nodup ∧
    ∀ k ∈ (kahnLoopAux (jobIds.foldl (addEdgesForJob wf) (initMaps jobIds)).2 fuel (jobIds.foldl (addEdgesForJob wf) (initMaps jobIds)).1 (((jobIds.foldl (addEdgesForJob wf) (initMaps jobIds)).1.filter (fun p => p.2 = 0)).map Prod.fst) []).1, k ∈ jobIds := by
  obtain ⟨g1, g2, g3, g4⟩ := sortJobs_pass_inv wf jobIds hnd
  have hknd : (alKeys (jobIds.foldl (addEdgesForJob wf) (initMaps jobIds)).1).Nodup := by
    rw [g1]
    exact hnd
  refine kahn_inv _ jobIds ?_ fuel _ _ [] ?_ ?_ ?_ ?_
  · intro j n hn
    cases hg : alGet (jobIds.foldl (addEdgesForJob wf) (initMaps jobIds)).2 j with
    | none =>
      rw [hg] at hn
      simp at hn
    | some s =>
      rw [hg] at hn
      simp only [Option.getD_some] at hn
      exact g4 j s hg n hn
  · simp only [List.nil_append]
    exact queue_nodup hknd
  · intro k hk
    simp only [List.nil_append] at hk
    rw [← g1]
    exact queue_sub hk
  · intro k d hkd hmem
    simp only [List.nil_append] at hmem
    have h0 := (queue_mem_iff hknd k).mp hmem
    rw [hkd] at h0
    injection h0 with h0
    omega
  · intro k hkS
    rw [Option.isSome_iff_ne_none]
    intro hc
    exact (alGet_eq_none.mp hc) (by rw [g1]; exact hkS)


/-- C2 (amended): for every workflow and every duplicate-free input list of
job ids — including ones whose induced subgraph contains a cycle —
`sortJobsByNeeds` terminates and returns every requested id exactly once and
nothing else; the result is the queue-driven `ordered` list followed by the
jobs whose in-degree never reached zero, appended in their original input
order (`jobIds.filter (· ∉ ordered)`); in particular for `a needs b,
b needs a, c independent`, requesting `[a,b,c]` yields `[c,a,b]`.  With a
duplicate id in the input the "exactly once" part fails (refuted
separately), so the duplicate-free hypothesis is necessary. -/
theorem sortJobs_total_amended (wf : Workflow) (jobIds : List String)
    (hnd : jobIds.Nodup) :
    (∀ j ∈ jobIds, (sortJobsByNeeds wf jobIds).count j = 1) ∧
    (∀ j, j ∉ jobIds → (sortJobsByNeeds wf jobIds).count j = 0) ∧
    (∃ ordered, sortJobsByNeeds wf jobIds = ordered ++ jobIds.filter (fun j => ¬ ordered.contains j)) ∧
    sortJobsByNeeds { jobs := [{ id := "a", needs := ["b"] }, { id := "b", needs := ["a"] }, { id := "c", needs := [] }] } ["a", "b", "c"] = ["c", "a", "b"] := by
  obtain ⟨hond, hosub⟩ := kahn_result_inv wf jobIds hnd
    (((((jobIds.foldl (addEdgesForJob wf) (initMaps jobIds)).1.filter (fun p => p.2 = 0)).map Prod.fst).length + 2 * posCount (jobIds.foldl (addEdgesForJob wf) (initMaps jobIds)).1 + 1))
  have heq : sortJobsByNeeds wf jobIds
      = (kahnLoopAux (jobIds.foldl (addEdgesForJob wf) (initMaps jobIds)).2 (((((jobIds.foldl (addEdgesForJob wf) (initMaps jobIds)).1.filter (fun p => p.2 = 0)).map Prod.fst).length + 2 * posCount (jobIds.foldl (addEdgesForJob wf) (initMaps jobIds)).1 + 1)) (jobIds.foldl (addEdgesForJob wf) (initMaps jobIds)).1 (((jobIds.foldl (addEdgesForJob wf) (initMaps jobIds)).1.filter (fun p => p.2 = 0)).map Prod.fst) []).1
        ++ jobIds.filter (fun j => ¬ ((kahnLoopAux (jobIds.foldl (addEdgesForJob wf) (initMaps jobIds)).2 (((((jobIds.foldl (addEdgesForJob wf) (initMaps jobIds)).1.filter (fun p => p.2 = 0)).map Prod.fst).length + 2 * posCount (jobIds.foldl (addEdgesForJob wf) (initMaps jobIds)).1 + 1)) (jobIds.foldl (addEdgesForJob wf) (initMaps jobIds)).1 (((jobIds.foldl (addEdgesForJob wf) (initMaps jobIds)).1.filter (fun p => p.2 = 0)).map Prod.fst) []).1).contains j) := rfl
  refine ⟨?_, ?_, ⟨_, heq⟩, by decide⟩
  · intro j hj
    rw [heq, List.count_append]
    by_cases hjo : j ∈ (kahnLoopAux (jobIds.foldl (addEdgesForJob wf) (initMaps jobIds)).2 (((((jobIds.foldl (addEdgesForJob wf) (initMaps jobIds)).1.filter (fun p => p.2 = 0)).map Prod.fst).length + 2 * posCount (jobIds.foldl (addEdgesForJob wf) (initMaps jobIds)).1 + 1)) (jobIds.foldl (addEdgesForJob wf) (initMaps jobIds)).1 (((jobIds.foldl (addEdgesForJob wf) (initMaps jobIds)).1.filter (fun p => p.2 = 0)).map Prod.fst) []).1
    · rw [List.count_eq_one_of_mem hond hjo]
      have hnot : j ∉ jobIds.filter (fun x => ¬ ((kahnLoopAux (jobIds.foldl (addEdgesForJob wf) (initMaps jobIds)).2 (((((jobIds.foldl (addEdgesForJob wf) (initMaps jobIds)).1.filter (fun p => p.2 = 0)).map Prod.fst).length + 2 * posCount (jobIds.foldl (addEdgesForJob wf) (initMaps jobIds)).1 + 1)) (jobIds.foldl (addEdgesForJob wf) (initMaps jobIds)).1 (((jobIds.foldl (addEdgesForJob wf) (initMaps jobIds)).1.filter (fun p => p.2 = 0)).map Prod.fst) []).1).contains x) := by
        intro hmem
        have hp := List.of_mem_filter hmem
        simp only [decide_eq_true_eq] at hp
        exact hp (List.elem_iff.mpr hjo)
      rw [List.count_eq_zero_of_not_mem hnot]
    · rw [List.count_eq_zero_of_not_mem hjo]
      have hmemf : j ∈ jobIds.filter (fun x => ¬ ((kahnLoopAux (jobIds.foldl (addEdgesForJob wf) (initMaps jobIds)).2 (((((jobIds.foldl (addEdgesForJob wf) (initMaps jobIds)).1.filter (fun p => p.2 = 0)).map Prod.fst).length + 2 * posCount (jobIds.foldl (addEdgesForJob wf) (initMaps jobIds)).1 + 1)) (jobIds.foldl (addEdgesForJob wf) (initMaps jobIds)).1 (((jobIds.foldl (addEdgesForJob wf) (initMaps jobIds)).1.filter (fun p => p.2 = 0)).map Prod.fst) []).1).contains x) := by
        refine List.mem_filter.mpr ⟨hj, ?_⟩
        simp only [decide_eq_true_eq]
        intro hc
        exact hjo (List.elem_iff.mp hc)
      rw [List.count_eq_one_of_mem (hnd.filter _) hmemf]
  · intro j hjnot
    rw [heq, List.count_append]
    rw [List.count_eq_zero_of_not_mem (fun hc => hjnot (hosub j hc)),
        List.count_eq_zero_of_not_mem (fun hc => hjnot (List.mem_of_mem_filter hc))]

theorem sortJobs_total_amended_witness :
    (["a", "b", "c"] : List String).Nodup ∧
    ((∀ j ∈ (["a", "b", "c"] : List String), (sortJobsByNeeds { jobs := [{ id := "a", needs := ["b"] }, { id := "b", needs := ["a"] }, { id := "c", needs := [] }] } ["a", "b", "c"]).count j = 1) ∧
     (∀ j, j ∉ (["a", "b", "c"] : List String) → (sortJobsByNeeds { jobs := [{ id := "a", needs := ["b"] }, { id := "b", needs := ["a"] }, { id := "c", needs := [] }] } ["a", "b", "c"]).count j = 0) ∧
     (∃ ordered, sortJobsByNeeds { jobs := [{ id := "a", needs := ["b"] }, { id := "b", needs := ["a"] }, { id := "c", needs := [] }] } ["a", "b", "c"] = ordered ++ (["a", "b", "c"] : List String).filter (fun j => ¬ ordered.contains j)) ∧
     sortJobsByNeeds { jobs := [{ id := "a", needs := ["b"] }, { id := "b", needs := ["a"] }, { id := "c", needs := [] }] } ["a", "b", "c"] = ["c", "a", "b"]) :=
  ⟨by decide, sortJobs_total_amended { jobs := [{ id := "a", needs := ["b"] }, { id := "b", needs := ["a"] }, { id := "c", needs := [] }] } ["a", "b", "c"] (by decide)⟩


theorem relax_get (ns : List String) :
    ∀ (inDeg : AList Int) (queue : List String), ns.Nodup →
      ∀ k, alGet (relax inDeg queue ns).1 k
        = if k ∈ ns then some ((alGet inDeg k).getD 0 - 1) else alGet inDeg k := by
  induction ns with
  | nil =>
    intro inDeg queue _ k
    simp [relax]
  | cons n ns ih =>
    intro inDeg queue hnd k
    obtain ⟨hn_notin, hnd2⟩ := List.nodup_cons.mp hnd
    rw [show relax inDeg queue (n :: ns) = relax (alSet inDeg n ((alGet inDeg n).getD 0 - 1)) (if (alGet inDeg n).getD 0 - 1 = 0 then queue ++ [n] else queue) ns from rfl]
    rw [ih _ _ hnd2 k]
    by_cases hk : k ∈ ns
    · have hkn : k ≠ n := fun he => hn_notin (he ▸ hk)
      rw [if_pos hk, if_pos (List.mem_cons_of_mem n hk), alGet_alSet_ne _ _ hkn]
    · rw [if_neg hk]
      by_cases hkn : k = n
      · subst hkn
        rw [if_pos (List.mem_cons_self k ns), alGet_alSet_self]
      · rw [alGet_alSet_ne _ _ hkn, if_neg (by simp [hkn, hk])]

theorem relax_queue (ns : List String) :
    ∀ (inDeg : AList Int) (queue : List String), ns.Nodup →
      (relax inDeg queue ns).2
        = queue ++ ns.filter (fun n => (alGet inDeg n).getD 0 - 1 = 0) := by
  induction ns with
  | nil =>
    intro inDeg queue _
    simp [relax]
  | cons n ns ih =>
    intro inDeg queue hnd
    obtain ⟨hn_notin, hnd2⟩ := List.nodup_cons.mp hnd
    rw [show relax inDeg queue (n :: ns) = relax (alSet inDeg n ((alGet inDeg n).getD 0 - 1)) (if (alGet inDeg n).getD 0 - 1 = 0 then queue ++ [n] else queue) ns from rfl]
    rw [ih _ _ hnd2]
    have hfilt : ns.filter (fun x => (alGet (alSet inDeg n ((alGet inDeg n).getD 0 - 1)) x).getD 0 - 1 = 0) = ns.filter (fun x => (alGet inDeg x).getD 0 - 1 = 0) := by
      apply List.filter_congr
      intro x hx
      have hxn : x ≠ n := fun he => hn_notin (he ▸ hx)
      rw [alGet_alSet_ne _ _ hxn]
    rw [hfilt]
    by_cases hd : (alGet inDeg n).getD 0 - 1 = 0
    · rw [if_pos hd, List.filter_cons, if_pos (by simp [hd]), List.append_assoc, List.singleton_append]
    · rw [if_neg hd, List.filter_cons, if_neg (by simp [hd])]

theorem len_dec (j : String) (ordered : List String) (hj : j ∉ ordered) :
    ∀ L : List String, L.Nodup →
      (L.filter (fun b => ¬ b ∈ ordered ++ [j])).length + (if j ∈ L then 1 else 0)
        = (L.filter (fun b => ¬ b ∈ ordered)).length := by
  intro L
  induction L with
  | nil => simp
  | cons x L ih =>
    intro hL
    obtain ⟨hx_notin, hL2⟩ := List.nodup_cons.mp hL
    have hih := ih hL2
    by_cases hxj : x = j
    · subst hxj
      rw [if_pos (List.mem_cons_self x L)]
      simp only [List.filter_cons]
      rw [if_neg (by simp), if_pos (by simp [hj])]
      rw [if_neg hx_notin] at hih
      simp only [List.length_cons]
      omega
    · have hjx : (j ∈ x :: L) ↔ j ∈ L := by
        simp [List.mem_cons, Ne.symm hxj]
      simp only [List.filter_cons]
      have hifj : (if j ∈ x :: L then 1 else 0) = if j ∈ L then 1 else 0 := by
        by_cases hjl : j ∈ L
        · rw [if_pos hjl, if_pos (List.mem_cons_of_mem x hjl)]
        · rw [if_neg hjl, if_neg (fun hc => hjl (hjx.mp hc))]
      by_cases hxo : x ∈ ordered
      · have hc1 : ¬ ((decide (x ∉ ordered ++ [j])) = true) := by simp [hxo]
        have hc2 : ¬ ((decide (x ∉ ordered)) = true) := by simp [hxo]
        rw [if_neg hc1, if_neg hc2, hifj]
        exact hih
      · have hc1 : (decide (x ∉ ordered ++ [j])) = true := by
          simp [List.mem_append, hxo, hxj]
        have hc2 : (decide (x ∉ ordered)) = true := by simp [hxo]
        rw [if_pos hc1, if_pos hc2]
        simp only [List.length_cons]
        rw [hifj]
        omega

theorem rank_of_need {wf : Workflow} {rank : String → Nat} (hr : RankedWf wf rank)
    {a b : String} (hb : b ∈ needsOf wf a) : rank b < rank a := by
  unfold needsOf at hb
  cases hj : jobMapGet wf a with
  | none =>
    rw [hj] at hb
    simp at hb
  | some job =>
    rw [hj] at hb
    simp only [Option.map_some', Option.getD_some] at hb
    obtain ⟨hmem, hid⟩ := jobMapGet_mem hj
    have := hr job hmem b hb
    rw [hid] at this
    exact this


theorem setAdd_idem (s : List String) (a : String) :
    setAdd (setAdd s a) a = setAdd s a := by
  unfold setAdd
  by_cases ha : a ∈ s <;> simp [ha, List.mem_append]

theorem alGet_pairs {α : Type} (l : List String) (f : String → α) (k : String) :
    alGet (l.map (fun j => (j, f j))) k = if k ∈ l then some (f k) else none := by
  induction l with
  | nil => rfl
  | cons j l ih =>
    simp only [List.map_cons, alGet]
    by_cases hj : j = k
    · subst hj
      rw [if_pos rfl, if_pos (List.mem_cons_self j l)]
    · rw [if_neg hj, ih]
      by_cases hk : k ∈ l
      · rw [if_pos hk, if_pos (List.mem_cons_of_mem j hk)]
      · rw [if_neg hk, if_neg ?_]
        intro hc
        rcases List.mem_cons.mp hc with h | h
        · exact hj h.symm
        · exact hk h

theorem needsOf_none {wf : Workflow} {a : String} (h : jobMapGet wf a = none) :
    needsOf wf a = [] := by
  unfold needsOf
  rw [h]
  rfl

theorem needsOf_some {wf : Workflow} {a : String} {job : JobDef}
    (h : jobMapGet wf a = some job) : needsOf wf a = job.needs := by
  unfold needsOf
  rw [h]
  rfl

theorem needsOf_nodup {wf : Workflow} {k : String}
    (hneeds : ∀ job ∈ wf.jobs, job.needs.Nodup) : (needsOf wf k).Nodup := by
  cases hj : jobMapGet wf k with
  | none =>
    rw [needsOf_none hj]
    exact List.nodup_nil
  | some job =>
    rw [needsOf_some hj]
    exact hneeds job (jobMapGet_mem hj).1


theorem needsFold_closed (S : List String) (a : String) (haS : a ∈ S) :
    ∀ (ns : List String) (st : AList Int × AList (List String)),
      (∀ n, (alGet st.1 n).isSome = true ↔ n ∈ S) →
      (∀ n, (alGet st.2 n).isSome = true ↔ n ∈ S) →
      alGet (ns.foldl (fun (st : AList Int × AList (List String)) need => if (alGet st.1 need).isSome then (alSet st.1 a ((alGet st.1 a).getD 0 + 1), match alGet st.2 need with | some s => alSet st.2 need (setAdd s a) | none => st.2) else st) st).1 a
          = some ((alGet st.1 a).getD 0 + ((ns.filter (fun b => b ∈ S)).length : Int)) ∧
      (∀ k, k ≠ a → alGet (ns.foldl (fun (st : AList Int × AList (List String)) need => if (alGet st.1 need).isSome then (alSet st.1 a ((alGet st.1 a).getD 0 + 1), match alGet st.2 need with | some s => alSet st.2 need (setAdd s a) | none => st.2) else st) st).1 k = alGet st.1 k) ∧
      (∀ b s, alGet st.2 b = some s →
        alGet (ns.foldl (fun (st : AList Int × AList (List String)) need => if (alGet st.1 need).isSome then (alSet st.1 a ((alGet st.1 a).getD 0 + 1), match alGet st.2 need with | some s => alSet st.2 need (setAdd s a) | none => st.2) else st) st).2 b = some (if b ∈ ns ∧ b ∈ S then setAdd s a else s)) ∧
      (∀ b, alGet st.2 b = none → alGet (ns.foldl (fun (st : AList Int × AList (List String)) need => if (alGet st.1 need).isSome then (alSet st.1 a ((alGet st.1 a).getD 0 + 1), match alGet st.2 need with | some s => alSet st.2 need (setAdd s a) | none => st.2) else st) st).2 b = none) := by
  intro ns
  induction ns with
  | nil =>
    intro st hkeys1 hkeys2
    obtain ⟨v, hv⟩ := Option.isSome_iff_exists.mp ((hkeys1 a).mpr haS)
    refine ⟨?_, fun _ _ => rfl, ?_, fun _ h => h⟩
    · rw [hv]
      simp
      exact hv
    · intro b s hs
      simp [hs]
  | cons n ns ih =>
    intro st hkeys1 hkeys2
    simp only [List.foldl_cons]
    by_cases hnS : n ∈ S
    · rw [if_pos ((hkeys1 n).mpr hnS)]
      obtain ⟨s0, hs0⟩ := Option.isSome_iff_exists.mp ((hkeys2 n).mpr hnS)
      rw [hs0]
      have hkeys1a : ∀ m, (alGet (alSet st.1 a ((alGet st.1 a).getD 0 + 1)) m).isSome = true ↔ m ∈ S := by
        intro m
        by_cases hma : m = a
        · subst hma
          rw [alGet_alSet_self]
          simp [haS]
        · rw [alGet_alSet_ne _ _ hma]
          exact hkeys1 m
      have hkeys2a : ∀ m, (alGet (alSet st.2 n (setAdd s0 a)) m).isSome = true ↔ m ∈ S := by
        intro m
        by_cases hmn : m = n
        · subst hmn
          rw [alGet_alSet_self]
          simp [hnS]
        · rw [alGet_alSet_ne _ _ hmn]
          exact hkeys2 m
      obtain ⟨c1, c2, c3, c4⟩ := ih (alSet st.1 a ((alGet st.1 a).getD 0 + 1), alSet st.2 n (setAdd s0 a)) hkeys1a hkeys2a
      refine ⟨?_, ?_, ?_, ?_⟩
      · rw [c1]
        have hsa : alGet (alSet st.1 a ((alGet st.1 a).getD 0 + 1)) a = some ((alGet st.1 a).getD 0 + 1) := alGet_alSet_self _ _ _
        rw [hsa]
        simp only [Option.getD_some]
        have hcnt : ((n :: ns).filter (fun b => b ∈ S)).length = (ns.filter (fun b => b ∈ S)).length + 1 := by
          rw [List.filter_cons, if_pos (by simpa using hnS)]
          simp [List.length_cons]
        rw [hcnt]
        congr 1
        push_cast
        omega
      · intro k hka
        rw [c2 k hka, alGet_alSet_ne _ _ hka]
      · intro b s hs
        by_cases hbn : b = n
        · subst hbn
          rw [hs0] at hs
          injection hs with hs
          subst hs
          have := c3 b (setAdd s0 a) (alGet_alSet_self _ _ _)
          rw [this]
          by_cases hbns : b ∈ ns
          · rw [if_pos ⟨hbns, hnS⟩, if_pos ⟨List.mem_cons_of_mem b hbns, hnS⟩, setAdd_idem]
          · rw [if_neg (fun hc => hbns hc.1), if_pos ⟨List.mem_cons_self b ns, hnS⟩]
        · have := c3 b s (by rw [alGet_alSet_ne _ _ hbn]; exact hs)
          rw [this]
          by_cases hbns : b ∈ ns ∧ b ∈ S
          · rw [if_pos hbns, if_pos ⟨List.mem_cons_of_mem n hbns.1, hbns.2⟩]
          · rw [if_neg hbns, if_neg ?_]
            intro hc
            rcases List.mem_cons.mp hc.1 with h | h
            · exact hbn h
            · exact hbns ⟨h, hc.2⟩
      · intro b hb
        have hbn : b ≠ n := by
          intro he
          rw [he, hs0] at hb
          exact absurd hb (by simp)
        exact c4 b (by rw [alGet_alSet_ne _ _ hbn]; exact hb)
    · rw [if_neg (by rw [(hkeys1 n)]; exact hnS)]
      obtain ⟨c1, c2, c3, c4⟩ := ih st hkeys1 hkeys2
      refine ⟨?_, c2, ?_, c4⟩
      · rw [c1]
        have hcnt : ((n :: ns).filter (fun b => b ∈ S)).length = (ns.filter (fun b => b ∈ S)).length := by
          rw [List.filter_cons, if_neg (by simpa using hnS)]
        rw [hcnt]
      · intro b s hs
        rw [c3 b s hs]
        by_cases hbns : b ∈ ns ∧ b ∈ S
        · rw [if_pos hbns, if_pos ⟨List.mem_cons_of_mem n hbns.1, hbns.2⟩]
        · rw [if_neg hbns, if_neg ?_]
          intro hc
          rcases List.mem_cons.mp hc.1 with h | h
          · rw [h] at hc
            exact hnS hc.2
          · exact hbns ⟨h, hc.2⟩


theorem pass_closed (wf : Workflow) (S : List String) :
    ∀ (R P : List String) (st : AList Int × AList (List String)),
      S = P ++ R → (P ++ R).Nodup →
      (∀ k, alGet st.1 k = if k ∈ S then some (if k ∈ P then (((needsOf wf k).filter (fun b => b ∈ S)).length : Int) else 0) else none) →
      (∀ b, alGet st.2 b = if b ∈ S then some (P.filter (fun x => b ∈ needsOf wf x)) else none) →
      (∀ k, alGet (R.foldl (addEdgesForJob wf) st).1 k = if k ∈ S then some (((needsOf wf k).filter (fun b => b ∈ S)).length : Int) else none) ∧
      (∀ b, alGet (R.foldl (addEdgesForJob wf) st).2 b = if b ∈ S then some (S.filter (fun x => b ∈ needsOf wf x)) else none) := by
  intro R
  induction R with
  | nil =>
    intro P st hPS hnd h1 h2
    rw [List.append_nil] at hPS
    subst hPS
    constructor
    · intro k
      have hk1 := h1 k
      by_cases hk : k ∈ S
      · rw [if_pos hk] at hk1 ⊢
        rw [if_pos hk] at hk1
        exact hk1
      · rw [if_neg hk] at hk1 ⊢
        exact hk1
    · exact h2
  | cons aa R ih =>
    intro P st hPS hnd h1 h2
    simp only [List.foldl_cons]
    have haS : aa ∈ S := by
      rw [hPS]
      exact List.mem_append_right _ (List.mem_cons_self aa R)
    have haP : aa ∉ P := by
      have hsp := List.nodup_append.mp hnd
      exact fun hc => hsp.2.2 hc (List.mem_cons_self aa R)
    have hkeys1 : ∀ n, (alGet st.1 n).isSome = true ↔ n ∈ S := by
      intro n
      rw [h1 n]
      by_cases hn : n ∈ S <;> simp [hn]
    have hkeys2 : ∀ n, (alGet st.2 n).isSome = true ↔ n ∈ S := by
      intro n
      rw [h2 n]
      by_cases hn : n ∈ S <;> simp [hn]
    have hsta : alGet st.1 aa = some 0 := by
      rw [h1 aa, if_pos haS, if_neg haP]
    have hstep1 : ∀ k, alGet (addEdgesForJob wf st aa).1 k = if k ∈ S then some (if k ∈ P ++ [aa] then (((needsOf wf k).filter (fun b => b ∈ S)).length : Int) else 0) else none := by
      unfold addEdgesForJob
      cases hjm : jobMapGet wf aa with
      | none =>
        intro k
        rw [h1 k]
        by_cases hk : k ∈ S
        · rw [if_pos hk, if_pos hk]
          by_cases hka : k = aa
          · subst hka
            rw [if_neg haP, if_pos (List.mem_append_right _ (List.mem_singleton.mpr rfl))]
            rw [needsOf_none hjm]
            simp
          · have hmv : (k ∈ P ++ [aa]) ↔ k ∈ P := by
              simp [List.mem_append, hka]
            by_cases hkp : k ∈ P
            · rw [if_pos hkp, if_pos (hmv.mpr hkp)]
            · rw [if_neg hkp, if_neg (fun hc => hkp (hmv.mp hc))]
        · rw [if_neg hk, if_neg hk]
      | some job =>
        obtain ⟨c1, c2, c3, c4⟩ := needsFold_closed S aa haS job.needs st hkeys1 hkeys2
        intro k
        by_cases hka : k = aa
        · subst hka
          rw [c1, hsta]
          rw [if_pos haS, if_pos (List.mem_append_right _ (List.mem_singleton.mpr rfl))]
          rw [needsOf_some hjm]
          simp
        · rw [c2 k hka, h1 k]
          by_cases hk : k ∈ S
          · rw [if_pos hk, if_pos hk]
            have hmv : (k ∈ P ++ [aa]) ↔ k ∈ P := by
              simp [List.mem_append, hka]
            by_cases hkp : k ∈ P
            · rw [if_pos hkp, if_pos (hmv.mpr hkp)]
            · rw [if_neg hkp, if_neg (fun hc => hkp (hmv.mp hc))]
          · rw [if_neg hk, if_neg hk]
    have hstep2 : ∀ b, alGet (addEdgesForJob wf st aa).2 b = if b ∈ S then some ((P ++ [aa]).filter (fun x => b ∈ needsOf wf x)) else none := by
      unfold addEdgesForJob
      cases hjm : jobMapGet wf aa with
      | none =>
        intro b
        rw [h2 b]
        by_cases hb : b ∈ S
        · rw [if_pos hb, if_pos hb]
          rw [List.filter_append]
          rw [show List.filter (fun x => decide (b ∈ needsOf wf x)) [aa] = [] from by
            rw [List.filter_cons, if_neg (by simp [needsOf_none hjm])]
            rfl]
          rw [List.append_nil]
        · rw [if_neg hb, if_neg hb]
      | some job =>
        obtain ⟨c1, c2, c3, c4⟩ := needsFold_closed S aa haS job.needs st hkeys1 hkeys2
        intro b
        by_cases hb : b ∈ S
        · have hb2 : alGet st.2 b = some (P.filter (fun x => b ∈ needsOf wf x)) := by
            rw [h2 b, if_pos hb]
          rw [c3 b _ hb2, if_pos hb, List.filter_append]
          by_cases hbn : b ∈ job.needs
          · rw [if_pos ⟨hbn, hb⟩]
            rw [show List.filter (fun x => decide (b ∈ needsOf wf x)) [aa] = [aa] from by
              rw [List.filter_cons, if_pos (by simp [needsOf_some hjm, hbn])]
              rfl]
            rw [show setAdd (P.filter (fun x => b ∈ needsOf wf x)) aa = P.filter (fun x => b ∈ needsOf wf x) ++ [aa] from by
              unfold setAdd
              rw [if_neg (fun hc => haP (List.mem_of_mem_filter hc))]]
          · rw [if_neg (fun hc => hbn hc.1)]
            rw [show List.filter (fun x => decide (b ∈ needsOf wf x)) [aa] = [] from by
              rw [List.filter_cons, if_neg (by simp [needsOf_some hjm, hbn])]
              rfl]
            rw [List.append_nil]
        · have hb2 : alGet st.2 b = none := by
            rw [h2 b, if_neg hb]
          rw [c4 b hb2, if_neg hb]
    refine ih (P ++ [aa]) (addEdgesForJob wf st aa) ?_ ?_ hstep1 hstep2
    · rw [hPS, List.append_assoc, List.singleton_append]
    · rw [List.append_assoc, List.singleton_append]
      exact hnd


theorem indexOf_append_left {l : List String} (l2 : List String) {a : String}
    (h : a ∈ l) : (l ++ l2).indexOf a = l.indexOf a := by
  induction l with
  | nil => cases h
  | cons x xs ih =>
    by_cases hxa : x = a
    · subst hxa
      simp [List.indexOf_cons]
    · have hax : a ∈ xs := by
        rcases List.mem_cons.mp h with h2 | h2
        · exact absurd h2.symm hxa
        · exact h2
      have hbeq : (x == a) = false := by
        simp [hxa]
      simp only [List.cons_append, List.indexOf_cons, hbeq]
      rw [ih hax]

theorem indexOf_lt_len {l : List String} {a : String} (h : a ∈ l) :
    l.indexOf a < l.length := by
  induction l with
  | nil => cases h
  | cons x xs ih =>
    by_cases hxa : x = a
    · subst hxa
      simp [List.indexOf_cons]
    · have hax : a ∈ xs := by
        rcases List.mem_cons.mp h with h2 | h2
        · exact absurd h2.symm hxa
        · exact h2
      have hbeq : (x == a) = false := by
        simp [hxa]
      simp only [List.indexOf_cons, hbeq, List.length_cons]
      have := ih hax
      simp only [cond_false]
      omega


theorem kahn_strong (edges : AList (List String)) (S : List String)
    (NB : String → List String) (hS : S.Nodup) (hblank : "" ∉ S)
    (hedges : ∀ j ∈ S, alGet edges j = some (S.filter (fun x => j ∈ NB x)))
    (hNBnodup : ∀ k ∈ S, (NB k).Nodup) :
    ∀ (fuel : Nat) (inDeg : AList Int) (queue ordered : List String),
      queue.length + 2 * posCount inDeg < fuel →
      (ordered ++ queue).Nodup →
      (∀ k ∈ ordered ++ queue, k ∈ S) →
      (∀ k ∈ S, alGet inDeg k = some (((NB k).filter (fun b => ¬ b ∈ ordered)).length : Int)) →
      (∀ k ∈ S, (((NB k).filter (fun b => ¬ b ∈ ordered)).length = 0 ↔ k ∈ ordered ++ queue)) →
      (∀ k ∈ queue, ∀ b ∈ NB k, b ∈ ordered) →
      (∀ k ∈ ordered, ∀ b ∈ NB k, b ∈ ordered ∧ ordered.indexOf b < ordered.indexOf k) →
      ((kahnLoopAux edges fuel inDeg queue ordered).1.Nodup ∧
       (∀ k ∈ (kahnLoopAux edges fuel inDeg queue ordered).1, k ∈ S) ∧
       (∀ k ∈ S, (((NB k).filter (fun b => ¬ b ∈ (kahnLoopAux edges fuel inDeg queue ordered).1)).length = 0 ↔ k ∈ (kahnLoopAux edges fuel inDeg queue ordered).1)) ∧
       (∀ k ∈ (kahnLoopAux edges fuel inDeg queue ordered).1, ∀ b ∈ NB k, b ∈ (kahnLoopAux edges fuel inDeg queue ordered).1 ∧ (kahnLoopAux edges fuel inDeg queue ordered).1.indexOf b < (kahnLoopAux edges fuel inDeg queue ordered).1.indexOf k)) := by
  intro fuel
  induction fuel with
  | zero =>
    intro inDeg queue ordered hfuel
    exact absurd hfuel (Nat.not_lt_zero _)
  | succ fuel ih =>
    intro inDeg queue ordered hfuel h1 h2 h3 h4 h5 h6
    cases queue with
    | nil =>
      refine ⟨by simpa using h1, fun k hk => h2 k (List.mem_append_left _ hk), ?_, h6⟩
      intro k hk
      have := h4 k hk
      simpa using this
    | cons j rest =>
      have hjS : j ∈ S := h2 j (List.mem_append_right _ (List.mem_cons_self j rest))
      have hjne : ¬ j = "" := fun he => hblank (he ▸ hjS)
      have hED := hedges j hjS
      have hstep : kahnLoopAux edges (fuel + 1) inDeg (j :: rest) ordered = kahnLoopAux edges fuel (relax inDeg rest ((alGet edges j).getD [])).1 (relax inDeg rest ((alGet edges j).getD [])).2 (ordered ++ [j]) := by
        show (if j = "" then kahnLoopAux edges fuel inDeg rest ordered else kahnLoopAux edges fuel (relax inDeg rest ((alGet edges j).getD [])).1 (relax inDeg rest ((alGet edges j).getD [])).2 (ordered ++ [j])) = _
        rw [if_neg hjne]
      rw [hstep]
      rw [hED]
      simp only [Option.getD_some]
      set ED := S.filter (fun x => j ∈ NB x) with hEDdef
      have hEDnodup : ED.Nodup := hS.filter _
      have hEDsub : ∀ x ∈ ED, x ∈ S := fun x hx => List.mem_of_mem_filter hx
      have hEDmem : ∀ x, x ∈ ED ↔ (x ∈ S ∧ j ∈ NB x) := by
        intro x
        rw [hEDdef]
        constructor
        · intro hx
          exact ⟨List.mem_of_mem_filter hx, by simpa using List.of_mem_filter hx⟩
        · intro hx
          exact List.mem_filter.mpr ⟨hx.1, by simpa using hx.2⟩
      set PUSH := ED.filter (fun n => (alGet inDeg n).getD 0 - 1 = 0) with hPUSHdef
      have hque : (relax inDeg rest ED).2 = rest ++ PUSH := by
        rw [relax_queue ED inDeg rest hEDnodup, hPUSHdef]
      have hget := relax_get ED inDeg rest hEDnodup
      have hjo : j ∉ ordered := by
        have hsp := List.nodup_append.mp h1
        exact fun hc => hsp.2.2 hc (List.mem_cons_self j rest)
      have hlen : ∀ k ∈ S, ((NB k).filter (fun b => ¬ b ∈ ordered ++ [j])).length + (if j ∈ NB k then 1 else 0) = ((NB k).filter (fun b => ¬ b ∈ ordered)).length := fun k hk => len_dec j ordered hjo (NB k) (hNBnodup k hk)
      have hpush : ∀ n, n ∈ PUSH ↔ n ∈ ED ∧ ((NB n).filter (fun b => ¬ b ∈ ordered)).length = 1 := by
        intro n
        rw [hPUSHdef]
        constructor
        · intro hn
          have hnED := List.mem_of_mem_filter hn
          have hc := List.of_mem_filter hn
          simp only [decide_eq_true_eq] at hc
          refine ⟨hnED, ?_⟩
          rw [h3 n (hEDsub n hnED)] at hc
          simp only [Option.getD_some] at hc
          omega
        · intro hn
          refine List.mem_filter.mpr ⟨hn.1, ?_⟩
          simp only [decide_eq_true_eq]
          rw [h3 n (hEDsub n hn.1)]
          simp only [Option.getD_some]
          omega
      have hmemO : ∀ x : String, x ∈ ordered ++ [j] ↔ (x ∈ ordered ∨ x = j) := by
        intro x
        simp [List.mem_append]
      have hmemOld : ∀ x : String, x ∈ ordered ++ j :: rest ↔ (x ∈ ordered ∨ x = j ∨ x ∈ rest) := by
        intro x
        simp [List.mem_append]
      have hmemNew : ∀ x : String, x ∈ (ordered ++ [j]) ++ (rest ++ PUSH) ↔ (x ∈ ordered ∨ x = j ∨ x ∈ rest ∨ x ∈ PUSH) := by
        intro x
        simp [List.mem_append, or_assoc]
      have h3' : ∀ k ∈ S, alGet (relax inDeg rest ED).1 k = some (((NB k).filter (fun b => ¬ b ∈ ordered ++ [j])).length : Int) := by
        intro k hk
        rw [hget k]
        have hl := hlen k hk
        by_cases hkED : k ∈ ED
        · rw [if_pos hkED, h3 k hk]
          simp only [Option.getD_some]
          have hjNB : j ∈ NB k := ((hEDmem k).mp hkED).2
          rw [if_pos hjNB] at hl
          congr 1
          omega
        · rw [if_neg hkED, h3 k hk]
          have hjNB : j ∉ NB k := fun hc => hkED ((hEDmem k).mpr ⟨hk, hc⟩)
          rw [if_neg hjNB] at hl
          congr 1
          omega
      have h4' : ∀ k ∈ S, (((NB k).filter (fun b => ¬ b ∈ ordered ++ [j])).length = 0 ↔ k ∈ (ordered ++ [j]) ++ (rest ++ PUSH)) := by
        intro k hk
        have hl := hlen k hk
        have hold := h4 k hk
        rw [hmemNew k]
        by_cases hjNB : j ∈ NB k
        · rw [if_pos hjNB] at hl
          constructor
          · intro hz
            have holen1 : ((NB k).filter (fun b => ¬ b ∈ ordered)).length = 1 := by omega
            exact Or.inr (Or.inr (Or.inr ((hpush k).mpr ⟨(hEDmem k).mpr ⟨hk, hjNB⟩, holen1⟩)))
          · intro hm
            rcases hm with hm | hm | hm | hm
            · have := hold.mpr ((hmemOld k).mpr (Or.inl hm))
              omega
            · have := hold.mpr ((hmemOld k).mpr (Or.inr (Or.inl hm)))
              omega
            · have := hold.mpr ((hmemOld k).mpr (Or.inr (Or.inr hm)))
              omega
            · have := ((hpush k).mp hm).2
              omega
        · rw [if_neg hjNB] at hl
          have hnp : k ∉ PUSH := fun hc => hjNB ((hEDmem k).mp ((hpush k).mp hc).1).2
          constructor
          · intro hz
            have hmem := hold.mp (by omega)
            rcases (hmemOld k).mp hmem with hm | hm | hm
            · exact Or.inl hm
            · exact Or.inr (Or.inl hm)
            · exact Or.inr (Or.inr (Or.inl hm))
          · intro hm
            have hmem : k ∈ ordered ++ j :: rest := by
              rcases hm with hm | hm | hm | hm
              · exact (hmemOld k).mpr (Or.inl hm)
              · exact (hmemOld k).mpr (Or.inr (Or.inl hm))
              · exact (hmemOld k).mpr (Or.inr (Or.inr hm))
              · exact absurd hm hnp
            have := hold.mpr hmem
            omega
      have hON : (ordered ++ [j]) ++ rest = ordered ++ j :: rest := by
        rw [List.append_assoc, List.singleton_append]
      have h1' : ((ordered ++ [j]) ++ (rest ++ PUSH)).Nodup := by
        rw [← List.append_assoc]
        refine List.nodup_append.mpr ⟨?_, ?_, ?_⟩
        · rw [hON]
          exact h1
        · exact hEDnodup.filter _
        · intro x hx hxp
          have hx1 : x ∈ ordered ++ j :: rest := by
            rw [← hON]
            exact hx
          have hxS : x ∈ S := h2 x hx1
          have hz := (h4 x hxS).mpr hx1
          have hl1 := ((hpush x).mp hxp).2
          omega
      have h2' : ∀ k ∈ (ordered ++ [j]) ++ (rest ++ PUSH), k ∈ S := by
        intro k hk
        rcases (hmemNew k).mp hk with hm | hm | hm | hm
        · exact h2 k (List.mem_append_left _ hm)
        · rw [hm]
          exact hjS
        · exact h2 k ((hmemOld k).mpr (Or.inr (Or.inr hm)))
        · exact hEDsub k ((hpush k).mp hm).1
      have h5' : ∀ k ∈ rest ++ PUSH, ∀ b ∈ NB k, b ∈ ordered ++ [j] := by
        intro k hk b hb
        rcases List.mem_append.mp hk with hm | hm
        · exact (hmemO b).mpr (Or.inl (h5 k (List.mem_cons_of_mem j hm) b hb))
        · have hkS : k ∈ S := hEDsub k ((hpush k).mp hm).1
          have hjNB : j ∈ NB k := ((hEDmem k).mp ((hpush k).mp hm).1).2
          have hl := hlen k hkS
          rw [if_pos hjNB] at hl
          have hl1 := ((hpush k).mp hm).2
          have hz : ((NB k).filter (fun b => ¬ b ∈ ordered ++ [j])).length = 0 := by omega
          have hnil := List.length_eq_zero.mp hz
          by_contra hbo
          have hmem2 : b ∈ (NB k).filter (fun b => ¬ b ∈ ordered ++ [j]) :=
            List.mem_filter.mpr ⟨hb, by simpa using hbo⟩
          rw [hnil] at hmem2
          cases hmem2
      have h6' : ∀ k ∈ ordered ++ [j], ∀ b ∈ NB k, b ∈ ordered ++ [j] ∧ (ordered ++ [j]).indexOf b < (ordered ++ [j]).indexOf k := by
        intro k hk b hb
        rcases (hmemO k).mp hk with hm | hm
        · have hold := h6 k hm b hb
          refine ⟨(hmemO b).mpr (Or.inl hold.1), ?_⟩
          rw [indexOf_append_left [j] hold.1, indexOf_append_left [j] hm]
          exact hold.2
        · have hbj : b ∈ NB j := hm ▸ hb
          have hbo : b ∈ ordered := h5 j (List.mem_cons_self j rest) b hbj
          rw [hm]
          refine ⟨(hmemO b).mpr (Or.inl hbo), ?_⟩
          rw [indexOf_append_left [j] hbo, indexOf_append_self hjo]
          exact indexOf_lt_len hbo
      have hms := relax_measure ED inDeg rest
      rw [hque] at hms
      have hfuel' : (rest ++ PUSH).length + 2 * posCount (relax inDeg rest ED).1 < fuel := by
        simp only [List.length_cons] at hfuel
        omega
      simp only [hque]
      exact ih (relax inDeg rest ED).1 (rest ++ PUSH) (ordered ++ [j]) hfuel' h1' h2' h3' h4' h5' h6'


theorem sortJobs_res_full (wf : Workflow) (jobIds : List String) (rank : String → Nat)
    (hnd : jobIds.Nodup) (hblank : "" ∉ jobIds)
    (hneeds : ∀ job ∈ wf.jobs, job.needs.Nodup)
    (hr : RankedWf wf rank) :
    (sortJobsByNeeds wf jobIds).Nodup ∧
    (∀ k ∈ sortJobsByNeeds wf jobIds, k ∈ jobIds) ∧
    (∀ k ∈ jobIds, k ∈ sortJobsByNeeds wf jobIds) ∧
    (∀ a ∈ sortJobsByNeeds wf jobIds, ∀ b, b ∈ needsOf wf a → b ∈ jobIds →
      (sortJobsByNeeds wf jobIds).indexOf b < (sortJobsByNeeds wf jobIds).indexOf a) := by
  have htriv : ∀ L : List String, L.filter (fun b => ¬ b ∈ ([] : List String)) = L := by
    intro L
    simp
  obtain ⟨g1, g2, g3, g4⟩ := sortJobs_pass_inv wf jobIds hnd
  have hknd : (alKeys (jobIds.foldl (addEdgesForJob wf) (initMaps jobIds)).1).Nodup := by
    rw [g1]
    exact hnd
  have hinit1 : ∀ k, alGet (initMaps jobIds).1 k = if k ∈ jobIds then some (if k ∈ ([] : List String) then (((needsOf wf k).filter (fun b => b ∈ jobIds)).length : Int) else 0) else none := by
    intro k
    rw [initMaps_eq jobIds hnd]
    rw [show ((jobIds.map (fun j => (j, (0 : Int))), jobIds.map (fun j => (j, ([] : List String))))).1 = jobIds.map (fun j => (j, (0 : Int))) from rfl]
    rw [alGet_pairs]
    by_cases hk : k ∈ jobIds
    · rw [if_pos hk, if_pos hk]
      simp
    · rw [if_neg hk, if_neg hk]
  have hinit2 : ∀ b, alGet (initMaps jobIds).2 b = if b ∈ jobIds then some (([] : List String).filter (fun x => b ∈ needsOf wf x)) else none := by
    intro b
    rw [initMaps_eq jobIds hnd]
    rw [show ((jobIds.map (fun j => (j, (0 : Int))), jobIds.map (fun j => (j, ([] : List String))))).2 = jobIds.map (fun j => (j, ([] : List String))) from rfl]
    rw [alGet_pairs]
    by_cases hb : b ∈ jobIds
    · rw [if_pos hb, if_pos hb]
      rfl
    · rw [if_neg hb, if_neg hb]
  obtain ⟨p1, p2⟩ := pass_closed wf jobIds jobIds [] (initMaps jobIds) (by simp) (by simpa using hnd) hinit1 hinit2
  have hedges2 : ∀ j ∈ jobIds, alGet (jobIds.foldl (addEdgesForJob wf) (initMaps jobIds)).2 j = some (jobIds.filter (fun x => j ∈ ((needsOf wf x).filter (fun b => b ∈ jobIds)))) := by
    intro j hjS
    rw [p2 j, if_pos hjS]
    congr 1
    apply List.filter_congr
    intro x hx
    rw [decide_eq_decide]
    constructor
    · intro h
      exact List.mem_filter.mpr ⟨h, by simpa using hjS⟩
    · intro h
      exact List.mem_of_mem_filter h
  have hNBnodup2 : ∀ k ∈ jobIds, (((needsOf wf k).filter (fun b => b ∈ jobIds))).Nodup := by
    intro k _
    exact (needsOf_nodup hneeds).filter _
  have h3init : ∀ k ∈ jobIds, alGet (jobIds.foldl (addEdgesForJob wf) (initMaps jobIds)).1 k = some (((((needsOf wf k).filter (fun b => b ∈ jobIds))).filter (fun b => ¬ b ∈ ([] : List String))).length : Int) := by
    intro k hk
    rw [p1 k, if_pos hk, htriv]
  have h4init : ∀ k ∈ jobIds, (((((needsOf wf k).filter (fun b => b ∈ jobIds))).filter (fun b => ¬ b ∈ ([] : List String))).length = 0 ↔ k ∈ ([] : List String) ++ (((jobIds.foldl (addEdgesForJob wf) (initMaps jobIds)).1.filter (fun p => p.2 = 0)).map Prod.fst)) := by
    intro k hk
    have hq := queue_mem_iff hknd k
    rw [htriv]
    constructor
    · intro hz
      simp only [List.nil_append]
      apply hq.mpr
      rw [p1 k, if_pos hk, hz]
      simp
    · intro hm
      simp only [List.nil_append] at hm
      have hv := hq.mp hm
      rw [p1 k, if_pos hk] at hv
      injection hv with hv
      omega
  have h5init : ∀ k ∈ (((jobIds.foldl (addEdgesForJob wf) (initMaps jobIds)).1.filter (fun p => p.2 = 0)).map Prod.fst), ∀ b ∈ ((needsOf wf k).filter (fun b => b ∈ jobIds)), b ∈ ([] : List String) := by
    intro k hk b hb
    have hkS : k ∈ jobIds := by
      rw [← g1]
      exact queue_sub hk
    have hv := (queue_mem_iff hknd k).mp hk
    rw [p1 k, if_pos hkS] at hv
    injection hv with hv
    have hz : ((needsOf wf k).filter (fun b => b ∈ jobIds)).length = 0 := by omega
    rw [List.length_eq_zero] at hz
    rw [hz] at hb
    cases hb
  obtain ⟨c1, c2, c3, c4⟩ := kahn_strong (jobIds.foldl (addEdgesForJob wf) (initMaps jobIds)).2 jobIds (fun k => (needsOf wf k).filter (fun b => b ∈ jobIds)) hnd hblank hedges2 hNBnodup2
    ((((jobIds.foldl (addEdgesForJob wf) (initMaps jobIds)).1.filter (fun p => p.2 = 0)).map Prod.fst).length + 2 * posCount (jobIds.foldl (addEdgesForJob wf) (initMaps jobIds)).1 + 1) (jobIds.foldl (addEdgesForJob wf) (initMaps jobIds)).1 (((jobIds.foldl (addEdgesForJob wf) (initMaps jobIds)).1.filter (fun p => p.2 = 0)).map Prod.fst) []
    (Nat.lt_succ_self _)
    (by simpa using queue_nodup hknd)
    (by
      intro k hk
      rw [← g1]
      exact queue_sub (by simpa using hk))
    h3init h4init h5init
    (fun k hk => absurd hk (List.not_mem_nil k))
  have hcompn : ∀ n, ∀ k, k ∈ jobIds → rank k < n → k ∈ (kahnLoopAux (jobIds.foldl (addEdgesForJob wf) (initMaps jobIds)).2 ((((jobIds.foldl (addEdgesForJob wf) (initMaps jobIds)).1.filter (fun p => p.2 = 0)).map Prod.fst).length + 2 * posCount (jobIds.foldl (addEdgesForJob wf) (initMaps jobIds)).1 + 1) (jobIds.foldl (addEdgesForJob wf) (initMaps jobIds)).1 (((jobIds.foldl (addEdgesForJob wf) (initMaps jobIds)).1.filter (fun p => p.2 = 0)).map Prod.fst) []).1 := by
    intro n
    induction n with
    | zero =>
      intro k _ hlt
      exact absurd hlt (Nat.not_lt_zero _)
    | succ n ihn =>
      intro k hkS hlt
      by_contra hko
      have hne : ¬ (((((needsOf wf k).filter (fun b => b ∈ jobIds))).filter (fun b => ¬ b ∈ (kahnLoopAux (jobIds.foldl (addEdgesForJob wf) (initMaps jobIds)).2 ((((jobIds.foldl (addEdgesForJob wf) (initMaps jobIds)).1.filter (fun p => p.2 = 0)).map Prod.fst).length + 2 * posCount (jobIds.foldl (addEdgesForJob wf) (initMaps jobIds)).1 + 1) (jobIds.foldl (addEdgesForJob wf) (initMaps jobIds)).1 (((jobIds.foldl (addEdgesForJob wf) (initMaps jobIds)).1.filter (fun p => p.2 = 0)).map Prod.fst) []).1)).length = 0) :=
        fun hz => hko ((c3 k hkS).mp hz)
      obtain ⟨b, hbmem⟩ := List.exists_mem_of_length_pos (Nat.pos_of_ne_zero hne)
      have hb1 : b ∈ ((needsOf wf k).filter (fun b => b ∈ jobIds)) := List.mem_of_mem_filter hbmem
      have hb2 : ¬ b ∈ (kahnLoopAux (jobIds.foldl (addEdgesForJob wf) (initMaps jobIds)).2 ((((jobIds.foldl (addEdgesForJob wf) (initMaps jobIds)).1.filter (fun p => p.2 = 0)).map Prod.fst).length + 2 * posCount (jobIds.foldl (addEdgesForJob wf) (initMaps jobIds)).1 + 1) (jobIds.foldl (addEdgesForJob wf) (initMaps jobIds)).1 (((jobIds.foldl (addEdgesForJob wf) (initMaps jobIds)).1.filter (fun p => p.2 = 0)).map Prod.fst) []).1 := by simpa using List.of_mem_filter hbmem
      have hbS : b ∈ jobIds := by simpa using List.of_mem_filter hb1
      have hbrank : rank b < rank k := rank_of_need hr (List.mem_of_mem_filter hb1)
      exact hb2 (ihn b hbS (by omega))
  have hcomp : ∀ k ∈ jobIds, k ∈ (kahnLoopAux (jobIds.foldl (addEdgesForJob wf) (initMaps jobIds)).2 ((((jobIds.foldl (addEdgesForJob wf) (initMaps jobIds)).1.filter (fun p => p.2 = 0)).map Prod.fst).length + 2 * posCount (jobIds.foldl (addEdgesForJob wf) (initMaps jobIds)).1 + 1) (jobIds.foldl (addEdgesForJob wf) (initMaps jobIds)).1 (((jobIds.foldl (addEdgesForJob wf) (initMaps jobIds)).1.filter (fun p => p.2 = 0)).map Prod.fst) []).1 :=
    fun k hk => hcompn (rank k + 1) k hk (Nat.lt_succ_self _)
  have hfil : jobIds.filter (fun j => ¬ (kahnLoopAux (jobIds.foldl (addEdgesForJob wf) (initMaps jobIds)).2 ((((jobIds.foldl (addEdgesForJob wf) (initMaps jobIds)).1.filter (fun p => p.2 = 0)).map Prod.fst).length + 2 * posCount (jobIds.foldl (addEdgesForJob wf) (initMaps jobIds)).1 + 1) (jobIds.foldl (addEdgesForJob wf) (initMaps jobIds)).1 (((jobIds.foldl (addEdgesForJob wf) (initMaps jobIds)).1.filter (fun p => p.2 = 0)).map Prod.fst) []).1.contains j) = [] := by
    rw [List.filter_eq_nil]
    intro a ha
    simp only [decide_eq_true_eq]
    intro hc
    exact hc (List.elem_iff.mpr (hcomp a ha))
  have hfin : sortJobsByNeeds wf jobIds = (kahnLoopAux (jobIds.foldl (addEdgesForJob wf) (initMaps jobIds)).2 ((((jobIds.foldl (addEdgesForJob wf) (initMaps jobIds)).1.filter (fun p => p.2 = 0)).map Prod.fst).length + 2 * posCount (jobIds.foldl (addEdgesForJob wf) (initMaps jobIds)).1 + 1) (jobIds.foldl (addEdgesForJob wf) (initMaps jobIds)).1 (((jobIds.foldl (addEdgesForJob wf) (initMaps jobIds)).1.filter (fun p => p.2 = 0)).map Prod.fst) []).1 := by
    rw [show sortJobsByNeeds wf jobIds = (kahnLoopAux (jobIds.foldl (addEdgesForJob wf) (initMaps jobIds)).2 ((((jobIds.foldl (addEdgesForJob wf) (initMaps jobIds)).1.filter (fun p => p.2 = 0)).map Prod.fst).length + 2 * posCount (jobIds.foldl (addEdgesForJob wf) (initMaps jobIds)).1 + 1) (jobIds.foldl (addEdgesForJob wf) (initMaps jobIds)).1 (((jobIds.foldl (addEdgesForJob wf) (initMaps jobIds)).1.filter (fun p => p.2 = 0)).map Prod.fst) []).1 ++ jobIds.filter (fun j => ¬ (kahnLoopAux (jobIds.foldl (addEdgesForJob wf) (initMaps jobIds)).2 ((((jobIds.foldl (addEdgesForJob wf) (initMaps jobIds)).1.filter (fun p => p.2 = 0)).map Prod.fst).length + 2 * posCount (jobIds.foldl (addEdgesForJob wf) (initMaps jobIds)).1 + 1) (jobIds.foldl (addEdgesForJob wf) (initMaps jobIds)).1 (((jobIds.foldl (addEdgesForJob wf) (initMaps jobIds)).1.filter (fun p => p.2 = 0)).map Prod.fst) []).1.contains j) from rfl]
    rw [hfil, List.append_nil]
  rw [hfin]
  refine ⟨c1, c2, hcomp, ?_⟩
  intro a ha b hbneed hbS
  have hbNB : b ∈ ((needsOf wf a).filter (fun b => b ∈ jobIds)) := List.mem_filter.mpr ⟨hbneed, by simpa using hbS⟩
  exact (c4 a ha b hbNB).2


/-- C1 (amended): for every workflow whose dependency graph is acyclic
(witnessed by a rank function) and whose jobs carry duplicate-free `needs`
lists, and every duplicate-free input list of non-empty job ids,
`sortJobsByNeeds` returns a list containing every input id exactly once and
nothing else, and for every edge `a needs b` with both `a` and `b` in the
input set, `b` appears before `a` in the output; ready nodes are processed
in FIFO enqueue order, so the output is deterministic for a fixed input
order (e.g. two independent jobs keep their input order `[y,x]`).  A
duplicated entry in one job's `needs` list breaks the claim even on an
acyclic graph — the in-degree is counted per occurrence but decremented
once per distinct dependent — so the duplicate-free `needs` hypothesis is
necessary (refuted separately), as is the duplicate-free input list; the
non-empty-id hypothesis is necessary because the loop's JavaScript falsy
guard `if (!jobId) continue` dequeues an empty-string id without emitting
or relaxing it, stranding it and its dependents in the missing suffix. -/
theorem sortJobs_topo_amended (wf : Workflow) (jobIds : List String)
    (rank : String → Nat) (hnd : jobIds.Nodup) (hblank : "" ∉ jobIds)
    (hneeds : ∀ job ∈ wf.jobs, job.needs.Nodup)
    (hr : RankedWf wf rank) :
    (∀ j ∈ jobIds, (sortJobsByNeeds wf jobIds).count j = 1) ∧
    (∀ j, j ∉ jobIds → (sortJobsByNeeds wf jobIds).count j = 0) ∧
    (∀ a ∈ jobIds, ∀ b, b ∈ needsOf wf a → b ∈ jobIds →
      (sortJobsByNeeds wf jobIds).indexOf b < (sortJobsByNeeds wf jobIds).indexOf a) ∧
    sortJobsByNeeds { jobs := [{ id := "x", needs := [] }, { id := "y", needs := [] }] } ["y", "x"] = ["y", "x"] := by
  obtain ⟨hnodup, hsub, hcomp, horder⟩ := sortJobs_res_full wf jobIds rank hnd hblank hneeds hr
  refine ⟨?_, ?_, ?_, by decide⟩
  · intro j hj
    exact List.count_eq_one_of_mem hnodup (hcomp j hj)
  · intro j hj
    exact List.count_eq_zero_of_not_mem (fun hc => hj (hsub j hc))
  · intro a ha b hbneed hbS
    exact horder a (hcomp a ha) b hbneed hbS

theorem sortJobs_topo_amended_witness :
    ((["deploy", "test", "build"] : List String).Nodup ∧
     "" ∉ (["deploy", "test", "build"] : List String) ∧
     (∀ job ∈ ({ jobs := [{ id := "build", needs := [] }, { id := "test", needs := ["build"] }, { id := "deploy", needs := ["test"] }] } : Workflow).jobs, job.needs.Nodup) ∧
     RankedWf { jobs := [{ id := "build", needs := [] }, { id := "test", needs := ["build"] }, { id := "deploy", needs := ["test"] }] } (fun s => if s = "build" then 0 else if s = "test" then 1 else 2)) ∧
    ((∀ j ∈ (["deploy", "test", "build"] : List String), (sortJobsByNeeds { jobs := [{ id := "build", needs := [] }, { id := "test", needs := ["build"] }, { id := "deploy", needs := ["test"] }] } ["deploy", "test", "build"]).count j = 1) ∧
     (∀ j, j ∉ (["deploy", "test", "build"] : List String) → (sortJobsByNeeds { jobs := [{ id := "build", needs := [] }, { id := "test", needs := ["build"] }, { id := "deploy", needs := ["test"] }] } ["deploy", "test", "build"]).count j = 0) ∧
     (∀ a ∈ (["deploy", "test", "build"] : List String), ∀ b, b ∈ needsOf { jobs := [{ id := "build", needs := [] }, { id := "test", needs := ["build"] }, { id := "deploy", needs := ["test"] }] } a → b ∈ (["deploy", "test", "build"] : List String) →
       (sortJobsByNeeds { jobs := [{ id := "build", needs := [] }, { id := "test", needs := ["build"] }, { id := "deploy", needs := ["test"] }] } ["deploy", "test", "build"]).indexOf b < (sortJobsByNeeds { jobs := [{ id := "build", needs := [] }, { id := "test", needs := ["build"] }, { id := "deploy", needs := ["test"] }] } ["deploy", "test", "build"]).indexOf a) ∧
     sortJobsByNeeds { jobs := [{ id := "x", needs := [] }, { id := "y", needs := [] }] } ["y", "x"] = ["y", "x"]) :=
  ⟨⟨by decide, by decide, by decide, by decide⟩,
   sortJobs_topo_amended { jobs := [{ id := "build", needs := [] }, { id := "test", needs := ["build"] }, { id := "deploy", needs := ["test"] }] } ["deploy", "test", "build"] (fun s => if s = "build" then 0 else if s = "test" then 1 else 2) (by decide) (by decide) (by decide) (by decide)⟩

end XCI
